/-
  Verification of the uncertainty-region / probing engine of the
  Lightning Network probing simulator (rectangle.py, hop.py, isolated.py).

  The Python code is shallowly embedded: rectangles become an inductive
  type, the mutable Hop object becomes a structure with explicit state
  passing, fatal assertion failures and Python ValueError / max([]) errors
  become `Option`/`Except` failures.  Coordinates, bounds and amounts are
  integers (`Int`), matching the integer arithmetic of the source.
-/
import Mathlib

set_option maxHeartbeats 1000000

/-! ### List helpers

Python's `max(...)` / `min(...)` over a nonempty sequence are modelled by
left folds, and in-place elementwise updates of a Python list are modelled
by `updWhere`. -/

/-- Left fold with `max`, i.e. Python `max` seeded with a first element. -/
def foldlMax (a : Int) (l : List Int) : Int := l.foldl max a

/-- Left fold with `min`. -/
def foldlMin (a : Int) (l : List Int) : Int := l.foldl min a

/-- Python `max(l)`.  Python raises on an empty list; every call site in the
source guards nonemptiness, and callers in this file do the same (the `[]`
case is modelled separately where the source can actually raise). -/
def pyMax : List Int → Int
  | [] => 0
  | a :: t => foldlMax a t

/-- Python `min(l)`. -/
def pyMin : List Int → Int
  | [] => 0
  | a :: t => foldlMin a t

theorem le_foldlMax_seed (a : Int) (l : List Int) : a ≤ foldlMax a l := by
  induction l generalizing a with
  | nil => simp [foldlMax]
  | cons x t ih =>
    have h1 := ih (max a x)
    simp only [foldlMax, List.foldl_cons] at h1 ⊢
    exact le_trans (le_max_left a x) h1

theorem le_foldlMax_of_mem {x : Int} {l : List Int} (a : Int) (hx : x ∈ l) :
    x ≤ foldlMax a l := by
  induction l generalizing a with
  | nil => cases hx
  | cons y t ih =>
    simp only [foldlMax, List.foldl_cons]
    rcases List.mem_cons.mp hx with rfl | hmem
    · exact le_trans (le_max_right a x) (le_foldlMax_seed _ t)
    · exact ih _ hmem

theorem foldlMax_le {a m : Int} {l : List Int} (ha : a ≤ m)
    (hl : ∀ x ∈ l, x ≤ m) : foldlMax a l ≤ m := by
  induction l generalizing a with
  | nil => simpa [foldlMax] using ha
  | cons y t ih =>
    simp only [foldlMax, List.foldl_cons]
    exact ih (max_le ha (hl y (List.mem_cons_self y t)))
      (fun x hx => hl x (List.mem_cons_of_mem _ hx))

theorem foldlMax_eq_seed_or_mem (a : Int) (l : List Int) :
    foldlMax a l = a ∨ foldlMax a l ∈ l := by
  induction l generalizing a with
  | nil => left; rfl
  | cons y t ih =>
    have hstep : foldlMax a (y :: t) = foldlMax (max a y) t := rfl
    rw [hstep]
    rcases ih (max a y) with h | h
    · rcases le_total a y with hay | hya
      · right; rw [h, max_eq_right hay]; exact List.mem_cons_self y t
      · left; rw [h, max_eq_left hya]
    · right; exact List.mem_cons_of_mem _ h

theorem foldlMin_le_seed (a : Int) (l : List Int) : foldlMin a l ≤ a := by
  induction l generalizing a with
  | nil => simp [foldlMin]
  | cons x t ih =>
    have h1 := ih (min a x)
    simp only [foldlMin, List.foldl_cons] at h1 ⊢
    exact le_trans h1 (min_le_left a x)

theorem foldlMin_le_of_mem {x : Int} {l : List Int} (a : Int) (hx : x ∈ l) :
    foldlMin a l ≤ x := by
  induction l generalizing a with
  | nil => cases hx
  | cons y t ih =>
    simp only [foldlMin, List.foldl_cons]
    rcases List.mem_cons.mp hx with rfl | hmem
    · exact le_trans (foldlMin_le_seed _ t) (min_le_right a x)
    · exact ih _ hmem

theorem le_foldlMin {a m : Int} {l : List Int} (ha : m ≤ a)
    (hl : ∀ x ∈ l, m ≤ x) : m ≤ foldlMin a l := by
  induction l generalizing a with
  | nil => simpa [foldlMin] using ha
  | cons y t ih =>
    simp only [foldlMin, List.foldl_cons]
    exact ih (le_min ha (hl y (List.mem_cons_self y t)))
      (fun x hx => hl x (List.mem_cons_of_mem _ hx))

theorem foldlMin_eq_seed_or_mem (a : Int) (l : List Int) :
    foldlMin a l = a ∨ foldlMin a l ∈ l := by
  induction l generalizing a with
  | nil => left; rfl
  | cons y t ih =>
    have hstep : foldlMin a (y :: t) = foldlMin (min a y) t := rfl
    rw [hstep]
    rcases ih (min a y) with h | h
    · rcases le_total a y with hay | hya
      · left; rw [h, min_eq_left hay]
      · right; rw [h, min_eq_right hya]; exact List.mem_cons_self y t
    · right; exact List.mem_cons_of_mem _ h

theorem le_pyMax_of_mem {x : Int} {l : List Int} (hx : x ∈ l) : x ≤ pyMax l := by
  cases l with
  | nil => cases hx
  | cons a t =>
    rcases List.mem_cons.mp hx with rfl | hmem
    · exact le_foldlMax_seed _ _
    · exact le_foldlMax_of_mem _ hmem

theorem pyMax_le {m : Int} {l : List Int} (hne : l ≠ [])
    (hl : ∀ x ∈ l, x ≤ m) : pyMax l ≤ m := by
  cases l with
  | nil => exact absurd rfl hne
  | cons a t =>
    exact foldlMax_le (hl a (List.mem_cons_self a t))
      (fun x hx => hl x (List.mem_cons_of_mem _ hx))

theorem pyMax_mem {l : List Int} (hne : l ≠ []) : pyMax l ∈ l := by
  cases l with
  | nil => exact absurd rfl hne
  | cons a t =>
    rcases foldlMax_eq_seed_or_mem a t with h | h
    · rw [pyMax, h]; exact List.mem_cons_self a t
    · exact List.mem_cons_of_mem _ (by simpa [pyMax] using h)

theorem pyMin_le_of_mem {x : Int} {l : List Int} (hx : x ∈ l) : pyMin l ≤ x := by
  cases l with
  | nil => cases hx
  | cons a t =>
    rcases List.mem_cons.mp hx with rfl | hmem
    · exact foldlMin_le_seed _ _
    · exact foldlMin_le_of_mem _ hmem

theorem le_pyMin {m : Int} {l : List Int} (hne : l ≠ [])
    (hl : ∀ x ∈ l, m ≤ x) : m ≤ pyMin l := by
  cases l with
  | nil => exact absurd rfl hne
  | cons a t =>
    exact le_foldlMin (hl a (List.mem_cons_self a t))
      (fun x hx => hl x (List.mem_cons_of_mem _ hx))

theorem pyMin_mem {l : List Int} (hne : l ≠ []) : pyMin l ∈ l := by
  cases l with
  | nil => exact absurd rfl hne
  | cons a t =>
    rcases foldlMin_eq_seed_or_mem a t with h | h
    · rw [pyMin, h]; exact List.mem_cons_self a t
    · exact List.mem_cons_of_mem _ (by simpa [pyMin] using h)

/-- Elementwise update of a Python list: positions `k` (counting from `start`)
with `p k = true` are replaced by `f k x`.  Models loops of the form
`for i in ...: xs[i] = f(i, xs[i])` (updates at distinct indices commute). -/
def updWhere (p : Nat → Bool) (f : Nat → Int → Int) : Nat → List Int → List Int
  | _, [] => []
  | k, x :: t => (if p k then f k x else x) :: updWhere p f (k + 1) t

theorem updWhere_length (p : Nat → Bool) (f : Nat → Int → Int) (k : Nat)
    (l : List Int) : (updWhere p f k l).length = l.length := by
  induction l generalizing k with
  | nil => rfl
  | cons x t ih => simp [updWhere, ih]

theorem updWhere_getD (p : Nat → Bool) (f : Nat → Int → Int) (k : Nat)
    (l : List Int) (i : Nat) (hi : i < l.length) :
    (updWhere p f k l).getD i 0 =
      if p (k + i) then f (k + i) (l.getD i 0) else l.getD i 0 := by
  induction l generalizing k i with
  | nil => cases hi
  | cons x t ih =>
    cases i with
    | zero => simp [updWhere]
    | succ n =>
      have hn : n < t.length := Nat.lt_of_succ_lt_succ hi
      have := ih (k + 1) n hn
      simp only [updWhere, List.getD_cons_succ]
      rw [this, Nat.add_assoc, Nat.add_comm 1 n]

/-! ### Rectangles (rectangle.py)

`Rectangle.__init__` normalises: if either vertex list is empty (Python
falsy) or some coordinate of the lower vertex exceeds the corresponding
coordinate of the upper vertex, the rectangle is empty (vertices `None`). -/

inductive Rectangle where
  | empty : Rectangle
  | box (l u : List Int) : Rectangle
deriving DecidableEq, Repr

/-- `Rectangle(l_vertex, u_vertex)`: the constructor including its
normalisation (empty-list truthiness test and the `is_empty` computation). -/
def mkRect (l u : List Int) : Rectangle :=
  if l.isEmpty || u.isEmpty then .empty
  else if (List.zip l u).all (fun q => q.1 ≤ q.2) then .box l u
  else .empty

/-- `Rectangle.S()`: the number of integer points, computed as the product of
the (clamped) side widths; 0 for the empty rectangle. -/
def Rectangle.S : Rectangle → Int
  | .empty => 0
  | .box l u => (List.zip l u).foldl (fun acc q => acc * max 0 (q.2 - q.1 + 1)) 1

/-- `Rectangle.contains_point(point)` (the `point is None` branch of the
source is never taken by the probing engine and is not modelled). -/
def Rectangle.containsPoint : Rectangle → List Int → Bool
  | .empty, _ => false
  | .box l u, p =>
      (List.zip l p).all (fun q => q.1 ≤ q.2) && (List.zip p u).all (fun q => q.1 ≤ q.2)

/-- `Rectangle.is_inside(other_rectangle)`. -/
def Rectangle.isInside : Rectangle → Rectangle → Bool
  | .empty, _ => true
  | .box _ _, .empty => false
  | .box l u, .box ol ou =>
      (List.range l.length).all
        (fun i => ol.getD i 0 ≤ l.getD i 0 && u.getD i 0 ≤ ou.getD i 0)

/-- `Rectangle.intersect_with(other_rectangle)`: axis-by-axis check for
disjointness, then the rectangle of coordinatewise max/min vertices. -/
def Rectangle.intersectWith : Rectangle → Rectangle → Rectangle
  | .empty, _ => .empty
  | .box _ _, .empty => .empty
  | .box l u, .box ol ou =>
      if (List.range l.length).any
          (fun i => l.getD i 0 > ou.getD i 0 || u.getD i 0 < ol.getD i 0) then
        .empty
      else
        mkRect (List.zipWith max l ol) (List.zipWith min u ou)

/-- The set of integer points inside an axis-aligned box given by its two
vertex lists (used to state what `S` counts; not part of the source). -/
def boxPts : List Int → List Int → Finset (List Int)
  | [], [] => {[]}
  | a :: l, b :: u => (Finset.Icc a b).biUnion (fun x => (boxPts l u).image (x :: ·))
  | _, _ => ∅

/-- The set of integer points of a rectangle. -/
def Rectangle.pts : Rectangle → Finset (List Int)
  | .empty => ∅
  | .box l u => boxPts l u

/-- Well-formedness at dimension `n`: the invariant `Rectangle.__init__`
guarantees for its non-empty rectangles. -/
def Rectangle.WF (n : Nat) : Rectangle → Prop
  | .empty => True
  | .box l u => l.length = n ∧ u.length = n ∧ List.Forall₂ (· ≤ ·) l u

theorem mem_boxPts {p l u : List Int} :
    p ∈ boxPts l u ↔ List.Forall₂ (· ≤ ·) l p ∧ List.Forall₂ (· ≤ ·) p u := by
  induction l generalizing p u with
  | nil =>
    cases u with
    | nil =>
      constructor
      · intro hp
        simp only [boxPts, Finset.mem_singleton] at hp
        subst hp; exact ⟨List.Forall₂.nil, List.Forall₂.nil⟩
      · rintro ⟨h1, h2⟩
        cases h1; simp [boxPts]
    | cons b us =>
      simp only [boxPts, Finset.not_mem_empty, false_iff]
      rintro ⟨h1, h2⟩
      cases h1; cases h2
  | cons a ls ih =>
    cases u with
    | nil =>
      simp only [boxPts, Finset.not_mem_empty, false_iff]
      rintro ⟨h1, h2⟩
      cases h1; cases h2
    | cons b us =>
      constructor
      · intro hp
        simp only [boxPts, Finset.mem_biUnion, Finset.mem_image, Finset.mem_Icc] at hp
        obtain ⟨x, ⟨hax, hxb⟩, q, hq, rfl⟩ := hp
        obtain ⟨hq1, hq2⟩ := ih.mp hq
        exact ⟨List.Forall₂.cons hax hq1, List.Forall₂.cons hxb hq2⟩
      · rintro ⟨h1, h2⟩
        cases h1 with
        | cons hax h1t =>
          cases h2 with
          | cons hxb h2t =>
            simp only [boxPts, Finset.mem_biUnion, Finset.mem_image, Finset.mem_Icc]
            exact ⟨_, ⟨hax, hxb⟩, _, ih.mpr ⟨h1t, h2t⟩, rfl⟩

theorem boxPts_card {l u : List Int} (h : l.length = u.length) :
    (boxPts l u).card = ((List.zip l u).map (fun q => (q.2 - q.1 + 1).toNat)).prod := by
  induction l generalizing u with
  | nil =>
    cases u with
    | nil => simp [boxPts]
    | cons b us => simp at h
  | cons a ls ih =>
    cases u with
    | nil => simp at h
    | cons b us =>
      have hlen : ls.length = us.length := by simpa using h
      simp only [boxPts, List.zip_cons_cons, List.map_cons, List.prod_cons]
      rw [Finset.card_biUnion]
      · have hcardim : ∀ x : Int, ((boxPts ls us).image (x :: ·)).card = (boxPts ls us).card := by
          intro x
          apply Finset.card_image_of_injective
          intro p q hpq
          simpa using hpq
        calc (Finset.Icc a b).sum (fun x => ((boxPts ls us).image (x :: ·)).card)
            = (Finset.Icc a b).sum (fun _ => (boxPts ls us).card) := by
              exact Finset.sum_congr rfl (fun x _ => hcardim x)
          _ = (Finset.Icc a b).card * (boxPts ls us).card := by
              rw [Finset.sum_const, smul_eq_mul]
          _ = (b - a + 1).toNat * ((List.zip ls us).map (fun q => (q.2 - q.1 + 1).toNat)).prod := by
              rw [Int.card_Icc, ih hlen]
              have : b + 1 - a = b - a + 1 := by ring
              rw [this]
      · intro x _ y _ hxy
        simp only [Finset.disjoint_left, Finset.mem_image]
        rintro p ⟨q, _, rfl⟩ ⟨r, _, hr⟩
        apply hxy
        exact (List.cons_eq_cons.mp hr.symm).1

theorem forall₂_le_trans {l p u : List Int} (h1 : List.Forall₂ (· ≤ ·) l p)
    (h2 : List.Forall₂ (· ≤ ·) p u) : List.Forall₂ (· ≤ ·) l u := by
  induction h1 generalizing u with
  | nil => cases h2; exact List.Forall₂.nil
  | cons hab hrest ih =>
    cases h2 with
    | cons hbc h2rest => exact List.Forall₂.cons (le_trans hab hbc) (ih h2rest)

theorem forall₂_le_iff_getD {l u : List Int} (h : l.length = u.length) :
    List.Forall₂ (· ≤ ·) l u ↔ ∀ i < l.length, l.getD i 0 ≤ u.getD i 0 := by
  induction l generalizing u with
  | nil =>
    cases u with
    | nil => simp
    | cons b us => simp at h
  | cons a ls ih =>
    cases u with
    | nil => simp at h
    | cons b us =>
      have hlen : ls.length = us.length := by simpa using h
      constructor
      · intro hf i hi
        cases hf with
        | cons hab hrest =>
          cases i with
          | zero => simpa using hab
          | succ n =>
            have hn : n < ls.length := by simpa using hi
            simpa using (ih hlen).mp hrest n hn
      · intro hg
        refine List.Forall₂.cons ?_ ((ih hlen).mpr ?_)
        · simpa using hg 0 (by simp)
        · intro n hn
          simpa using hg (n + 1) (by simpa using Nat.succ_lt_succ hn)

theorem forall₂_le_iff_zip_all {l u : List Int} (h : l.length = u.length) :
    List.Forall₂ (· ≤ ·) l u ↔ (List.zip l u).all (fun q => q.1 ≤ q.2) = true := by
  rw [List.forall₂_iff_zip]
  constructor
  · rintro ⟨-, hz⟩
    rw [List.all_eq_true]
    rintro ⟨a, b⟩ hab
    exact decide_eq_true_eq.mpr (hz hab)
  · intro hz
    refine ⟨h, ?_⟩
    intro a b hab
    exact decide_eq_true_eq.mp (List.all_eq_true.mp hz _ hab)

theorem mem_boxPts_getD {p l u : List Int} :
    p ∈ boxPts l u ↔ p.length = l.length ∧ l.length = u.length ∧
      ∀ i < l.length, l.getD i 0 ≤ p.getD i 0 ∧ p.getD i 0 ≤ u.getD i 0 := by
  rw [mem_boxPts]
  constructor
  · rintro ⟨h1, h2⟩
    have hl1 : l.length = p.length := List.Forall₂.length_eq h1
    have hl2 : p.length = u.length := List.Forall₂.length_eq h2
    refine ⟨hl1.symm, hl1.trans hl2, ?_⟩
    intro i hi
    exact ⟨(forall₂_le_iff_getD hl1).mp h1 i hi,
      (forall₂_le_iff_getD hl2).mp h2 i (by rw [← hl1]; exact hi)⟩
  · rintro ⟨hp, hlu, hij⟩
    constructor
    · exact (forall₂_le_iff_getD hp.symm).mpr (fun i hi => (hij i hi).1)
    · refine (forall₂_le_iff_getD (by rw [hp, hlu])).mpr ?_
      intro i hi
      exact (hij i (by rw [← hp]; exact hi)).2

theorem boxPts_eq_empty_of_not_forall₂ {l u : List Int}
    (h : ¬ List.Forall₂ (· ≤ ·) l u) : boxPts l u = ∅ := by
  by_contra hne
  obtain ⟨p, hp⟩ := Finset.nonempty_iff_ne_empty.mpr hne
  obtain ⟨h1, h2⟩ := mem_boxPts.mp hp
  exact h (forall₂_le_trans h1 h2)

theorem pts_mkRect {l u : List Int} (hne : l ≠ []) (hlen : l.length = u.length) :
    (mkRect l u).pts = boxPts l u := by
  have hlne : l.isEmpty = false := by
    cases l with
    | nil => exact absurd rfl hne
    | cons a t => rfl
  have hune : u.isEmpty = false := by
    cases u with
    | nil =>
      cases l with
      | nil => exact absurd rfl hne
      | cons a t => simp at hlen
    | cons b t => rfl
  by_cases hall : (List.zip l u).all (fun q => q.1 ≤ q.2) = true
  · simp [mkRect, hlne, hune, hall, Rectangle.pts]
  · have : ¬ List.Forall₂ (· ≤ ·) l u := fun hf => hall ((forall₂_le_iff_zip_all hlen).mp hf)
    simp [mkRect, hlne, hune, hall, Rectangle.pts,
      boxPts_eq_empty_of_not_forall₂ this]

theorem mkRect_WF {l u : List Int} {n : Nat} (hl : l.length = n) (hu : u.length = n) :
    (mkRect l u).WF n := by
  unfold mkRect
  by_cases he : (l.isEmpty || u.isEmpty) = true
  · simp [he, Rectangle.WF]
  · simp only [he, if_false, Bool.false_eq_true]
    by_cases hall : (List.zip l u).all (fun q => q.1 ≤ q.2) = true
    · simp only [hall, if_true]
      exact ⟨hl, hu, (forall₂_le_iff_zip_all (by rw [hl, hu])).mpr hall⟩
    · simp [hall, Rectangle.WF]

theorem S_box_eq_prod (l u : List Int) :
    (Rectangle.box l u).S = ((List.zip l u).map (fun q => max 0 (q.2 - q.1 + 1))).prod := by
  show (List.zip l u).foldl (fun acc q => acc * max 0 (q.2 - q.1 + 1)) 1 = _
  rw [List.prod_eq_foldl, ← List.foldl_map]

/-- The area (`S`) of a well-formed rectangle is the number of its integer
points. -/
theorem S_eq_card_pts {r : Rectangle} {n : Nat} (hwf : r.WF n) :
    r.S = (r.pts.card : Int) := by
  cases r with
  | empty => simp [Rectangle.S, Rectangle.pts]
  | box l u =>
    obtain ⟨hl, hu, -⟩ := hwf
    have hlen : l.length = u.length := by rw [hl, hu]
    rw [S_box_eq_prod]
    show _ = ((boxPts l u).card : Int)
    rw [boxPts_card hlen, Nat.cast_list_prod, List.map_map]
    congr 1
    apply List.map_congr_left
    intro q _
    simp only [Function.comp_apply]
    rw [Int.toNat_eq_max, max_comm]

theorem intersectWith_WF {A B : Rectangle} {n : Nat} (hA : A.WF n) (hB : B.WF n) :
    (A.intersectWith B).WF n := by
  cases A with
  | empty => simp [Rectangle.intersectWith, Rectangle.WF]
  | box l u =>
    cases B with
    | empty => simp [Rectangle.intersectWith, Rectangle.WF]
    | box ol ou =>
      obtain ⟨hl, hu, -⟩ := hA
      obtain ⟨hol, hou, -⟩ := hB
      simp only [Rectangle.intersectWith]
      by_cases hany : ((List.range l.length).any
          (fun i => l.getD i 0 > ou.getD i 0 || u.getD i 0 < ol.getD i 0)) = true
      · rw [if_pos hany]; exact trivial
      · rw [if_neg hany]
        exact mkRect_WF (by rw [List.length_zipWith, hl, hol]; simp)
          (by rw [List.length_zipWith, hu, hou]; simp)

theorem getD_zipWith (f : Int → Int → Int) (l u : List Int) (i : Nat)
    (hi : i < l.length) (hi2 : i < u.length) :
    (List.zipWith f l u).getD i 0 = f (l.getD i 0) (u.getD i 0) := by
  induction l generalizing u i with
  | nil => cases hi
  | cons a ls ih =>
    cases u with
    | nil => cases hi2
    | cons b us =>
      cases i with
      | zero => simp
      | succ m =>
        simp only [List.zipWith_cons_cons, List.getD_cons_succ]
        exact ih us m (Nat.lt_of_succ_lt_succ hi) (Nat.lt_of_succ_lt_succ hi2)

/-- Intersection computes the intersection of the point sets (in positive
dimension; the source never builds 0-dimensional rectangles since a hop has
at least one channel). -/
theorem pts_intersectWith {A B : Rectangle} {n : Nat} (hn : 1 ≤ n)
    (hA : A.WF n) (hB : B.WF n) :
    (A.intersectWith B).pts = A.pts ∩ B.pts := by
  cases A with
  | empty => simp [Rectangle.intersectWith, Rectangle.pts]
  | box l u =>
    cases B with
    | empty => simp [Rectangle.intersectWith, Rectangle.pts]
    | box ol ou =>
      obtain ⟨hl, hu, -⟩ := hA
      obtain ⟨hol, hou, -⟩ := hB
      have hlne : l ≠ [] := by
        intro hcon
        have h0 := congrArg List.length hcon
        rw [hl] at h0
        simp only [List.length_nil] at h0
        omega
      simp only [Rectangle.intersectWith]
      by_cases hany : ((List.range l.length).any
          (fun i => l.getD i 0 > ou.getD i 0 || u.getD i 0 < ol.getD i 0)) = true
      · rw [if_pos hany]
        obtain ⟨i, hirange, hibad⟩ := List.any_eq_true.mp hany
        have hi : i < n := by rw [← hl]; exact List.mem_range.mp hirange
        show (∅ : Finset (List Int)) = _
        symm
        rw [Finset.eq_empty_iff_forall_not_mem]
        intro p hp
        obtain ⟨hp1, hp2⟩ := Finset.mem_inter.mp hp
        obtain ⟨-, -, hij1⟩ := mem_boxPts_getD.mp hp1
        obtain ⟨-, -, hij2⟩ := mem_boxPts_getD.mp hp2
        have h1 := hij1 i (by omega)
        have h2 := hij2 i (by omega)
        rcases Bool.or_eq_true_iff.mp hibad with hbad | hbad
        · have := decide_eq_true_eq.mp hbad; omega
        · have := decide_eq_true_eq.mp hbad; omega
      · rw [if_neg hany]
        have hne2 : List.zipWith max l ol ≠ [] := by
          intro hcon
          have h0 := congrArg List.length hcon
          rw [List.length_zipWith] at h0
          simp only [List.length_nil] at h0
          omega
        have hlen2 : (List.zipWith max l ol).length = (List.zipWith min u ou).length := by
          rw [List.length_zipWith, List.length_zipWith]
          omega
        rw [pts_mkRect hne2 hlen2]
        show _ = boxPts l u ∩ boxPts ol ou
        ext p
        rw [mem_boxPts_getD, Finset.mem_inter, mem_boxPts_getD, mem_boxPts_getD]
        have hmaxlen : (List.zipWith max l ol).length = n := by
          rw [List.length_zipWith]; omega
        have hminlen : (List.zipWith min u ou).length = n := by
          rw [List.length_zipWith]; omega
        constructor
        · rintro ⟨hp, -, hij⟩
          rw [hmaxlen] at hp hij
          refine ⟨⟨by omega, by omega, ?_⟩, by omega, by omega, ?_⟩ <;>
          · intro i hi
            have := hij i (by omega)
            rw [getD_zipWith max l ol i (by omega) (by omega),
              getD_zipWith min u ou i (by omega) (by omega)] at this
            constructor <;> [exact le_trans (by simp) this.1; exact le_trans this.2 (by simp)]
        · rintro ⟨⟨hp, -, hij1⟩, -, -, hij2⟩
          refine ⟨by omega, by omega, ?_⟩
          intro i hi
          rw [hmaxlen] at hi
          have h1 := hij1 i (by omega)
          have h2 := hij2 i (by omega)
          rw [getD_zipWith max l ol i (by omega) (by omega),
            getD_zipWith min u ou i (by omega) (by omega)]
          exact ⟨max_le h1.1 h2.1, le_min h1.2 h2.2⟩

/-- `is_inside` implies point-set inclusion (for well-formed rectangles of
equal dimension). -/
theorem pts_subset_of_isInside {A B : Rectangle} {n : Nat}
    (hA : A.WF n) (hB : B.WF n) (h : A.isInside B = true) : A.pts ⊆ B.pts := by
  cases A with
  | empty => intro p hp; cases hp
  | box l u =>
    cases B with
    | empty => simp [Rectangle.isInside] at h
    | box ol ou =>
      obtain ⟨hl, hu, -⟩ := hA
      obtain ⟨hol, hou, -⟩ := hB
      have h' : (List.range l.length).all
          (fun i => decide (ol.getD i 0 ≤ l.getD i 0)
            && decide (u.getD i 0 ≤ ou.getD i 0)) = true := h
      intro p hp
      obtain ⟨hp1, hp2, hp3⟩ := mem_boxPts_getD.mp hp
      refine mem_boxPts_getD.mpr ⟨by omega, by omega, ?_⟩
      intro i hi
      have hcond := List.all_eq_true.mp h' i (List.mem_range.mpr (by omega))
      have h3 := hp3 i (by omega)
      rcases Bool.and_eq_true_iff.mp hcond with ⟨hc1, hc2⟩
      have hc1 := decide_eq_true_eq.mp hc1
      have hc2 := decide_eq_true_eq.mp hc2
      omega

/-- `contains_point` decides membership in the point set (for points of
matching length — the source asserts the length match). -/
theorem containsPoint_iff_mem_pts {r : Rectangle} {n : Nat} {p : List Int}
    (hr : r.WF n) (hp : p.length = n) :
    r.containsPoint p = true ↔ p ∈ r.pts := by
  cases r with
  | empty => simp [Rectangle.containsPoint, Rectangle.pts]
  | box l u =>
    obtain ⟨hl, hu, -⟩ := hr
    show _ ↔ p ∈ boxPts l u
    rw [mem_boxPts, Rectangle.containsPoint, Bool.and_eq_true_iff,
      ← forall₂_le_iff_zip_all (by omega), ← forall₂_le_iff_zip_all (by omega)]

/-- The four corner intersections and the inclusion–exclusion value computed
by `Hop.S_F_generic` (the raw arithmetic; the surrounding assertions are
modelled by `S_F_generic` below). -/
def SFvalue (R_h_l R_h_u R_g_l R_g_u R_b : Rectangle) : Int :=
  let R_u_u := (R_h_u.intersectWith R_g_u).intersectWith R_b
  let R_u_l := (R_h_u.intersectWith R_g_l).intersectWith R_b
  let R_l_u := (R_h_l.intersectWith R_g_u).intersectWith R_b
  let R_l_l := (R_h_l.intersectWith R_g_l).intersectWith R_b
  R_u_u.S - R_u_l.S - R_l_u.S + R_l_l.S

/-- `Hop.S_F_generic(R_h_l, R_h_u, R_g_l, R_g_u, R_b)` with its two fatal
assertions (`R_l_l.is_inside(R_u_u)` and `S_F >= 0`) modelled as `none`. -/
def S_F_generic (R_h_l R_h_u R_g_l R_g_u R_b : Rectangle) : Option Int :=
  let R_u_u := (R_h_u.intersectWith R_g_u).intersectWith R_b
  let R_l_l := (R_h_l.intersectWith R_g_l).intersectWith R_b
  if R_l_l.isInside R_u_u then
    let S_F := SFvalue R_h_l R_h_u R_g_l R_g_u R_b
    if 0 ≤ S_F then some S_F else none
  else none

/-- The admissible region: the set of points inside `R_h_u`, `R_g_u` and
`R_b` and outside both `R_h_l` and `R_g_l`.  These are the possible
positions of the true balance vector. -/
def Fpts (R_h_l R_h_u R_g_l R_g_u R_b : Rectangle) : Finset (List Int) :=
  ((R_h_u.pts ∩ R_g_u.pts) ∩ R_b.pts) \ (R_h_l.pts ∪ R_g_l.pts)

theorem card_sdiff_union_inter (A X Y : Finset (List Int)) :
    ((A \ (X ∪ Y)).card : Int) =
      (A.card : Int) - ((A ∩ X).card : Int) - ((A ∩ Y).card : Int)
        + ((A ∩ X ∩ Y).card : Int) := by
  have h1 : (A ∩ (X ∪ Y)).card + (A \ (X ∪ Y)).card = A.card :=
    Finset.card_inter_add_card_sdiff A (X ∪ Y)
  have h2 : A ∩ (X ∪ Y) = (A ∩ X) ∪ (A ∩ Y) := Finset.inter_union_distrib_left A X Y
  have h3 : ((A ∩ X) ∪ (A ∩ Y)).card + ((A ∩ X) ∩ (A ∩ Y)).card
      = (A ∩ X).card + (A ∩ Y).card := Finset.card_union_add_card_inter _ _
  have h4 : (A ∩ X) ∩ (A ∩ Y) = A ∩ X ∩ Y := by
    ext p
    simp only [Finset.mem_inter]
    tauto
  rw [h2] at h1
  rw [h4] at h3
  omega

/-- Inclusion–exclusion correctness of the `S_F` formula: whenever the two
lower-bound rectangles sit inside the corresponding upper-bound rectangles
(as point sets), the value computed by `S_F_generic` counts exactly the
points of the admissible region. -/
theorem SFvalue_eq_card_Fpts {n : Nat} (hn : 1 ≤ n)
    {R_h_l R_h_u R_g_l R_g_u R_b : Rectangle}
    (w1 : R_h_l.WF n) (w2 : R_h_u.WF n) (w3 : R_g_l.WF n) (w4 : R_g_u.WF n)
    (w5 : R_b.WF n)
    (hh : R_h_l.pts ⊆ R_h_u.pts) (hg : R_g_l.pts ⊆ R_g_u.pts) :
    SFvalue R_h_l R_h_u R_g_l R_g_u R_b
      = ((Fpts R_h_l R_h_u R_g_l R_g_u R_b).card : Int) := by
  have wu : ((R_h_u.intersectWith R_g_u).intersectWith R_b).WF n :=
    intersectWith_WF (intersectWith_WF w2 w4) w5
  have wul : ((R_h_u.intersectWith R_g_l).intersectWith R_b).WF n :=
    intersectWith_WF (intersectWith_WF w2 w3) w5
  have wlu : ((R_h_l.intersectWith R_g_u).intersectWith R_b).WF n :=
    intersectWith_WF (intersectWith_WF w1 w4) w5
  have wll : ((R_h_l.intersectWith R_g_l).intersectWith R_b).WF n :=
    intersectWith_WF (intersectWith_WF w1 w3) w5
  have puu : ((R_h_u.intersectWith R_g_u).intersectWith R_b).pts
      = (R_h_u.pts ∩ R_g_u.pts) ∩ R_b.pts := by
    rw [pts_intersectWith hn (intersectWith_WF w2 w4) w5, pts_intersectWith hn w2 w4]
  have pul : ((R_h_u.intersectWith R_g_l).intersectWith R_b).pts
      = (R_h_u.pts ∩ R_g_l.pts) ∩ R_b.pts := by
    rw [pts_intersectWith hn (intersectWith_WF w2 w3) w5, pts_intersectWith hn w2 w3]
  have plu : ((R_h_l.intersectWith R_g_u).intersectWith R_b).pts
      = (R_h_l.pts ∩ R_g_u.pts) ∩ R_b.pts := by
    rw [pts_intersectWith hn (intersectWith_WF w1 w4) w5, pts_intersectWith hn w1 w4]
  have pll : ((R_h_l.intersectWith R_g_l).intersectWith R_b).pts
      = (R_h_l.pts ∩ R_g_l.pts) ∩ R_b.pts := by
    rw [pts_intersectWith hn (intersectWith_WF w1 w3) w5, pts_intersectWith hn w1 w3]
  set A := (R_h_u.pts ∩ R_g_u.pts) ∩ R_b.pts with hA
  have hulA : (R_h_u.pts ∩ R_g_l.pts) ∩ R_b.pts = A ∩ R_g_l.pts := by
    ext p
    simp only [hA, Finset.mem_inter]
    constructor
    · rintro ⟨⟨p1, p2⟩, p3⟩
      exact ⟨⟨⟨p1, hg p2⟩, p3⟩, p2⟩
    · rintro ⟨⟨⟨p1, -⟩, p3⟩, p2⟩
      exact ⟨⟨p1, p2⟩, p3⟩
  have hluA : (R_h_l.pts ∩ R_g_u.pts) ∩ R_b.pts = A ∩ R_h_l.pts := by
    ext p
    simp only [hA, Finset.mem_inter]
    constructor
    · rintro ⟨⟨p1, p2⟩, p3⟩
      exact ⟨⟨⟨hh p1, p2⟩, p3⟩, p1⟩
    · rintro ⟨⟨⟨-, p2⟩, p3⟩, p1⟩
      exact ⟨⟨p1, p2⟩, p3⟩
  have hllA : (R_h_l.pts ∩ R_g_l.pts) ∩ R_b.pts = A ∩ R_h_l.pts ∩ R_g_l.pts := by
    ext p
    simp only [hA, Finset.mem_inter]
    constructor
    · rintro ⟨⟨p1, p2⟩, p3⟩
      exact ⟨⟨⟨⟨hh p1, hg p2⟩, p3⟩, p1⟩, p2⟩
    · rintro ⟨⟨⟨⟨-, -⟩, p3⟩, p1⟩, p2⟩
      exact ⟨⟨p1, p2⟩, p3⟩
  show ((R_h_u.intersectWith R_g_u).intersectWith R_b).S
      - ((R_h_u.intersectWith R_g_l).intersectWith R_b).S
      - ((R_h_l.intersectWith R_g_u).intersectWith R_b).S
      + ((R_h_l.intersectWith R_g_l).intersectWith R_b).S = _
  rw [S_eq_card_pts wu, S_eq_card_pts wul, S_eq_card_pts wlu, S_eq_card_pts wll,
    puu, pul, plu, pll, hulA, hluA, hllA]
  show _ = ((A \ (R_h_l.pts ∪ R_g_l.pts)).card : Int)
  rw [card_sdiff_union_inter A R_h_l.pts R_g_l.pts]
  ring

/-! ### The Hop (hop.py)

Channel direction is encoded as a boolean, as in the source:
`dir0 = True`, `dir1 = False`.  The mutable attributes of the Python object
become fields; `probe` returns the new state.  All drivers in the repository
construct hops with the default `granularity=1`; the field is kept.
`uncertainty = max(0, log2(S_F) - log2(granularity))` is a float in the
source; the engine only ever compares it with `0`, and for the default
granularity 1 the comparison `uncertainty == 0` is exactly `S_F <= 1`
(`log2` of an integer `>= 2` is `>= 1` exactly in floating point), which is
how it is modelled (`uncertaintyZero`). -/

abbrev dir0 : Bool := true
abbrev dir1 : Bool := false

structure Hop where
  c : List Int
  e0 : List Nat
  e1 : List Nat
  j0 : List Nat
  j1 : List Nat
  b : List Int
  h : Int
  g : Int
  granularity : Int
  h_l : Int
  h_u : Int
  g_l : Int
  g_u : Int
  b_l : List Int
  b_u : List Int
deriving Repr, DecidableEq

/-- `self.e[direction]`. -/
def Hop.e (s : Hop) (d : Bool) : List Nat := if d then s.e0 else s.e1

/-- `self.j[direction]`. -/
def Hop.j (s : Hop) (d : Bool) : List Nat := if d then s.j0 else s.j1

/-- `self.N`. -/
def Hop.N (s : Hop) : Nat := s.c.length

/-- `Hop.can_forward(direction)`: at least one channel enabled and not
jammed in this direction. -/
def Hop.canForward (s : Hop) (d : Bool) : Bool :=
  !((s.e d).all (fun i => (s.j d).contains i))

/-- The channels that are enabled and not jammed in a direction
(`available_channels` in `probe` / `S_F_a_expected` / `next_a`). -/
def Hop.availChannels (s : Hop) (d : Bool) : List Nat :=
  (s.e d).filter (fun i => !((s.j d).contains i))

/-- `b_in_dir(i, direction)` from `Hop.probe`: the balance of channel `i`
in the given direction. -/
def Hop.bInDir (s : Hop) (d : Bool) (i : Nat) : Int :=
  if d then s.b.getD i 0 else s.c.getD i 0 - s.b.getD i 0

/-- `effective_bound(bound, ch_i)` from `Hop.effective_vertex`, as a
function of the capacity list, the enabled list of the probed direction and
the channel count (these never change after construction). -/
def effB (c : List Int) (e : List Nat) (N : Nat) (bound : Int) (i : Nat) : Int :=
  if (e.contains i ∨ N = 1 ∨ bound < 0) ∧ bound ≤ c.getD i 0 then bound
  else c.getD i 0

/-- `effective_bound(bound, ch_i)` from `Hop.effective_vertex`. -/
def Hop.effectiveBound (s : Hop) (d : Bool) (bound : Int) (i : Nat) : Int :=
  effB s.c (s.e d) s.N bound i

/-- `effective_coordinate(bound, ch_i)` from `Hop.effective_vertex`. -/
def Hop.effectiveCoordinate (s : Hop) (d : Bool) (bound : Int) (i : Nat) : Int :=
  if d = dir0 then s.effectiveBound d bound i
  else s.c.getD i 0 - s.effectiveBound d bound i

/-- `Hop.effective_vertex(direction, bound)`. -/
def Hop.effectiveVertex (s : Hop) (d : Bool) (bound : Int) : List Int :=
  (List.range s.N).map (s.effectiveCoordinate d bound)

/-- `ProbingRectangle.__init__(hop, direction, bound)`: one vertex is the
all-zero point (dir0) or the capacity vector (dir1), the other is the
effective vertex.  (The source also asserts
`max(eff_vertex) <= max(self.c) + 1`; all bounds constructed by the engine
are `>= -1`, for which this assertion holds and adds no information.) -/
def probingRectangle (s : Hop) (d : Bool) (bound : Int) : Rectangle :=
  if d then mkRect (List.replicate s.N 0) (s.effectiveVertex d bound)
  else mkRect (s.effectiveVertex d bound) s.c

/-- `self.R_h_l` as recomputed by `update_dependent_hop_properties`. -/
def Hop.R_h_l (s : Hop) : Rectangle := probingRectangle s dir0 s.h_l

def Hop.R_h_u (s : Hop) : Rectangle := probingRectangle s dir0 s.h_u

def Hop.R_g_l (s : Hop) : Rectangle := probingRectangle s dir1 s.g_l

def Hop.R_g_u (s : Hop) : Rectangle := probingRectangle s dir1 s.g_u

/-- `self.R_b = Rectangle([b_l_i + 1 for b_l_i in self.b_l], self.b_u)`. -/
def Hop.R_b (s : Hop) : Rectangle := mkRect (s.b_l.map (· + 1)) s.b_u

/-- `self.S_F` as recomputed by `update_dependent_hop_properties` (the raw
inclusion–exclusion value; the assertions of `S_F_generic` are proved to
hold in every reachable state). -/
def Hop.S_F (s : Hop) : Int := SFvalue s.R_h_l s.R_h_u s.R_g_l s.R_g_u s.R_b

/-- The admissible region of the current state. -/
def Hop.F (s : Hop) : Finset (List Int) := Fpts s.R_h_l s.R_h_u s.R_g_l s.R_g_u s.R_b

/-- `self.uncertainty == 0`, i.e. `max(0, log2(S_F) - log2(granularity)) == 0`,
i.e. `S_F <= granularity` (exact for the default granularity 1). -/
def Hop.uncertaintyZero (s : Hop) : Bool := decide (s.S_F ≤ s.granularity)

/-- `Hop.worth_probing_h()`. -/
def Hop.worthProbingH (s : Hop) : Bool :=
  s.canForward dir0 && decide (s.h_u - s.h_l > 1)

/-- `Hop.worth_probing_g()`. -/
def Hop.worthProbingG (s : Hop) : Bool :=
  s.canForward dir1 && decide (s.g_u - s.g_l > 1)

/-- `Hop.worth_probing_channel(i)`. -/
def Hop.worthProbingChannel (s : Hop) (i : Nat) : Bool :=
  decide (s.b_u.getD i 0 - s.b_l.getD i 0 > 1)
    && (s.canForward dir0 || s.canForward dir1)

/-- `Hop.worth_probing()`: `uncertainty > 0`. -/
def Hop.worthProbing (s : Hop) : Bool := !s.uncertaintyZero

/-- `Hop.jam(channel_index, direction)` (the returned jam count is not
modelled; only the state change matters for the claims). -/
def Hop.jam (s : Hop) (i : Nat) (d : Bool) : Hop :=
  if (s.j d).contains i then s
  else if d then { s with j0 := s.j0 ++ [i] } else { s with j1 := s.j1 ++ [i] }

/-- `Hop.unjam(channel_index, direction)` (`list.remove` drops the first
occurrence). -/
def Hop.unjam (s : Hop) (i : Nat) (d : Bool) : Hop :=
  if (s.j d).contains i then
    if d then { s with j0 := s.j0.erase i } else { s with j1 := s.j1.erase i }
  else s

/-- The indices `i` of `range(n)` with `i in e`: Python's
`[... for i, x in enumerate(xs) if i in e]` selects exactly these. -/
def selIdx (n : Nat) (e : List Nat) : List Nat :=
  (List.range n).filter (fun i => e.contains i)

/-- `Hop.reset_estimates()`. -/
def Hop.resetEstimates (s : Hop) : Hop :=
  { s with
    h_l := -1
    g_l := -1
    h_u := if s.canForward dir0 then pyMax ((selIdx s.N s.e0).map (fun i => s.c.getD i 0))
           else pyMax s.c
    g_u := if s.canForward dir1 then pyMax ((selIdx s.N s.e1).map (fun i => s.c.getD i 0))
           else pyMax s.c
    b_l := List.replicate s.N (-1)
    b_u := s.c }

/-- The computation of `self.h` in `Hop.__init__`:
`max([b for i,b in enumerate(self.b) if i in self.e[dir0]]) if
self.can_forward(dir0) else 0` with an empty jam set (`can_forward(dir0)`
is then `e_dir0 != []`); `none` is the `ValueError` of `max([])`, raised
when every enabled index is out of range. -/
def initH (N : Nat) (e_dir0 : List Nat) (balances : List Int) : Option Int :=
  if e_dir0.isEmpty then some 0
  else if ((selIdx N e_dir0).map (fun i => balances.getD i 0)).isEmpty then none
  else some (pyMax ((selIdx N e_dir0).map (fun i => balances.getD i 0)))

/-- The computation of `self.g` in `Hop.__init__`. -/
def initG (N : Nat) (e_dir1 : List Nat) (capacities balances : List Int) : Option Int :=
  if e_dir1.isEmpty then some 0
  else if ((selIdx N e_dir1).map (fun i => capacities.getD i 0 - balances.getD i 0)).isEmpty then none
  else some (pyMax ((selIdx N e_dir1).map (fun i => capacities.getD i 0 - balances.getD i 0)))

/-- `Hop.__init__(capacities, e_dir0, e_dir1, balances)` (with balances
supplied; the random-balance path generates some list with
`0 <= b[i] < c[i]`, so it is covered by quantifying over valid balance
lists).  Assertion failures and the `ValueError` of `max([])` yield
`none`.  Construction uses the default `granularity=1`, as every
construction site in the repository does. -/
def Hop.init (capacities : List Int) (e_dir0 e_dir1 : List Nat)
    (balances : List Int) : Option Hop :=
  if capacities.length = 0 then none
  else if e_dir0 ≠ [] ∧ (capacities.length : Int) < pyMax (e_dir0.map (fun i => (i : Int))) then none
  else if e_dir1 ≠ [] ∧ (capacities.length : Int) < pyMax (e_dir1.map (fun i => (i : Int))) then none
  else if ¬ ((List.zip balances capacities).all (fun q => 0 ≤ q.1 ∧ q.1 ≤ q.2)) then none
  else
    match initH capacities.length e_dir0 balances,
        initG capacities.length e_dir1 capacities balances with
    | some hv, some gv =>
        -- estimate fields are placeholders here: in the source they are
        -- unset attributes until the reset_estimates() call assigns them
        some (Hop.resetEstimates
          { c := capacities, e0 := e_dir0, e1 := e_dir1, j0 := [], j1 := [],
            b := balances, h := hv, g := gv, granularity := 1,
            h_l := -1, h_u := 0, g_l := -1, g_u := 0,
            b_l := List.replicate capacities.length (-1), b_u := capacities })
    | _, _ => none

/-- The bound updates of `Hop.probe(direction, amount)` (source lines
462–521): hop-level bounds when not jamming and the probe amount is between
the current bounds, per-channel bounds in the single-enabled-channel and
jamming cases. -/
def Hop.boundsUpdate (s : Hop) (d : Bool) (amount : Int) (passed : Bool) : Hop :=
  let jamming : Bool := !s.j0.isEmpty || !s.j1.isEmpty
  let avail := s.availChannels d
  if d then
    let su : Bool := decide (s.h_l < amount) && decide (amount ≤ s.h_u)
    if passed then
      let s1 :=
        if su && !jamming then
          let t1 := { s with h_l := amount - 1 }
          let t2 :=
            if s.e0.length = 1 then
              { t1 with b_l := (updWhere (fun i => i == s.e0.headD 0)
                  (fun _ x => max x t1.h_l) 0 t1.b_l) }
            else t1
          if !s.e1.isEmpty then
            { t2 with g_u := (min t2.g_u
                (pyMax (s.e1.map (fun i => t2.c.getD i 0 - t2.b_l.getD i 0)))) }
          else t2
        else s
      if jamming then
        { s1 with b_l := (updWhere (fun i => i == avail.headD 0)
            (fun _ x => max x (amount - 1)) 0 s1.b_l) }
      else s1
    else
      let s1 :=
        if su && !jamming then
          let t1 := { s with h_u := amount - 1 }
          let t2 := { t1 with b_u := (updWhere (fun i => s.e0.contains i)
              (fun _ x => min x t1.h_u) 0 t1.b_u) }
          if !s.e1.isEmpty then
            { t2 with g_l := (max t2.g_l
                (pyMin (s.e1.map (fun i => t2.c.getD i 0 - t2.b_u.getD i 0 - 1)))) }
          else t2
        else s
      if jamming then
        { s1 with b_u := (updWhere (fun i => i == avail.headD 0)
            (fun _ x => min x (amount - 1)) 0 s1.b_u) }
      else s1
  else
    let su : Bool := decide (s.g_l < amount) && decide (amount ≤ s.g_u)
    if passed then
      let s1 :=
        if su && !jamming then
          let t1 := { s with g_l := amount - 1 }
          let t2 :=
            if s.e1.length = 1 then
              { t1 with b_u := (updWhere (fun i => i == s.e1.headD 0)
                  (fun _ x => min x (t1.c.getD (s.e1.headD 0) 0 - t1.g_l - 1)) 0 t1.b_u) }
            else t1
          if !s.e0.isEmpty then
            { t2 with h_u := (min t2.h_u
                (pyMax (s.e0.map (fun i => t2.b_u.getD i 0)))) }
          else t2
        else s
      if jamming then
        { s1 with b_u := (updWhere (fun i => i == avail.headD 0)
            (fun _ x => min x (s.c.getD (avail.headD 0) 0 - amount)) 0 s1.b_u) }
      else s1
    else
      let s1 :=
        if su && !jamming then
          let t1 := { s with g_u := amount - 1 }
          let t2 := { t1 with b_l := (updWhere (fun i => s.e1.contains i)
              (fun i x => max x (t1.c.getD i 0 - t1.g_u - 1)) 0 t1.b_l) }
          if !s.e0.isEmpty then
            { t2 with h_l := (max t2.h_l
                (pyMin (s.e0.map (fun i => t2.b_l.getD i 0)))) }
          else t2
        else s
      if jamming then
        { s1 with b_l := (updWhere (fun i => i == avail.headD 0)
            (fun _ x => max x (s.c.getD (avail.headD 0) 0 - amount)) 0 s1.b_l) }
      else s1

/-- `itertools.product(*ranges)` over the two-element ranges
`[l_i, u_i]` used by `get_corner_points` (leftmost coordinate varies
slowest, as in Python). -/
def corners : List Int → List Int → List (List Int)
  | [], [] => [[]]
  | a :: l, b :: u => (corners l u).map (a :: ·) ++ (corners l u).map (b :: ·)
  | _, _ => []

/-- The filtering loop of `get_corner_points`: keep the points outside both
`R_u_l` and `R_l_u`, decrementing `points_left` on every kept point and
breaking as soon as it reaches zero (the break test runs on every
iteration). -/
def collectCorners (Rul Rlu : Rectangle) : List (List Int) → Int → List (List Int)
  | [], _ => []
  | p :: ps, left =>
    if !(Rul.containsPoint p) && !(Rlu.containsPoint p) then
      if left - 1 = 0 then [p]
      else p :: collectCorners Rul Rlu ps (left - 1)
    else
      if left = 0 then []
      else collectCorners Rul Rlu ps left

/-- `Hop.get_corner_points()`.  When `R_u_u` is empty the source would
raise (`None` subscription); this happens only when `S_F = 0`, which is
proved unreachable, and is modelled as `[]`. -/
def Hop.cornerPoints (s : Hop) : List (List Int) :=
  let Rb := mkRect (s.b_l.map (· + 1)) s.b_u
  let Ruu := (s.R_h_u.intersectWith s.R_g_u).intersectWith Rb
  let Rul := (s.R_h_u.intersectWith s.R_g_l).intersectWith Rb
  let Rlu := (s.R_h_l.intersectWith s.R_g_u).intersectWith Rb
  match Ruu with
  | .empty => []
  | .box l u => collectCorners Rul Rlu (corners l u) s.S_F

/-- The corner-point collapse at the end of `Hop.probe` (lines 523–541),
entered when `uncertainty == 0`: if exactly one corner point remains, pin
all bounds to it.  With no remaining corner point the source continues
probing; with two or more it fails an assertion, which is structurally
impossible when `S_F = 1` (proved below), and is modelled as no change. -/
def Hop.collapseStep (s : Hop) : Hop :=
  match s.cornerPoints with
  | [p] =>
    let s1 := { s with
      b_l := (updWhere (fun i => s.worthProbingChannel i) (fun i _ => p.getD i 0 - 1) 0 s.b_l),
      b_u := (updWhere (fun i => s.worthProbingChannel i) (fun i _ => p.getD i 0) 0 s.b_u) }
    let s2 :=
      if !s.e0.isEmpty then
        { s1 with h_l := (max s1.h_l (pyMin (s.e0.map (fun i => p.getD i 0)) - 1)),
                  h_u := (min s1.h_u (pyMax (s.e0.map (fun i => p.getD i 0)))) }
      else s1
    if !s.e1.isEmpty then
      { s2 with g_l := (max s2.g_l (pyMin (s.e1.map (fun i => s.c.getD i 0 - p.getD i 0)) - 1)),
                g_u := (min s2.g_u (pyMax (s.e1.map (fun i => s.c.getD i 0 - p.getD i 0)))) }
    else s2
  | _ => s

/-- `Hop.probe(direction, amount)`.  Returns the pass/fail result and the
updated state.  `none` models the two ways a call can raise before any
state change: `max()` over an empty sequence of available channels
(`ValueError`) and the jamming assertion `len(available_channels) <= 1`. -/
def Hop.probe (s : Hop) (d : Bool) (amount : Int) : Option (Bool × Hop) :=
  let jamming : Bool := !s.j0.isEmpty || !s.j1.isEmpty
  let avail := s.availChannels d
  if jamming ∧ 2 ≤ avail.length then none
  else
    match avail with
    | [] => none
    | k :: t =>
      let passed := decide (amount ≤ foldlMax (s.bInDir d k) (t.map (s.bInDir d)))
      let s1 := s.boundsUpdate d amount passed
      let s2 := if s1.uncertaintyZero then s1.collapseStep else s1
      some (passed, s2)

/-- `Hop.S_F_a_expected(direction, a)`: the hypothetical `S_F` if a probe of
amount `a` fails ("area under the cut").  Calls `S_F_generic`, so assertion
failures give `none`. -/
def Hop.S_F_a_expected (s : Hop) (d : Bool) (a : Int) : Option Int :=
  let new_b_l0 := List.replicate s.b_l.length (0 : Int)
  let new_b_u0 := s.c
  let avail := s.availChannels d
  let jamming : Bool := !s.j0.isEmpty || !s.j1.isEmpty
  if d then
    let new_R_h_u := if jamming then s.R_h_u else probingRectangle s dir0 (a - 1)
    let new_b_u := updWhere (fun i => avail.contains i) (fun _ x => min x (a - 1)) 0 new_b_u0
    S_F_generic s.R_h_l new_R_h_u s.R_g_l s.R_g_u (mkRect new_b_l0 new_b_u)
  else
    let new_R_g_u := if jamming then s.R_g_u else probingRectangle s dir1 (a - 1)
    let new_b_l :=
      if avail.length = 1 then
        updWhere (fun i => i == avail.headD 0)
          (fun i x => max x (s.c.getD i 0 - a)) 0 new_b_l0
      else new_b_l0
    S_F_generic s.R_h_l s.R_h_u s.R_g_l new_R_g_u (mkRect new_b_l new_b_u0)

/-- The `while True` binary search inside `Hop.next_a`, with explicit fuel
(a modelling artefact: the source loop terminates because the bracket
shrinks; every theorem below supplies enough fuel and obtains `some`). -/
def Hop.nextASearch (s : Hop) (d : Bool) (S_F_half : Int) :
    Nat → Int → Int → Int → Option Int
  | 0, _, _, _ => none
  | fuel + 1, a_l, a_u, a =>
    match s.S_F_a_expected d a with
    | none => none
    | some S_F_a =>
      let a_l' := if S_F_a < S_F_half then a else a_l
      let a_u' := if S_F_a < S_F_half then a_u else a
      let new_a := Int.fdiv (a_l' + a_u' + 1) 2
      if new_a = a then some a
      else s.nextASearch d S_F_half fuel a_l' a_u' new_a

/-- `Hop.next_a(direction, naive, jamming)`.  Python `//` is floor division
(`Int.fdiv`).  `none` models the assertions (`len(available_channels) == 1`
in jamming mode, `a > 0` at the end) and exhausted fuel. -/
def Hop.nextA (s : Hop) (d : Bool) (naive jamming : Bool) : Option Int :=
  let S_F_half := max 1 (Int.fdiv s.S_F 2)
  let bounds? : Option (Int × Int) :=
    if !jamming then
      some (if d then (s.h_l + 1, s.h_u) else (s.g_l + 1, s.g_u))
    else
      let avail := s.availChannels d
      if avail.length = 1 then
        let i := avail.headD 0
        some (if d then (s.b_l.getD i 0 + 1, s.b_u.getD i 0)
              else (s.c.getD i 0 - s.b_u.getD i 0, s.c.getD i 0 - s.b_l.getD i 0 - 1))
      else none
  match bounds? with
  | none => none
  | some q =>
    let a := Int.fdiv (q.1 + q.2 + 1) 2
    let r? : Option Int :=
      if !naive && !jamming then s.nextASearch d S_F_half 200 q.1 q.2 a
      else some a
    match r? with
    | none => none
    | some a' => if a' > 0 then some a' else none

/-- `Hop.next_dir(naive, jamming)` with the default
`prefer_small_amounts=False` and `threshold_area_difference=0.1`.
The function never returns Python `None`: a successful return is always a
direction (`Bool`); `.error` models an `AssertionError` (its own entry
assertion, or one raised inside `next_a` / `S_F_a_expected`).
The float comparison `abs(S_F_a_dir0 - S_F_a_dir1) / S_F_half < 0.1` is
modelled by the exact rational comparison `10*|Δ| < S_F_half`; no claim
below exercises that branch. -/
def Hop.nextDir (s : Hop) (naive jamming : Bool) : Except Unit Bool :=
  if !(s.canForward dir0 || s.canForward dir1) then .error ()
  else
    let c0 : Bool := (jamming && s.canForward dir0) || (!jamming && s.worthProbingH)
    let c1 : Bool := (jamming && s.canForward dir1) || (!jamming && s.worthProbingG)
    if !c0 then .ok dir1
    else if !c1 then .ok dir0
    else
      match s.nextA dir0 naive jamming, s.nextA dir1 naive jamming with
      | some a0, some a1 =>
        if naive then .ok (if a0 < a1 then dir0 else dir1)
        else
          let S_F_half := max 1 (Int.fdiv s.S_F 2)
          match s.S_F_a_expected dir0 a0, s.S_F_a_expected dir1 a1 with
          | some S0, some S1 =>
            if 10 * |S0 - S1| < S_F_half then .ok (if a0 < a1 then dir0 else dir1)
            else .ok (if |S0 - S_F_half| < |S1 - S_F_half| then dir0 else dir1)
          | _, _ => .error ()
      | _, _ => .error ()

/-- `probe_hop_without_jamming(hop, naive)` from isolated.py: loop asking
for a direction and an amount and probing, counting probes, until neither
direction is worth probing.  The `chosen_dir0 is None` early exit of the
driver is dead code (`next_dir` never returns `None`); an exception
anywhere is modelled as `none`.  Fuel bounds the iteration count. -/
def probeHopWithoutJamming (naive : Bool) : Nat → Hop → Nat → Option (Nat × Hop)
  | 0, _, _ => none
  | fuel + 1, s, n =>
    if s.worthProbingH || s.worthProbingG then
      match s.nextDir naive false with
      | .error _ => none
      | .ok d =>
        match s.nextA d naive false with
        | none => none
        | some a =>
          match s.probe d a with
          | none => none
          | some r => probeHopWithoutJamming naive fuel r.2 (n + 1)
    else some (n, s)

theorem e_dir0 (s : Hop) : s.e dir0 = s.e0 := rfl

theorem e_dir1 (s : Hop) : s.e dir1 = s.e1 := rfl

theorem j_dir0 (s : Hop) : s.j dir0 = s.j0 := rfl

theorem j_dir1 (s : Hop) : s.j dir1 = s.j1 := rfl

theorem getD_range_map (f : Nat → Int) (n i : Nat) (hi : i < n) :
    ((List.range n).map f).getD i 0 = f i := by
  rw [List.getD_eq_getElem?_getD, List.getElem?_map, List.getElem?_range hi]
  rfl

theorem getD_map_add_one (l : List Int) (i : Nat) (hi : i < l.length) :
    (l.map (· + 1)).getD i 0 = l.getD i 0 + 1 := by
  rw [List.getD_eq_getElem?_getD, List.getElem?_map,
    List.getD_eq_getElem?_getD, List.getElem?_eq_getElem hi]
  rfl

theorem getD_replicate (x : Int) (n i : Nat) (hi : i < n) :
    (List.replicate n x).getD i 0 = x := by
  rw [List.getD_eq_getElem?_getD, List.getElem?_replicate, if_pos hi]
  rfl

/-- `effB` cases. -/
theorem effB_eq_or (c : List Int) (e : List Nat) (N : Nat) (bound : Int) (i : Nat) :
    effB c e N bound i = bound ∨ effB c e N bound i = c.getD i 0 := by
  unfold effB
  by_cases h : (e.contains i ∨ N = 1 ∨ bound < 0) ∧ bound ≤ c.getD i 0
  · rw [if_pos h]; left; rfl
  · rw [if_neg h]; right; rfl

theorem effB_le_c (c : List Int) (e : List Nat) (N : Nat) (bound : Int) (i : Nat) :
    effB c e N bound i ≤ c.getD i 0 := by
  unfold effB
  by_cases h : (e.contains i ∨ N = 1 ∨ bound < 0) ∧ bound ≤ c.getD i 0
  · rw [if_pos h]; exact h.2
  · rw [if_neg h]

theorem effB_of_cond {c : List Int} {e : List Nat} {N : Nat} {bound : Int} {i : Nat}
    (h1 : e.contains i ∨ N = 1 ∨ bound < 0) (h2 : bound ≤ c.getD i 0) :
    effB c e N bound i = bound := by
  unfold effB
  rw [if_pos ⟨h1, h2⟩]

/-- Monotonicity of the effective bound in the bound (for nonnegative
capacities). -/
theorem effB_mono {c : List Int} {e : List Nat} {N : Nat} {i : Nat}
    {bound bound' : Int} (hb : bound ≤ bound') :
    effB c e N bound i ≤ effB c e N bound' i := by
  unfold effB
  by_cases h1 : (e.contains i ∨ N = 1 ∨ bound < 0) ∧ bound ≤ c.getD i 0
  · rw [if_pos h1]
    by_cases h2 : (e.contains i ∨ N = 1 ∨ bound' < 0) ∧ bound' ≤ c.getD i 0
    · rw [if_pos h2]; exact hb
    · rw [if_neg h2]; exact h1.2
  · rw [if_neg h1]
    by_cases h2 : (e.contains i ∨ N = 1 ∨ bound' < 0) ∧ bound' ≤ c.getD i 0
    · rw [if_pos h2]
      rcases h2.1 with he | hN | hneg
      · exact absurd ⟨Or.inl he, le_trans hb h2.2⟩ h1
      · exact absurd ⟨Or.inr (Or.inl hN), le_trans hb h2.2⟩ h1
      · have : bound < 0 := lt_of_le_of_lt hb hneg
        exact absurd ⟨Or.inr (Or.inr this), le_trans hb h2.2⟩ h1
    · rw [if_neg h2]

theorem effectiveVertex_length (s : Hop) (d : Bool) (bound : Int) :
    (s.effectiveVertex d bound).length = s.N := by
  simp [Hop.effectiveVertex]

theorem effectiveVertex_getD_dir0 (s : Hop) (bound : Int) (i : Nat) (hi : i < s.N) :
    (s.effectiveVertex dir0 bound).getD i 0 = effB s.c s.e0 s.N bound i := by
  unfold Hop.effectiveVertex
  rw [getD_range_map _ _ _ hi]
  rfl

theorem effectiveVertex_getD_dir1 (s : Hop) (bound : Int) (i : Nat) (hi : i < s.N) :
    (s.effectiveVertex dir1 bound).getD i 0
      = s.c.getD i 0 - effB s.c s.e1 s.N bound i := by
  unfold Hop.effectiveVertex
  rw [getD_range_map _ _ _ hi]
  rfl

/-- Membership characterisation of a rectangle built by the `Rectangle`
constructor, in index form. -/
theorem mem_pts_mkRect {l u p : List Int} (hne : l ≠ []) (hlen : l.length = u.length) :
    p ∈ (mkRect l u).pts ↔ p.length = l.length ∧
      ∀ i < l.length, l.getD i 0 ≤ p.getD i 0 ∧ p.getD i 0 ≤ u.getD i 0 := by
  rw [pts_mkRect hne hlen, mem_boxPts_getD]
  constructor
  · rintro ⟨h1, -, h3⟩; exact ⟨h1, h3⟩
  · rintro ⟨h1, h3⟩; exact ⟨h1, hlen, h3⟩

theorem mem_pts_probingRect_dir0 {s : Hop} {bound : Int} {p : List Int}
    (hN : 1 ≤ s.N) :
    p ∈ (probingRectangle s dir0 bound).pts ↔ p.length = s.N ∧
      ∀ i < s.N, 0 ≤ p.getD i 0 ∧ p.getD i 0 ≤ effB s.c s.e0 s.N bound i := by
  show p ∈ (mkRect (List.replicate s.N 0) (s.effectiveVertex dir0 bound)).pts ↔ _
  rw [mem_pts_mkRect (by simp; omega)
    (by rw [List.length_replicate, effectiveVertex_length])]
  rw [List.length_replicate]
  constructor
  · rintro ⟨h1, h2⟩
    refine ⟨h1, ?_⟩
    intro i hi
    have := h2 i hi
    rwa [getD_replicate 0 s.N i hi, effectiveVertex_getD_dir0 s bound i hi] at this
  · rintro ⟨h1, h2⟩
    refine ⟨h1, ?_⟩
    intro i hi
    rw [getD_replicate 0 s.N i hi, effectiveVertex_getD_dir0 s bound i hi]
    exact h2 i hi

theorem mem_pts_probingRect_dir1 {s : Hop} {bound : Int} {p : List Int}
    (hN : 1 ≤ s.N) :
    p ∈ (probingRectangle s dir1 bound).pts ↔ p.length = s.N ∧
      ∀ i < s.N, s.c.getD i 0 - effB s.c s.e1 s.N bound i ≤ p.getD i 0
        ∧ p.getD i 0 ≤ s.c.getD i 0 := by
  show p ∈ (mkRect (s.effectiveVertex dir1 bound) s.c).pts ↔ _
  have hvl : (s.effectiveVertex dir1 bound).length = s.N := effectiveVertex_length s dir1 bound
  rw [mem_pts_mkRect (by
      intro hcon
      rw [hcon] at hvl
      simp only [List.length_nil] at hvl
      omega)
    (by rw [hvl]; rfl)]
  rw [hvl]
  constructor
  · rintro ⟨h1, h2⟩
    refine ⟨h1, ?_⟩
    intro i hi
    have := h2 i hi
    rwa [effectiveVertex_getD_dir1 s bound i hi] at this
  · rintro ⟨h1, h2⟩
    refine ⟨h1, ?_⟩
    intro i hi
    rw [effectiveVertex_getD_dir1 s bound i hi]
    exact h2 i hi

theorem mem_pts_R_b {s : Hop} {p : List Int} (hN : 1 ≤ s.N)
    (hbl : s.b_l.length = s.N) (hbu : s.b_u.length = s.N) :
    p ∈ s.R_b.pts ↔ p.length = s.N ∧
      ∀ i < s.N, s.b_l.getD i 0 + 1 ≤ p.getD i 0 ∧ p.getD i 0 ≤ s.b_u.getD i 0 := by
  show p ∈ (mkRect (s.b_l.map (· + 1)) s.b_u).pts ↔ _
  have hml : (s.b_l.map (· + 1)).length = s.N := by rw [List.length_map, hbl]
  rw [mem_pts_mkRect (by
      intro hcon
      rw [hcon] at hml
      simp only [List.length_nil] at hml
      omega)
    (by rw [hml, hbu])]
  rw [hml]
  constructor
  · rintro ⟨h1, h2⟩
    refine ⟨h1, ?_⟩
    intro i hi
    have := h2 i hi
    rwa [getD_map_add_one s.b_l i (by omega)] at this
  · rintro ⟨h1, h2⟩
    refine ⟨h1, ?_⟩
    intro i hi
    rw [getD_map_add_one s.b_l i (by omega)]
    exact h2 i hi

/-! ### Hop invariants

`SInv` holds the construction-time facts (channel count, list lengths,
valid enabled indices, balance validity, the defining equations of `h` and
`g`, and the default granularity).  `BInv` holds the estimate-state facts:
exactly the conditions asserted by `update_dependent_hop_properties`
(lines 139–155 of hop.py), with the rectangle memberships expressed
pointwise through `effB`. -/

structure Hop.SInv (s : Hop) : Prop where
  Npos : 1 ≤ s.N
  blen : s.b.length = s.N
  bllen : s.b_l.length = s.N
  bulen : s.b_u.length = s.N
  e0range : ∀ i ∈ s.e0, i < s.N
  e1range : ∀ i ∈ s.e1, i < s.N
  bval : ∀ i < s.N, 0 ≤ s.b.getD i 0 ∧ s.b.getD i 0 ≤ s.c.getD i 0
  hdef : s.h = (if s.e0.isEmpty then 0
    else pyMax ((selIdx s.N s.e0).map (fun i => s.b.getD i 0)))
  gdef : s.g = (if s.e1.isEmpty then 0
    else pyMax ((selIdx s.N s.e1).map (fun i => s.c.getD i 0 - s.b.getD i 0)))
  gran : s.granularity = 1

structure Hop.BInv (s : Hop) : Prop where
  bl_lt : ∀ i < s.N, -1 ≤ s.b_l.getD i 0 ∧ s.b_l.getD i 0 < s.b.getD i 0
  bu_ge : ∀ i < s.N, s.b.getD i 0 ≤ s.b_u.getD i 0 ∧ s.b_u.getD i 0 ≤ s.c.getD i 0
  hl_lb : -1 ≤ s.h_l
  hl_lt : s.h_l < s.h
  h_le : s.h ≤ s.h_u
  hu_ub : s.h_u ≤ pyMax s.c
  gl_lb : -1 ≤ s.g_l
  gl_lt : s.g_l < s.g
  g_le : s.g ≤ s.g_u
  gu_ub : s.g_u ≤ pyMax s.c
  hRu : ∀ i < s.N, s.b.getD i 0 ≤ effB s.c s.e0 s.N s.h_u i
  hRl : ∃ i, i < s.N ∧ effB s.c s.e0 s.N s.h_l i < s.b.getD i 0
  gRu : ∀ i < s.N, s.c.getD i 0 - s.b.getD i 0 ≤ effB s.c s.e1 s.N s.g_u i
  gRl : ∃ i, i < s.N ∧ effB s.c s.e1 s.N s.g_l i < s.c.getD i 0 - s.b.getD i 0

def Hop.Inv (s : Hop) : Prop := s.SInv ∧ s.BInv

theorem R_h_l_WF (s : Hop) : s.R_h_l.WF s.N :=
  mkRect_WF (List.length_replicate s.N 0) (effectiveVertex_length s dir0 s.h_l)

theorem R_h_u_WF (s : Hop) : s.R_h_u.WF s.N :=
  mkRect_WF (List.length_replicate s.N 0) (effectiveVertex_length s dir0 s.h_u)

theorem R_g_l_WF (s : Hop) : s.R_g_l.WF s.N :=
  mkRect_WF (effectiveVertex_length s dir1 s.g_l) rfl

theorem R_g_u_WF (s : Hop) : s.R_g_u.WF s.N :=
  mkRect_WF (effectiveVertex_length s dir1 s.g_u) rfl

theorem R_b_WF (s : Hop) (hbl : s.b_l.length = s.N) (hbu : s.b_u.length = s.N) :
    s.R_b.WF s.N :=
  mkRect_WF (by rw [List.length_map, hbl]) hbu

/-- Pointwise subset of dir0 probing rectangles for increasing bounds. -/
theorem pts_probingRect_dir0_subset {s : Hop} (hN : 1 ≤ s.N)
    {bound bound' : Int} (hb : bound ≤ bound') :
    (probingRectangle s dir0 bound).pts ⊆ (probingRectangle s dir0 bound').pts := by
  intro p hp
  obtain ⟨h1, h2⟩ := (mem_pts_probingRect_dir0 hN).mp hp
  refine (mem_pts_probingRect_dir0 hN).mpr ⟨h1, ?_⟩
  intro i hi
  obtain ⟨ha, hb2⟩ := h2 i hi
  exact ⟨ha, le_trans hb2 (effB_mono hb)⟩

theorem pts_probingRect_dir1_subset {s : Hop} (hN : 1 ≤ s.N)
    {bound bound' : Int} (hb : bound ≤ bound') :
    (probingRectangle s dir1 bound).pts ⊆ (probingRectangle s dir1 bound').pts := by
  intro p hp
  obtain ⟨h1, h2⟩ := (mem_pts_probingRect_dir1 hN).mp hp
  refine (mem_pts_probingRect_dir1 hN).mpr ⟨h1, ?_⟩
  intro i hi
  obtain ⟨ha, hb2⟩ := h2 i hi
  exact ⟨le_trans (by have := effB_mono (c := s.c) (e := s.e1) (N := s.N) (i := i) hb; omega) ha, hb2⟩

/-- In any invariant state, `S_F` is exactly the number of points of the
admissible region `F`. -/
theorem S_F_eq_card_F {s : Hop} (hS : s.SInv) (hB : s.BInv) :
    s.S_F = (s.F.card : Int) := by
  apply SFvalue_eq_card_Fpts hS.Npos (R_h_l_WF s) (R_h_u_WF s) (R_g_l_WF s)
    (R_g_u_WF s) (R_b_WF s hS.bllen hS.bulen)
  · exact pts_probingRect_dir0_subset hS.Npos (by have := hB.hl_lt; have := hB.h_le; omega)
  · exact pts_probingRect_dir1_subset hS.Npos (by have := hB.gl_lt; have := hB.g_le; omega)

/-- In any invariant state, the true balance vector belongs to the
admissible region. -/
theorem b_mem_F {s : Hop} (hS : s.SInv) (hB : s.BInv) : s.b ∈ s.F := by
  have hN := hS.Npos
  refine Finset.mem_sdiff.mpr ⟨?_, ?_⟩
  · refine Finset.mem_inter.mpr ⟨Finset.mem_inter.mpr ⟨?_, ?_⟩, ?_⟩
    · exact (mem_pts_probingRect_dir0 hN).mpr ⟨hS.blen, fun i hi =>
        ⟨(hS.bval i hi).1, hB.hRu i hi⟩⟩
    · exact (mem_pts_probingRect_dir1 hN).mpr ⟨hS.blen, fun i hi =>
        ⟨by have := hB.gRu i hi; omega, (hS.bval i hi).2⟩⟩
    · exact (mem_pts_R_b hN hS.bllen hS.bulen).mpr ⟨hS.blen, fun i hi =>
        ⟨by have := (hB.bl_lt i hi).2; omega, (hB.bu_ge i hi).1⟩⟩
  · rw [Finset.mem_union]
    rintro (hc | hc)
    · obtain ⟨i, hi, hlt⟩ := hB.hRl
      obtain ⟨-, h2⟩ := (mem_pts_probingRect_dir0 hN).mp hc
      have := (h2 i hi).2
      omega
    · obtain ⟨i, hi, hlt⟩ := hB.gRl
      obtain ⟨-, h2⟩ := (mem_pts_probingRect_dir1 hN).mp hc
      have := (h2 i hi).1
      omega

/-- In any invariant state, `S_F >= 1`. -/
theorem S_F_pos {s : Hop} (hS : s.SInv) (hB : s.BInv) : 1 ≤ s.S_F := by
  rw [S_F_eq_card_F hS hB]
  have : 0 < s.F.card := Finset.card_pos.mpr ⟨s.b, b_mem_F hS hB⟩
  omega

/-- `s'` refines `s`: same hop, same truth, every estimate bound at least
as tight.  Every probe step only tightens bounds. -/
structure Hop.tighter (s' s : Hop) : Prop where
  ceq : s'.c = s.c
  e0eq : s'.e0 = s.e0
  e1eq : s'.e1 = s.e1
  beq : s'.b = s.b
  bllen : s'.b_l.length = s.b_l.length
  bulen : s'.b_u.length = s.b_u.length
  hl_mono : s.h_l ≤ s'.h_l
  hu_mono : s'.h_u ≤ s.h_u
  gl_mono : s.g_l ≤ s'.g_l
  gu_mono : s'.g_u ≤ s.g_u
  bl_mono : ∀ i < s.N, s.b_l.getD i 0 ≤ s'.b_l.getD i 0
  bu_mono : ∀ i < s.N, s'.b_u.getD i 0 ≤ s.b_u.getD i 0

theorem tighter_refl (s : Hop) : s.tighter s :=
  ⟨rfl, rfl, rfl, rfl, rfl, rfl, le_refl _, le_refl _, le_refl _, le_refl _,
    fun _ _ => le_refl _, fun _ _ => le_refl _⟩

theorem tighter_trans {s3 s2 s1 : Hop} (h32 : s3.tighter s2) (h21 : s2.tighter s1) :
    s3.tighter s1 := by
  have hN : s2.N = s1.N := by unfold Hop.N; rw [h21.ceq]
  exact ⟨h32.ceq.trans h21.ceq, h32.e0eq.trans h21.e0eq, h32.e1eq.trans h21.e1eq,
    h32.beq.trans h21.beq, h32.bllen.trans h21.bllen, h32.bulen.trans h21.bulen,
    le_trans h21.hl_mono h32.hl_mono, le_trans h32.hu_mono h21.hu_mono,
    le_trans h21.gl_mono h32.gl_mono, le_trans h32.gu_mono h21.gu_mono,
    fun i hi => le_trans (h21.bl_mono i hi) (h32.bl_mono i (by rw [hN]; exact hi)),
    fun i hi => le_trans (h32.bu_mono i (by rw [hN]; exact hi)) (h21.bu_mono i hi)⟩

/-- Tightening the bounds shrinks the admissible region. -/
theorem F_antitone {s' s : Hop} (hS : s.SInv) (ht : s'.tighter s) : s'.F ⊆ s.F := by
  have hN : s'.N = s.N := by unfold Hop.N; rw [ht.ceq]
  have hNpos : 1 ≤ s'.N := by rw [hN]; exact hS.Npos
  have hbl' : s'.b_l.length = s'.N := by rw [ht.bllen, hN]; exact hS.bllen
  have hbu' : s'.b_u.length = s'.N := by rw [ht.bulen, hN]; exact hS.bulen
  intro p hp
  obtain ⟨hp1, hp2⟩ := Finset.mem_sdiff.mp hp
  obtain ⟨hp3, hpb⟩ := Finset.mem_inter.mp hp1
  obtain ⟨phu, pgu⟩ := Finset.mem_inter.mp hp3
  obtain ⟨plen, phu2⟩ := (mem_pts_probingRect_dir0 hNpos).mp phu
  obtain ⟨-, pgu2⟩ := (mem_pts_probingRect_dir1 hNpos).mp pgu
  obtain ⟨-, pb2⟩ := (mem_pts_R_b hNpos hbl' hbu').mp hpb
  rw [ht.ceq, ht.e0eq] at phu2
  rw [ht.ceq, ht.e1eq] at pgu2
  refine Finset.mem_sdiff.mpr ⟨Finset.mem_inter.mpr ⟨Finset.mem_inter.mpr ⟨?_, ?_⟩, ?_⟩, ?_⟩
  · refine (mem_pts_probingRect_dir0 hS.Npos).mpr ⟨by omega, ?_⟩
    intro i hi
    obtain ⟨q1, q2⟩ := phu2 i (by omega)
    rw [hN] at q2
    exact ⟨q1, le_trans q2 (effB_mono ht.hu_mono)⟩
  · refine (mem_pts_probingRect_dir1 hS.Npos).mpr ⟨by omega, ?_⟩
    intro i hi
    obtain ⟨q1, q2⟩ := pgu2 i (by omega)
    rw [hN] at q1
    have := effB_mono (c := s.c) (e := s.e1) (N := s.N) (i := i) ht.gu_mono
    exact ⟨by omega, q2⟩
  · refine (mem_pts_R_b hS.Npos hS.bllen hS.bulen).mpr ⟨by omega, ?_⟩
    intro i hi
    obtain ⟨q1, q2⟩ := pb2 i (by omega)
    have m1 := ht.bl_mono i hi
    have m2 := ht.bu_mono i hi
    exact ⟨by omega, by omega⟩
  · rw [Finset.mem_union]
    rw [Finset.mem_union] at hp2
    rintro (hc | hc)
    · apply hp2
      left
      obtain ⟨-, hc2⟩ := (mem_pts_probingRect_dir0 hS.Npos).mp hc
      refine (mem_pts_probingRect_dir0 hNpos).mpr ⟨by omega, ?_⟩
      intro i hi
      obtain ⟨q1, q2⟩ := hc2 i (by omega)
      rw [ht.ceq, ht.e0eq, hN]
      exact ⟨q1, le_trans q2 (effB_mono ht.hl_mono)⟩
    · apply hp2
      right
      obtain ⟨-, hc2⟩ := (mem_pts_probingRect_dir1 hS.Npos).mp hc
      refine (mem_pts_probingRect_dir1 hNpos).mpr ⟨by omega, ?_⟩
      intro i hi
      obtain ⟨q1, q2⟩ := hc2 i (by omega)
      rw [ht.ceq, ht.e1eq, hN]
      have := effB_mono (c := s.c) (e := s.e1) (N := s.N) (i := i) ht.gl_mono
      exact ⟨by omega, q2⟩

/-- A tightening step between invariant states never increases `S_F`. -/
theorem S_F_mono {s' s : Hop} (hS : s.SInv) (hB : s.BInv) (hS' : s'.SInv)
    (hB' : s'.BInv) (ht : s'.tighter s) : s'.S_F ≤ s.S_F := by
  rw [S_F_eq_card_F hS hB, S_F_eq_card_F hS' hB']
  have := Finset.card_le_card (F_antitone hS ht)
  omega

theorem contains_iff_mem {l : List Nat} {x : Nat} : l.contains x = true ↔ x ∈ l := by
  induction l with
  | nil => simp
  | cons a t ih =>
    simp only [List.contains_cons, Bool.or_eq_true, beq_iff_eq, List.mem_cons, ih]

theorem getD_mem {l : List Int} {i : Nat} (hi : i < l.length) : l.getD i 0 ∈ l := by
  rw [List.getD_eq_getElem?_getD, List.getElem?_eq_getElem hi]
  exact List.getElem_mem hi

theorem mem_selIdx {N : Nat} {e : List Nat} {i : Nat} :
    i ∈ selIdx N e ↔ i < N ∧ e.contains i = true := by
  unfold selIdx
  rw [List.mem_filter, List.mem_range]

/-- Specification of Python's `max([f(i) for i in enumerate-indices enabled
in e])` where at least one valid enabled index exists. -/
theorem pyMax_selIdx_spec (N : Nat) (e : List Nat) (f : Nat → Int)
    (hne : ∃ k ∈ e, k < N) :
    (∃ j, j < N ∧ e.contains j = true ∧ pyMax ((selIdx N e).map f) = f j) ∧
    (∀ i < N, e.contains i = true → f i ≤ pyMax ((selIdx N e).map f)) := by
  obtain ⟨k, hk, hkN⟩ := hne
  have hksel : k ∈ selIdx N e := mem_selIdx.mpr ⟨hkN, contains_iff_mem.mpr hk⟩
  have hmapne : (selIdx N e).map f ≠ [] := by
    intro hcon
    rw [List.map_eq_nil_iff] at hcon
    rw [hcon] at hksel
    cases hksel
  constructor
  · have := pyMax_mem hmapne
    rw [List.mem_map] at this
    obtain ⟨j, hjsel, hjf⟩ := this
    obtain ⟨hjN, hjc⟩ := mem_selIdx.mp hjsel
    exact ⟨j, hjN, hjc, hjf.symm⟩
  · intro i hiN hic
    exact le_pyMax_of_mem (List.mem_map.mpr ⟨i, mem_selIdx.mpr ⟨hiN, hic⟩, rfl⟩)

theorem c_nonneg {s : Hop} (hS : s.SInv) : ∀ i < s.N, 0 ≤ s.c.getD i 0 :=
  fun i hi => le_trans (hS.bval i hi).1 (hS.bval i hi).2

theorem pyMax_c_nonneg {s : Hop} (hS : s.SInv) : 0 ≤ pyMax s.c := by
  have h0 : (0 : Nat) < s.N := hS.Npos
  exact le_trans (c_nonneg hS 0 h0) (le_pyMax_of_mem (getD_mem h0))

theorem getD_c_le_pyMax {s : Hop} {i : Nat} (hi : i < s.N) :
    s.c.getD i 0 ≤ pyMax s.c :=
  le_pyMax_of_mem (getD_mem hi)

theorem canForward_ne_nil {s : Hop} {d : Bool} (h : s.canForward d = true) :
    s.e d ≠ [] := by
  intro hcon
  unfold Hop.canForward at h
  rw [hcon] at h
  simp at h

/-- The defining properties of `h`: it is `0` (if dir0 is entirely
disabled) or the balance of some enabled channel, and it dominates every
enabled channel's balance. -/
theorem h_spec {s : Hop} (hS : s.SInv) :
    (s.e0 = [] ∧ s.h = 0) ∨
    ((∃ j, j < s.N ∧ s.e0.contains j = true ∧ s.h = s.b.getD j 0) ∧
     (∀ i < s.N, s.e0.contains i = true → s.b.getD i 0 ≤ s.h)) := by
  rcases List.eq_nil_or_concat' s.e0 with he | ⟨e', k, heq⟩
  · left
    refine ⟨he, ?_⟩
    rw [hS.hdef, he]
    rfl
  · right
    have hkmem : k ∈ s.e0 := by rw [heq]; simp
    have hne : s.e0 ≠ [] := by rw [heq]; simp
    have hval : ∃ m ∈ s.e0, m < s.N := ⟨k, hkmem, hS.e0range k hkmem⟩
    have hspec := pyMax_selIdx_spec s.N s.e0 (fun i => s.b.getD i 0) hval
    have hh : s.h = pyMax ((selIdx s.N s.e0).map (fun i => s.b.getD i 0)) := by
      rw [hS.hdef, if_neg (by simpa using hne)]
    constructor
    · obtain ⟨j, hj1, hj2, hj3⟩ := hspec.1
      exact ⟨j, hj1, hj2, by rw [hh, hj3]⟩
    · intro i hi hic
      rw [hh]
      exact hspec.2 i hi hic

theorem g_spec {s : Hop} (hS : s.SInv) :
    (s.e1 = [] ∧ s.g = 0) ∨
    ((∃ j, j < s.N ∧ s.e1.contains j = true
        ∧ s.g = s.c.getD j 0 - s.b.getD j 0) ∧
     (∀ i < s.N, s.e1.contains i = true → s.c.getD i 0 - s.b.getD i 0 ≤ s.g)) := by
  rcases List.eq_nil_or_concat' s.e1 with he | ⟨e', k, heq⟩
  · left
    refine ⟨he, ?_⟩
    rw [hS.gdef, he]
    rfl
  · right
    have hkmem : k ∈ s.e1 := by rw [heq]; simp
    have hne : s.e1 ≠ [] := by rw [heq]; simp
    have hval : ∃ m ∈ s.e1, m < s.N := ⟨k, hkmem, hS.e1range k hkmem⟩
    have hspec := pyMax_selIdx_spec s.N s.e1 (fun i => s.c.getD i 0 - s.b.getD i 0) hval
    have hg : s.g = pyMax ((selIdx s.N s.e1).map (fun i => s.c.getD i 0 - s.b.getD i 0)) := by
      rw [hS.gdef, if_neg (by simpa using hne)]
    constructor
    · obtain ⟨j, hj1, hj2, hj3⟩ := hspec.1
      exact ⟨j, hj1, hj2, by rw [hg, hj3]⟩
    · intro i hi hic
      rw [hg]
      exact hspec.2 i hi hic

theorem h_nonneg {s : Hop} (hS : s.SInv) : 0 ≤ s.h := by
  rcases h_spec hS with ⟨-, h0⟩ | ⟨⟨j, hj1, -, hj3⟩, -⟩
  · omega
  · rw [hj3]; exact (hS.bval j hj1).1

theorem g_nonneg {s : Hop} (hS : s.SInv) : 0 ≤ s.g := by
  rcases g_spec hS with ⟨-, h0⟩ | ⟨⟨j, hj1, -, hj3⟩, -⟩
  · omega
  · rw [hj3]; have := hS.bval j hj1; omega

/-- A helper for proving `x ≤ effB ...` by the three cases of the
condition. -/
theorem le_effB_of {c : List Int} {e : List Nat} {N : Nat} {B x : Int} {i : Nat}
    (hxc : x ≤ c.getD i 0)
    (h1 : e.contains i = true → x ≤ B)
    (h2 : N = 1 → e.contains i = false → x ≤ B)
    (h3 : B < 0 → x ≤ B) : x ≤ effB c e N B i := by
  unfold effB
  by_cases hcond : (e.contains i ∨ N = 1 ∨ B < 0) ∧ B ≤ c.getD i 0
  · rw [if_pos hcond]
    rcases hcond.1 with hc | hc | hc
    · exact h1 hc
    · cases hcontains : e.contains i with
      | true => exact h1 hcontains
      | false => exact h2 hc hcontains
    · exact h3 hc
  · rw [if_neg hcond]
    exact hxc

/-- Properties of the value `reset_estimates` assigns to `h_u` (and,
symmetrically, `g_u`): max capacity over the enabled channels if the
direction can forward, otherwise max capacity overall. -/
theorem reset_bound_facts {s : Hop} (hS : s.SInv) {e : List Nat}
    (he : ∀ i ∈ e, i < s.N) {cf : Bool} (hcf : cf = true → e ≠ []) :
    0 ≤ (if cf then pyMax ((selIdx s.N e).map (fun i => s.c.getD i 0)) else pyMax s.c)
    ∧ (if cf then pyMax ((selIdx s.N e).map (fun i => s.c.getD i 0)) else pyMax s.c)
        ≤ pyMax s.c
    ∧ (∀ i < s.N, e.contains i = true → s.c.getD i 0
        ≤ (if cf then pyMax ((selIdx s.N e).map (fun i => s.c.getD i 0)) else pyMax s.c))
    ∧ (s.N = 1 → s.c.getD 0 0
        ≤ (if cf then pyMax ((selIdx s.N e).map (fun i => s.c.getD i 0)) else pyMax s.c)) := by
  cases cf with
  | false =>
    simp only [if_false, Bool.false_eq_true]
    exact ⟨pyMax_c_nonneg hS, le_refl _, fun i hi _ => getD_c_le_pyMax hi,
      fun h1 => getD_c_le_pyMax (by omega)⟩
  | true =>
    simp only [if_true]
    have hne := hcf rfl
    obtain ⟨k, hk⟩ := List.exists_mem_of_ne_nil e hne
    have hkN := he k hk
    have hspec := pyMax_selIdx_spec s.N e (fun i => s.c.getD i 0) ⟨k, hk, hkN⟩
    obtain ⟨⟨j, hj1, hj2, hj3⟩, hub⟩ := hspec
    refine ⟨by rw [hj3]; exact c_nonneg hS j hj1,
      by rw [hj3]; exact getD_c_le_pyMax hj1, hub, ?_⟩
    intro hN1
    have hk0 : k = 0 := by omega
    exact hub 0 (by omega) (by rw [← hk0]; exact contains_iff_mem.mpr hk)

theorem reset_SInv {s : Hop} (hS : s.SInv) : (s.resetEstimates).SInv := by
  refine ⟨hS.Npos, hS.blen, ?_, ?_, hS.e0range, hS.e1range, hS.bval,
    hS.hdef, hS.gdef, hS.gran⟩
  · show (List.replicate s.N (-1 : Int)).length = s.N
    exact List.length_replicate _ _
  · show s.c.length = s.N
    rfl

theorem canForward0_ne_nil {s : Hop} (h : s.canForward dir0 = true) : s.e0 ≠ [] :=
  canForward_ne_nil h

theorem canForward1_ne_nil {s : Hop} (h : s.canForward dir1 = true) : s.e1 ≠ [] :=
  canForward_ne_nil h

theorem reset_N (s : Hop) : s.resetEstimates.N = s.N := rfl

theorem reset_h_u (s : Hop) : s.resetEstimates.h_u =
    (if s.canForward dir0 then pyMax ((selIdx s.N s.e0).map (fun i => s.c.getD i 0))
     else pyMax s.c) := rfl

theorem reset_g_u (s : Hop) : s.resetEstimates.g_u =
    (if s.canForward dir1 then pyMax ((selIdx s.N s.e1).map (fun i => s.c.getD i 0))
     else pyMax s.c) := rfl

theorem reset_b_l (s : Hop) : s.resetEstimates.b_l = List.replicate s.N (-1) := rfl

theorem reset_b_u (s : Hop) : s.resetEstimates.b_u = s.c := rfl

theorem reset_BInv {s : Hop} (hS : s.SInv) : (s.resetEstimates).BInv := by
  obtain ⟨hA0, hAub, hAc, hA1⟩ := reset_bound_facts hS hS.e0range
    (fun h => canForward0_ne_nil h)
  obtain ⟨hB0, hBub, hBc, hB1⟩ := reset_bound_facts hS hS.e1range
    (fun h => canForward1_ne_nil h)
  have hh0 := h_nonneg hS
  have hg0 := g_nonneg hS
  refine ⟨?_, ?_, ?_, ?_, ?_, ?_, ?_, ?_, ?_, ?_, ?_, ?_, ?_, ?_⟩
  · -- bl_lt
    intro i hi
    rw [reset_N] at hi
    show -1 ≤ s.resetEstimates.b_l.getD i 0
      ∧ s.resetEstimates.b_l.getD i 0 < s.resetEstimates.b.getD i 0
    rw [reset_b_l, getD_replicate _ _ _ hi]
    show -1 ≤ -1 ∧ -1 < s.b.getD i 0
    have := (hS.bval i hi).1
    omega
  · -- bu_ge
    intro i hi
    rw [reset_N] at hi
    show s.b.getD i 0 ≤ s.resetEstimates.b_u.getD i 0
      ∧ s.resetEstimates.b_u.getD i 0 ≤ s.c.getD i 0
    rw [reset_b_u]
    exact ⟨(hS.bval i hi).2, le_refl _⟩
  · -- hl_lb
    show (-1 : Int) ≤ -1
    exact le_refl _
  · -- hl_lt
    show (-1 : Int) < s.h
    omega
  · -- h_le
    show s.h ≤ s.resetEstimates.h_u
    rw [reset_h_u]
    rcases h_spec hS with ⟨-, hval⟩ | ⟨⟨j, hj1, hj2, hj3⟩, -⟩
    · omega
    · rw [hj3]
      exact le_trans (hS.bval j hj1).2 (hAc j hj1 hj2)
  · -- hu_ub
    show s.resetEstimates.h_u ≤ pyMax s.c
    rw [reset_h_u]
    exact hAub
  · -- gl_lb
    show (-1 : Int) ≤ -1
    exact le_refl _
  · -- gl_lt
    show (-1 : Int) < s.g
    omega
  · -- g_le
    show s.g ≤ s.resetEstimates.g_u
    rw [reset_g_u]
    rcases g_spec hS with ⟨-, hval⟩ | ⟨⟨j, hj1, hj2, hj3⟩, -⟩
    · omega
    · rw [hj3]
      have := (hS.bval j hj1).1
      refine le_trans ?_ (hBc j hj1 hj2)
      omega
  · -- gu_ub
    show s.resetEstimates.g_u ≤ pyMax s.c
    rw [reset_g_u]
    exact hBub
  · -- hRu
    intro i hi
    rw [reset_N] at hi
    show s.b.getD i 0 ≤ effB s.c s.e0 s.N s.resetEstimates.h_u i
    rw [reset_h_u]
    refine le_effB_of ((hS.bval i hi).2) ?_ ?_ ?_
    · intro hc
      exact le_trans (hS.bval i hi).2 (hAc i hi hc)
    · intro hN1 _
      have hi0 : i = 0 := by omega
      rw [hi0]
      exact le_trans (hS.bval 0 (by omega)).2 (hA1 hN1)
    · intro hneg
      omega
  · -- hRl
    refine ⟨0, by rw [reset_N]; exact hS.Npos, ?_⟩
    show effB s.c s.e0 s.N s.resetEstimates.h_l 0 < s.b.getD 0 0
    have hrl : s.resetEstimates.h_l = -1 := rfl
    rw [hrl, effB_of_cond (Or.inr (Or.inr (by norm_num)))
      (le_trans (by norm_num) (c_nonneg hS 0 hS.Npos))]
    have := (hS.bval 0 hS.Npos).1
    omega
  · -- gRu
    intro i hi
    rw [reset_N] at hi
    show s.c.getD i 0 - s.b.getD i 0 ≤ effB s.c s.e1 s.N s.resetEstimates.g_u i
    rw [reset_g_u]
    have hb := hS.bval i hi
    refine le_effB_of (by omega) ?_ ?_ ?_
    · intro hc
      have := hBc i hi hc
      omega
    · intro hN1 _
      have hi0 : i = 0 := by omega
      have := hB1 hN1
      rw [hi0] at hb ⊢
      omega
    · intro hneg
      omega
  · -- gRl
    refine ⟨0, by rw [reset_N]; exact hS.Npos, ?_⟩
    show effB s.c s.e1 s.N s.resetEstimates.g_l 0 < s.c.getD 0 0 - s.b.getD 0 0
    have hrl : s.resetEstimates.g_l = -1 := rfl
    rw [hrl, effB_of_cond (Or.inr (Or.inr (by norm_num)))
      (le_trans (by norm_num) (c_nonneg hS 0 hS.Npos))]
    have := (hS.bval 0 hS.Npos).2
    omega

theorem zip_all_getD {xs ys : List Int} {p : Int × Int → Bool}
    (h : (List.zip xs ys).all p = true) :
    ∀ i, i < xs.length → i < ys.length → p (xs.getD i 0, ys.getD i 0) = true := by
  induction xs generalizing ys with
  | nil => intro i hi; cases hi
  | cons x xt ih =>
    cases ys with
    | nil => intro i _ hi; cases hi
    | cons y yt =>
      intro i hi1 hi2
      rw [List.zip_cons_cons, List.all_cons, Bool.and_eq_true_iff] at h
      cases i with
      | zero => exact h.1
      | succ m =>
        exact ih h.2 m (Nat.lt_of_succ_lt_succ hi1) (Nat.lt_of_succ_lt_succ hi2)

theorem initH_eq {N : Nat} {e0 : List Nat} {b : List Int}
    (h0 : ∀ i ∈ e0, i < N) :
    initH N e0 b = some (if e0.isEmpty then 0
      else pyMax ((selIdx N e0).map (fun i => b.getD i 0))) := by
  unfold initH
  cases he : e0.isEmpty with
  | true => simp
  | false =>
    have hne : e0 ≠ [] := by
      intro hcon; rw [hcon] at he; simp at he
    obtain ⟨k, hk⟩ := List.exists_mem_of_ne_nil e0 hne
    have hksel : k ∈ selIdx N e0 := mem_selIdx.mpr ⟨h0 k hk, contains_iff_mem.mpr hk⟩
    have hmapne : ¬ ((selIdx N e0).map (fun i => b.getD i 0)).isEmpty = true := by
      intro hcon
      rw [List.isEmpty_iff, List.map_eq_nil_iff] at hcon
      rw [hcon] at hksel
      cases hksel
    rw [if_neg (by simp), if_neg hmapne, if_neg (by simp)]

theorem initG_eq {N : Nat} {e1 : List Nat} {c b : List Int}
    (h1 : ∀ i ∈ e1, i < N) :
    initG N e1 c b = some (if e1.isEmpty then 0
      else pyMax ((selIdx N e1).map (fun i => c.getD i 0 - b.getD i 0))) := by
  unfold initG
  cases he : e1.isEmpty with
  | true => simp
  | false =>
    have hne : e1 ≠ [] := by
      intro hcon; rw [hcon] at he; simp at he
    obtain ⟨k, hk⟩ := List.exists_mem_of_ne_nil e1 hne
    have hksel : k ∈ selIdx N e1 := mem_selIdx.mpr ⟨h1 k hk, contains_iff_mem.mpr hk⟩
    have hmapne : ¬ ((selIdx N e1).map (fun i => c.getD i 0 - b.getD i 0)).isEmpty = true := by
      intro hcon
      rw [List.isEmpty_iff, List.map_eq_nil_iff] at hcon
      rw [hcon] at hksel
      cases hksel
    rw [if_neg (by simp), if_neg hmapne, if_neg (by simp)]

/-- A successful construction (with valid enabled indices and a balance
list of the right length) establishes the invariant.  The index-validity
and length hypotheses restrict attention to hops on which later operations
do not die on a Python `IndexError` (see the C8 analysis: the
constructor's own index assertion is off by one, so it does not enforce
this itself). -/
theorem init_Inv {c : List Int} {e0 e1 : List Nat} {b : List Int} {s : Hop}
    (hinit : Hop.init c e0 e1 b = some s)
    (h0 : ∀ i ∈ e0, i < c.length) (h1 : ∀ i ∈ e1, i < c.length)
    (hblen : b.length = c.length) : s.Inv := by
  unfold Hop.init at hinit
  by_cases hc1 : c.length = 0
  · rw [if_pos hc1] at hinit
    exact absurd hinit (by simp)
  rw [if_neg hc1] at hinit
  by_cases hc2 : e0 ≠ [] ∧ (c.length : Int) < pyMax (e0.map (fun i => (i : Int)))
  · rw [if_pos hc2] at hinit
    exact absurd hinit (by simp)
  rw [if_neg hc2] at hinit
  by_cases hc3 : e1 ≠ [] ∧ (c.length : Int) < pyMax (e1.map (fun i => (i : Int)))
  · rw [if_pos hc3] at hinit
    exact absurd hinit (by simp)
  rw [if_neg hc3] at hinit
  by_cases hc4 : ¬ ((List.zip b c).all (fun q => 0 ≤ q.1 ∧ q.1 ≤ q.2))
  · rw [if_pos hc4] at hinit
    exact absurd hinit (by simp)
  rw [if_neg hc4] at hinit
  rw [not_not] at hc4
  have hzip := hc4
  simp only [initH_eq h0, initG_eq h1] at hinit
  rw [Option.some_inj] at hinit
  subst hinit
  have hNpos : 1 ≤ c.length := by omega
  have hSInv : Hop.SInv (Hop.mk c e0 e1 [] [] b
      (if e0.isEmpty then 0 else pyMax ((selIdx c.length e0).map (fun i => b.getD i 0)))
      (if e1.isEmpty then 0 else pyMax ((selIdx c.length e1).map (fun i => c.getD i 0 - b.getD i 0)))
      1 (-1) 0 (-1) 0 (List.replicate c.length (-1)) c) := by
    refine ⟨hNpos, hblen, ?_, rfl, h0, h1, ?_, rfl, rfl, rfl⟩
    · show (List.replicate c.length (-1 : Int)).length = c.length
      exact List.length_replicate _ _
    · intro i hi
      have hi' : i < c.length := hi
      show 0 ≤ b.getD i 0 ∧ b.getD i 0 ≤ c.getD i 0
      have := zip_all_getD hzip i (by omega) hi'
      exact decide_eq_true_eq.mp this
  exact ⟨reset_SInv hSInv, reset_BInv hSInv⟩

theorem mem_avail_e {s : Hop} {d : Bool} {k : Nat} (hk : k ∈ s.availChannels d) :
    k ∈ s.e d :=
  (List.mem_filter.mp hk).1

theorem avail_lt_N {s : Hop} (hS : s.SInv) {d : Bool} {k : Nat}
    (hk : k ∈ s.availChannels d) : k < s.N := by
  cases d with
  | true => exact hS.e0range k (mem_avail_e hk)
  | false => exact hS.e1range k (mem_avail_e hk)

theorem avail_eq_e_of_nojam {s : Hop} {d : Bool} (hj : s.j d = []) :
    s.availChannels d = s.e d := by
  unfold Hop.availChannels
  rw [hj]
  have : ∀ i ∈ s.e d, (!(List.contains ([] : List Nat) i)) = true := by
    intro i _
    rfl
  exact List.filter_eq_self.mpr this

/-- For an enabled channel, membership of the balance point in `R_g_u`
forces `c_k - b_k ≤ g_u` outright. -/
theorem gRu_enabled {s : Hop} (hS : s.SInv) (hB : s.BInv) {k : Nat}
    (hkN : k < s.N) (hk : s.e1.contains k = true) :
    s.c.getD k 0 - s.b.getD k 0 ≤ s.g_u := by
  have hg := hB.gRu k hkN
  have hb := hS.bval k hkN
  unfold effB at hg
  by_cases hcond : (s.e1.contains k ∨ s.N = 1 ∨ s.g_u < 0) ∧ s.g_u ≤ s.c.getD k 0
  · rw [if_pos hcond] at hg
    exact hg
  · rw [if_neg hcond] at hg
    have : ¬ s.g_u ≤ s.c.getD k 0 := by
      intro hle
      exact hcond ⟨Or.inl hk, hle⟩
    omega

theorem hRu_enabled {s : Hop} (hS : s.SInv) (hB : s.BInv) {k : Nat}
    (hkN : k < s.N) (hk : s.e0.contains k = true) :
    s.b.getD k 0 ≤ s.h_u := by
  have hg := hB.hRu k hkN
  have hb := hS.bval k hkN
  unfold effB at hg
  by_cases hcond : (s.e0.contains k ∨ s.N = 1 ∨ s.h_u < 0) ∧ s.h_u ≤ s.c.getD k 0
  · rw [if_pos hcond] at hg
    exact hg
  · rw [if_neg hcond] at hg
    have : ¬ s.h_u ≤ s.c.getD k 0 := by
      intro hle
      exact hcond ⟨Or.inl hk, hle⟩
    omega

/-- Facts about `max(self.c[i] - self.b_l[i] for i in self.e[dir1])` for a
strict per-channel lower bound list `bl'`. -/
theorem pyMax_cbl_facts {c b bl' : List Int} {e1 : List Nat} {N : Nat} {g : Int}
    (hbl : ∀ i < N, bl'.getD i 0 < b.getD i 0)
    (hgj : ∃ j, j < N ∧ e1.contains j = true ∧ g = c.getD j 0 - b.getD j 0) :
    g < pyMax (e1.map (fun i => c.getD i 0 - bl'.getD i 0))
    ∧ ∀ k < N, e1.contains k = true →
        c.getD k 0 - b.getD k 0 < pyMax (e1.map (fun i => c.getD i 0 - bl'.getD i 0)) := by
  have part2 : ∀ k < N, e1.contains k = true →
      c.getD k 0 - b.getD k 0 < pyMax (e1.map (fun i => c.getD i 0 - bl'.getD i 0)) := by
    intro k hkN hk
    have hmem : c.getD k 0 - bl'.getD k 0
        ∈ e1.map (fun i => c.getD i 0 - bl'.getD i 0) :=
      List.mem_map.mpr ⟨k, contains_iff_mem.mp hk, rfl⟩
    have h1 := le_pyMax_of_mem hmem
    have h2 := hbl k hkN
    omega
  obtain ⟨j, hj1, hj2, hj3⟩ := hgj
  exact ⟨by rw [hj3]; exact part2 j hj1 hj2, part2⟩

/-- Facts about `max(self.b_u[i] for i in self.e[dir0])` for a per-channel
upper bound list `bu'`. -/
theorem pyMax_bu_facts {b bu' : List Int} {e0 : List Nat} {N : Nat} {h : Int}
    (hbu : ∀ i < N, b.getD i 0 ≤ bu'.getD i 0)
    (hhj : ∃ j, j < N ∧ e0.contains j = true ∧ h = b.getD j 0) :
    h ≤ pyMax (e0.map (fun i => bu'.getD i 0))
    ∧ ∀ k < N, e0.contains k = true →
        b.getD k 0 ≤ pyMax (e0.map (fun i => bu'.getD i 0)) := by
  have part2 : ∀ k < N, e0.contains k = true →
      b.getD k 0 ≤ pyMax (e0.map (fun i => bu'.getD i 0)) := by
    intro k hkN hk
    have hmem : bu'.getD k 0 ∈ e0.map (fun i => bu'.getD i 0) :=
      List.mem_map.mpr ⟨k, contains_iff_mem.mp hk, rfl⟩
    have h1 := le_pyMax_of_mem hmem
    have h2 := hbu k hkN
    omega
  obtain ⟨j, hj1, hj2, hj3⟩ := hhj
  exact ⟨by rw [hj3]; exact part2 j hj1 hj2, part2⟩

/-- Rebuild `SInv` for a state that keeps all construction-time fields and
the estimate-list lengths. -/
theorem SInv_eqfields {s' s : Hop} (hS : s.SInv)
    (hc : s'.c = s.c) (he0 : s'.e0 = s.e0) (he1 : s'.e1 = s.e1)
    (hb : s'.b = s.b) (hh : s'.h = s.h) (hg : s'.g = s.g)
    (hgran : s'.granularity = s.granularity)
    (hbl : s'.b_l.length = s.b_l.length) (hbu : s'.b_u.length = s.b_u.length) :
    s'.SInv := by
  have hN : s'.N = s.N := by unfold Hop.N; rw [hc]
  refine ⟨?_, ?_, ?_, ?_, ?_, ?_, ?_, ?_, ?_, ?_⟩
  · rw [hN]; exact hS.Npos
  · rw [hb, hN]; exact hS.blen
  · rw [hbl, hN]; exact hS.bllen
  · rw [hbu, hN]; exact hS.bulen
  · rw [he0, hN]; exact hS.e0range
  · rw [he1, hN]; exact hS.e1range
  · rw [hb, hc, hN]; exact hS.bval
  · rw [hh, he0, hN, hb]; exact hS.hdef
  · rw [hg, he1, hN, hb, hc]; exact hS.gdef
  · rw [hgran]; exact hS.gran

theorem updWhere_getD0 (p : Nat → Bool) (f : Nat → Int → Int)
    (l : List Int) (i : Nat) (hi : i < l.length) :
    (updWhere p f 0 l).getD i 0 = if p i then f i (l.getD i 0) else l.getD i 0 := by
  rw [updWhere_getD p f 0 l i hi, Nat.zero_add]

/-- Core invariant preservation for the dir0 passed-probe hop-level update
(`h_l := amount - 1`, optional single-channel `b_l` update, optional `g_u`
tightening). -/
theorem dir0_pass_core {s : Hop} {a : Int} (hS : s.SInv) (hB : s.BInv)
    (hsu : s.h_l < a ∧ a ≤ s.h_u)
    {k : Nat} (hk0 : k ∈ s.e0) (hka : a ≤ s.b.getD k 0)
    {bl' : List Int}
    (hbl'len : bl'.length = s.b_l.length)
    (hbl'low : ∀ i < s.N, s.b_l.getD i 0 ≤ bl'.getD i 0)
    (hbl'lt : ∀ i < s.N, -1 ≤ bl'.getD i 0 ∧ bl'.getD i 0 < s.b.getD i 0)
    {gu' : Int}
    (hgu'le : gu' ≤ s.g_u)
    (hgu'ge : s.g ≤ gu')
    (hgu'Ru : ∀ i < s.N, s.c.getD i 0 - s.b.getD i 0 ≤ effB s.c s.e1 s.N gu' i) :
    ({ s with h_l := a - 1, g_u := gu', b_l := bl' }).SInv
    ∧ ({ s with h_l := a - 1, g_u := gu', b_l := bl' }).BInv
    ∧ ({ s with h_l := a - 1, g_u := gu', b_l := bl' }).tighter s := by
  have hkN : k < s.N := hS.e0range k hk0
  have hkc : s.e0.contains k = true := contains_iff_mem.mpr hk0
  have hbk := hS.bval k hkN
  have hhk : s.b.getD k 0 ≤ s.h := by
    rcases h_spec hS with ⟨he, -⟩ | ⟨-, hub⟩
    · rw [he] at hk0; cases hk0
    · exact hub k hkN hkc
  have hl_lb := hB.hl_lb
  refine ⟨SInv_eqfields hS rfl rfl rfl rfl rfl rfl rfl hbl'len rfl, ?_, ?_⟩
  · refine ⟨?_, hB.bu_ge, ?_, ?_, hB.h_le, hB.hu_ub, hB.gl_lb, hB.gl_lt, ?_, ?_,
      hB.hRu, ?_, ?_, hB.gRl⟩
    · exact fun i hi => hbl'lt i hi
    · show (-1 : Int) ≤ a - 1
      omega
    · show a - 1 < s.h
      omega
    · exact hgu'ge
    · show gu' ≤ pyMax s.c
      have := hB.gu_ub
      omega
    · refine ⟨k, hkN, ?_⟩
      show effB s.c s.e0 s.N (a - 1) k < s.b.getD k 0
      rw [effB_of_cond (Or.inl hkc) (by omega)]
      omega
    · exact hgu'Ru
  · exact ⟨rfl, rfl, rfl, rfl, hbl'len, rfl, by show s.h_l ≤ a - 1; omega,
      le_refl _, le_refl _, hgu'le, hbl'low, fun i _ => le_refl _⟩

/-- Core invariant preservation for the dir0 failed-probe hop-level update
(`h_u := amount - 1`, `b_u` capping for the dir0-enabled channels, optional
`g_l` tightening). -/
theorem dir0_fail_core {s : Hop} {a : Int} (hS : s.SInv) (hB : s.BInv)
    (hsu : s.h_l < a ∧ a ≤ s.h_u)
    (he0ne : s.e0 ≠ [])
    (hfa : ∀ i < s.N, s.e0.contains i = true → s.b.getD i 0 < a)
    (ha1 : 1 ≤ a)
    {bu' : List Int}
    (hbu'len : bu'.length = s.b_u.length)
    (hbu'hi : ∀ i < s.N, bu'.getD i 0 ≤ s.b_u.getD i 0)
    (hbu'ge : ∀ i < s.N, s.b.getD i 0 ≤ bu'.getD i 0)
    {gl' : Int}
    (hgl'ge : s.g_l ≤ gl')
    (hgl'lt : gl' < s.g)
    (hgl'Rl : ∃ i, i < s.N ∧ effB s.c s.e1 s.N gl' i < s.c.getD i 0 - s.b.getD i 0) :
    ({ s with h_u := a - 1, g_l := gl', b_u := bu' }).SInv
    ∧ ({ s with h_u := a - 1, g_l := gl', b_u := bu' }).BInv
    ∧ ({ s with h_u := a - 1, g_l := gl', b_u := bu' }).tighter s := by
  obtain ⟨k0, hk0⟩ := List.exists_mem_of_ne_nil s.e0 he0ne
  have hk0N : k0 < s.N := hS.e0range k0 hk0
  have hh_le : s.h ≤ a - 1 := by
    rcases h_spec hS with ⟨he, -⟩ | ⟨⟨j, hj1, hj2, hj3⟩, -⟩
    · rw [he] at hk0; cases hk0
    · have := hfa j hj1 hj2
      omega
  refine ⟨SInv_eqfields hS rfl rfl rfl rfl rfl rfl rfl rfl hbu'len, ?_, ?_⟩
  · refine ⟨hB.bl_lt, ?_, hB.hl_lb, hB.hl_lt, ?_, ?_, ?_, ?_, hB.g_le, hB.gu_ub,
      ?_, hB.hRl, hB.gRu, ?_⟩
    · intro i hi
      exact ⟨hbu'ge i hi, le_trans (hbu'hi i hi) (hB.bu_ge i hi).2⟩
    · exact hh_le
    · show a - 1 ≤ pyMax s.c
      have h1 := hB.hu_ub
      have h2 := hsu.2
      omega
    · show (-1 : Int) ≤ gl'
      have := hB.gl_lb
      omega
    · exact hgl'lt
    · intro i hi
      have hi' : i < s.N := hi
      show s.b.getD i 0 ≤ effB s.c s.e0 s.N (a - 1) i
      refine le_effB_of ((hS.bval i hi').2) ?_ ?_ ?_
      · intro hc
        have := hfa i hi' hc
        omega
      · intro hN1 hcf
        have hk00 : k0 = 0 := by omega
        have hi0 : i = 0 := by omega
        rw [hk00] at hk0
        have hc0 : s.e0.contains 0 = true := contains_iff_mem.mpr hk0
        rw [hi0, hc0] at hcf
        cases hcf
      · intro hneg
        omega
    · exact hgl'Rl
  · exact ⟨rfl, rfl, rfl, rfl, rfl, hbu'len, le_refl _,
      by show a - 1 ≤ s.h_u; omega, hgl'ge, le_refl _,
      fun i _ => le_refl _, hbu'hi⟩

/-- Core preservation for a jamming-mode `b_l` bump of a single channel. -/
theorem jam_bl_core {s : Hop} (hS : s.SInv) (hB : s.BInv) {k : Nat} {v : Int}
    (hv : v < s.b.getD k 0) :
    ({ s with b_l := updWhere (fun j => j == k) (fun _ x => max x v) 0 s.b_l }).SInv
    ∧ ({ s with b_l := updWhere (fun j => j == k) (fun _ x => max x v) 0 s.b_l }).BInv
    ∧ ({ s with b_l := updWhere (fun j => j == k) (fun _ x => max x v) 0 s.b_l }).tighter s := by
  have hlen : (updWhere (fun j => j == k) (fun _ x => max x v) 0 s.b_l).length
      = s.b_l.length := updWhere_length _ _ _ _
  have hget : ∀ i < s.N,
      (updWhere (fun j => j == k) (fun _ x => max x v) 0 s.b_l).getD i 0
        = if i = k then max (s.b_l.getD i 0) v else s.b_l.getD i 0 := by
    intro i hi
    rw [updWhere_getD0 _ _ _ i (by rw [hS.bllen]; exact hi)]
    by_cases hik : i = k
    · rw [if_pos (by rw [hik]; simp), if_pos hik]
    · rw [if_neg (by simpa using hik), if_neg hik]
  refine ⟨SInv_eqfields hS rfl rfl rfl rfl rfl rfl rfl hlen rfl, ?_, ?_⟩
  · refine ⟨?_, hB.bu_ge, hB.hl_lb, hB.hl_lt, hB.h_le, hB.hu_ub, hB.gl_lb,
      hB.gl_lt, hB.g_le, hB.gu_ub, hB.hRu, hB.hRl, hB.gRu, hB.gRl⟩
    intro i hi
    show -1 ≤ (updWhere (fun j => j == k) (fun _ x => max x v) 0 s.b_l).getD i 0
      ∧ (updWhere (fun j => j == k) (fun _ x => max x v) 0 s.b_l).getD i 0 < s.b.getD i 0
    rw [hget i hi]
    have hold := hB.bl_lt i hi
    by_cases hik : i = k
    · rw [if_pos hik, hik]
      rw [hik] at hold
      constructor
      · have := le_max_left (s.b_l.getD k 0) v
        omega
      · exact max_lt hold.2 hv
    · rw [if_neg hik]
      exact hold
  · refine ⟨rfl, rfl, rfl, rfl, hlen, rfl, le_refl _, le_refl _, le_refl _,
      le_refl _, ?_, fun i _ => le_refl _⟩
    intro i hi
    rw [hget i hi]
    by_cases hik : i = k
    · rw [if_pos hik]
      exact le_max_left _ _
    · rw [if_neg hik]

/-- Core preservation for a jamming-mode `b_u` cap of a single channel. -/
theorem jam_bu_core {s : Hop} (hS : s.SInv) (hB : s.BInv) {k : Nat} {v : Int}
    (hv : s.b.getD k 0 ≤ v) :
    ({ s with b_u := updWhere (fun j => j == k) (fun _ x => min x v) 0 s.b_u }).SInv
    ∧ ({ s with b_u := updWhere (fun j => j == k) (fun _ x => min x v) 0 s.b_u }).BInv
    ∧ ({ s with b_u := updWhere (fun j => j == k) (fun _ x => min x v) 0 s.b_u }).tighter s := by
  have hlen : (updWhere (fun j => j == k) (fun _ x => min x v) 0 s.b_u).length
      = s.b_u.length := updWhere_length _ _ _ _
  have hget : ∀ i < s.N,
      (updWhere (fun j => j == k) (fun _ x => min x v) 0 s.b_u).getD i 0
        = if i = k then min (s.b_u.getD i 0) v else s.b_u.getD i 0 := by
    intro i hi
    rw [updWhere_getD0 _ _ _ i (by rw [hS.bulen]; exact hi)]
    by_cases hik : i = k
    · rw [if_pos (by rw [hik]; simp), if_pos hik]
    · rw [if_neg (by simpa using hik), if_neg hik]
  refine ⟨SInv_eqfields hS rfl rfl rfl rfl rfl rfl rfl rfl hlen, ?_, ?_⟩
  · refine ⟨hB.bl_lt, ?_, hB.hl_lb, hB.hl_lt, hB.h_le, hB.hu_ub, hB.gl_lb,
      hB.gl_lt, hB.g_le, hB.gu_ub, hB.hRu, hB.hRl, hB.gRu, hB.gRl⟩
    intro i hi
    show s.b.getD i 0 ≤ (updWhere (fun j => j == k) (fun _ x => min x v) 0 s.b_u).getD i 0
      ∧ (updWhere (fun j => j == k) (fun _ x => min x v) 0 s.b_u).getD i 0 ≤ s.c.getD i 0
    rw [hget i hi]
    have hold := hB.bu_ge i hi
    by_cases hik : i = k
    · rw [if_pos hik, hik]
      rw [hik] at hold
      constructor
      · exact le_min hold.1 hv
      · have := min_le_left (s.b_u.getD k 0) v
        omega
    · rw [if_neg hik]
      exact hold
  · refine ⟨rfl, rfl, rfl, rfl, rfl, hlen, le_refl _, le_refl _, le_refl _,
      le_refl _, fun i _ => le_refl _, ?_⟩
    intro i hi
    rw [hget i hi]
    by_cases hik : i = k
    · rw [if_pos hik]
      exact min_le_left _ _
    · rw [if_neg hik]

/-- Core invariant preservation for the dir1 passed-probe hop-level update
(`g_l := amount - 1`, optional single-channel `b_u` cap, optional `h_u`
tightening). -/
theorem dir1_pass_core {s : Hop} {a : Int} (hS : s.SInv) (hB : s.BInv)
    (hsu : s.g_l < a ∧ a ≤ s.g_u)
    {k : Nat} (hk1 : k ∈ s.e1) (hka : a ≤ s.c.getD k 0 - s.b.getD k 0)
    {bu' : List Int}
    (hbu'len : bu'.length = s.b_u.length)
    (hbu'hi : ∀ i < s.N, bu'.getD i 0 ≤ s.b_u.getD i 0)
    (hbu'ge : ∀ i < s.N, s.b.getD i 0 ≤ bu'.getD i 0)
    {hu' : Int}
    (hhu'le : hu' ≤ s.h_u)
    (hhu'ge : s.h ≤ hu')
    (hhu'Ru : ∀ i < s.N, s.b.getD i 0 ≤ effB s.c s.e0 s.N hu' i) :
    ({ s with g_l := a - 1, h_u := hu', b_u := bu' }).SInv
    ∧ ({ s with g_l := a - 1, h_u := hu', b_u := bu' }).BInv
    ∧ ({ s with g_l := a - 1, h_u := hu', b_u := bu' }).tighter s := by
  have hkN : k < s.N := hS.e1range k hk1
  have hkc : s.e1.contains k = true := contains_iff_mem.mpr hk1
  have hbk := hS.bval k hkN
  have hgk : s.c.getD k 0 - s.b.getD k 0 ≤ s.g := by
    rcases g_spec hS with ⟨he, -⟩ | ⟨-, hub⟩
    · rw [he] at hk1; cases hk1
    · exact hub k hkN hkc
  have hgl_lb := hB.gl_lb
  refine ⟨SInv_eqfields hS rfl rfl rfl rfl rfl rfl rfl rfl hbu'len, ?_, ?_⟩
  · refine ⟨hB.bl_lt, ?_, hB.hl_lb, hB.hl_lt, ?_, ?_, ?_, ?_, hB.g_le, hB.gu_ub,
      ?_, hB.hRl, hB.gRu, ?_⟩
    · intro i hi
      exact ⟨hbu'ge i hi, le_trans (hbu'hi i hi) (hB.bu_ge i hi).2⟩
    · exact hhu'ge
    · show hu' ≤ pyMax s.c
      have := hB.hu_ub
      omega
    · show (-1 : Int) ≤ a - 1
      omega
    · show a - 1 < s.g
      omega
    · exact hhu'Ru
    · refine ⟨k, hkN, ?_⟩
      show effB s.c s.e1 s.N (a - 1) k < s.c.getD k 0 - s.b.getD k 0
      rw [effB_of_cond (Or.inl hkc) (by omega)]
      omega
  · exact ⟨rfl, rfl, rfl, rfl, rfl, hbu'len, le_refl _, hhu'le,
      by show s.g_l ≤ a - 1; omega, le_refl _, fun i _ => le_refl _, hbu'hi⟩

/-- Core invariant preservation for the dir1 failed-probe hop-level update
(`g_u := amount - 1`, `b_l` bumps for the dir1-enabled channels, optional
`h_l` tightening). -/
theorem dir1_fail_core {s : Hop} {a : Int} (hS : s.SInv) (hB : s.BInv)
    (hsu : s.g_l < a ∧ a ≤ s.g_u)
    (he1ne : s.e1 ≠ [])
    (hfa : ∀ i < s.N, s.e1.contains i = true → s.c.getD i 0 - s.b.getD i 0 < a)
    (ha1 : 1 ≤ a)
    {bl' : List Int}
    (hbl'len : bl'.length = s.b_l.length)
    (hbl'low : ∀ i < s.N, s.b_l.getD i 0 ≤ bl'.getD i 0)
    (hbl'lt : ∀ i < s.N, -1 ≤ bl'.getD i 0 ∧ bl'.getD i 0 < s.b.getD i 0)
    {hl' : Int}
    (hhl'ge : s.h_l ≤ hl')
    (hhl'lt : hl' < s.h)
    (hhl'Rl : ∃ i, i < s.N ∧ effB s.c s.e0 s.N hl' i < s.b.getD i 0) :
    ({ s with g_u := a - 1, h_l := hl', b_l := bl' }).SInv
    ∧ ({ s with g_u := a - 1, h_l := hl', b_l := bl' }).BInv
    ∧ ({ s with g_u := a - 1, h_l := hl', b_l := bl' }).tighter s := by
  obtain ⟨k1, hk1⟩ := List.exists_mem_of_ne_nil s.e1 he1ne
  have hk1N : k1 < s.N := hS.e1range k1 hk1
  have hg_le : s.g ≤ a - 1 := by
    rcases g_spec hS with ⟨he, -⟩ | ⟨⟨j, hj1, hj2, hj3⟩, -⟩
    · rw [he] at hk1; cases hk1
    · have := hfa j hj1 hj2
      omega
  refine ⟨SInv_eqfields hS rfl rfl rfl rfl rfl rfl rfl hbl'len rfl, ?_, ?_⟩
  · refine ⟨?_, hB.bu_ge, ?_, ?_, hB.h_le, hB.hu_ub, hB.gl_lb, hB.gl_lt, ?_, ?_,
      hB.hRu, ?_, ?_, hB.gRl⟩
    · exact fun i hi => hbl'lt i hi
    · show (-1 : Int) ≤ hl'
      have := hB.hl_lb
      omega
    · exact hhl'lt
    · exact hg_le
    · show a - 1 ≤ pyMax s.c
      have h1 := hB.gu_ub
      have h2 := hsu.2
      omega
    · exact hhl'Rl
    · intro i hi
      have hi' : i < s.N := hi
      show s.c.getD i 0 - s.b.getD i 0 ≤ effB s.c s.e1 s.N (a - 1) i
      have hb := hS.bval i hi'
      refine le_effB_of (by omega) ?_ ?_ ?_
      · intro hc
        have := hfa i hi' hc
        omega
      · intro hN1 hcf
        have hk10 : k1 = 0 := by omega
        have hi0 : i = 0 := by omega
        rw [hk10] at hk1
        have hc0 : s.e1.contains 0 = true := contains_iff_mem.mpr hk1
        rw [hi0, hc0] at hcf
        cases hcf
      · intro hneg
        omega
  · exact ⟨rfl, rfl, rfl, rfl, hbl'len, rfl, hhl'ge, le_refl _, le_refl _,
      by show a - 1 ≤ s.g_u; omega, hbl'low, fun i _ => le_refl _⟩

/-- Facts about a single-channel `b_l` bump below the true balance. -/
theorem bl_upd_facts {s : Hop} (hS : s.SInv) (hB : s.BInv) {k : Nat} {v : Int}
    (hv : v < s.b.getD k 0) :
    (updWhere (fun j => j == k) (fun _ x => max x v) 0 s.b_l).length = s.b_l.length
    ∧ (∀ i < s.N, s.b_l.getD i 0
        ≤ (updWhere (fun j => j == k) (fun _ x => max x v) 0 s.b_l).getD i 0)
    ∧ (∀ i < s.N, -1 ≤ (updWhere (fun j => j == k) (fun _ x => max x v) 0 s.b_l).getD i 0
        ∧ (updWhere (fun j => j == k) (fun _ x => max x v) 0 s.b_l).getD i 0 < s.b.getD i 0) := by
  have hget : ∀ i < s.N,
      (updWhere (fun j => j == k) (fun _ x => max x v) 0 s.b_l).getD i 0
        = if i = k then max (s.b_l.getD i 0) v else s.b_l.getD i 0 := by
    intro i hi
    rw [updWhere_getD0 _ _ _ i (by rw [hS.bllen]; exact hi)]
    by_cases hik : i = k
    · rw [if_pos (by rw [hik]; simp), if_pos hik]
    · rw [if_neg (by simpa using hik), if_neg hik]
  refine ⟨updWhere_length _ _ _ _, ?_, ?_⟩
  · intro i hi
    rw [hget i hi]
    by_cases hik : i = k
    · rw [if_pos hik]; exact le_max_left _ _
    · rw [if_neg hik]
  · intro i hi
    rw [hget i hi]
    have hold := hB.bl_lt i hi
    by_cases hik : i = k
    · rw [if_pos hik, hik]
      rw [hik] at hold
      exact ⟨by have := le_max_left (s.b_l.getD k 0) v; omega, max_lt hold.2 hv⟩
    · rw [if_neg hik]
      exact hold

/-- Facts about a single-channel `b_u` cap above the true balance. -/
theorem bu_upd_facts {s : Hop} (hS : s.SInv) (hB : s.BInv) {k : Nat} {v : Int}
    (hv : s.b.getD k 0 ≤ v) :
    (updWhere (fun j => j == k) (fun _ x => min x v) 0 s.b_u).length = s.b_u.length
    ∧ (∀ i < s.N, (updWhere (fun j => j == k) (fun _ x => min x v) 0 s.b_u).getD i 0
        ≤ s.b_u.getD i 0)
    ∧ (∀ i < s.N, s.b.getD i 0
        ≤ (updWhere (fun j => j == k) (fun _ x => min x v) 0 s.b_u).getD i 0) := by
  have hget : ∀ i < s.N,
      (updWhere (fun j => j == k) (fun _ x => min x v) 0 s.b_u).getD i 0
        = if i = k then min (s.b_u.getD i 0) v else s.b_u.getD i 0 := by
    intro i hi
    rw [updWhere_getD0 _ _ _ i (by rw [hS.bulen]; exact hi)]
    by_cases hik : i = k
    · rw [if_pos (by rw [hik]; simp), if_pos hik]
    · rw [if_neg (by simpa using hik), if_neg hik]
  refine ⟨updWhere_length _ _ _ _, ?_, ?_⟩
  · intro i hi
    rw [hget i hi]
    by_cases hik : i = k
    · rw [if_pos hik]; exact min_le_left _ _
    · rw [if_neg hik]
  · intro i hi
    rw [hget i hi]
    have hold := hB.bu_ge i hi
    by_cases hik : i = k
    · rw [if_pos hik, hik]
      rw [hik] at hold
      exact le_min hold.1 hv
    · rw [if_neg hik]
      exact hold.1

/-- Facts about `g_u := min(g_u, max(c_i - b_l'_i for i in e1))`. -/
theorem gu_min_facts {s : Hop} (hS : s.SInv) (hB : s.BInv) (he1ne : s.e1 ≠ [])
    {bl' : List Int}
    (hbl'lt : ∀ i < s.N, -1 ≤ bl'.getD i 0 ∧ bl'.getD i 0 < s.b.getD i 0) :
    min s.g_u (pyMax (s.e1.map (fun i => s.c.getD i 0 - bl'.getD i 0))) ≤ s.g_u
    ∧ s.g ≤ min s.g_u (pyMax (s.e1.map (fun i => s.c.getD i 0 - bl'.getD i 0)))
    ∧ ∀ i < s.N, s.c.getD i 0 - s.b.getD i 0
        ≤ effB s.c s.e1 s.N
            (min s.g_u (pyMax (s.e1.map (fun i => s.c.getD i 0 - bl'.getD i 0)))) i := by
  obtain ⟨k1, hk1⟩ := List.exists_mem_of_ne_nil s.e1 he1ne
  have hk1N : k1 < s.N := hS.e1range k1 hk1
  have hgj : ∃ j, j < s.N ∧ s.e1.contains j = true ∧ s.g = s.c.getD j 0 - s.b.getD j 0 := by
    rcases g_spec hS with ⟨he, -⟩ | ⟨hex, -⟩
    · rw [he] at hk1; cases hk1
    · exact hex
  obtain ⟨hM1, hM2⟩ := pyMax_cbl_facts (c := s.c) (fun i hi => (hbl'lt i hi).2) hgj
  have hge : s.g ≤ min s.g_u (pyMax (s.e1.map (fun i => s.c.getD i 0 - bl'.getD i 0))) :=
    le_min hB.g_le (le_of_lt hM1)
  have hg0 := g_nonneg hS
  refine ⟨min_le_left _ _, hge, ?_⟩
  intro i hi
  have hb := hS.bval i hi
  refine le_effB_of (by omega) ?_ ?_ ?_
  · intro hc
    exact le_min (gRu_enabled hS hB hi hc) (le_of_lt (hM2 i hi hc))
  · intro hN1 hcf
    have hk10 : k1 = 0 := by omega
    rw [hk10] at hk1
    have hc0 : s.e1.contains 0 = true := contains_iff_mem.mpr hk1
    have hi0 : i = 0 := by omega
    rw [hi0, hc0] at hcf
    cases hcf
  · intro hneg
    omega

/-- Facts about `h_u := min(h_u, max(b_u'_i for i in e0))`. -/
theorem hu_min_facts {s : Hop} (hS : s.SInv) (hB : s.BInv) (he0ne : s.e0 ≠ [])
    {bu' : List Int}
    (hbu'ge : ∀ i < s.N, s.b.getD i 0 ≤ bu'.getD i 0) :
    min s.h_u (pyMax (s.e0.map (fun i => bu'.getD i 0))) ≤ s.h_u
    ∧ s.h ≤ min s.h_u (pyMax (s.e0.map (fun i => bu'.getD i 0)))
    ∧ ∀ i < s.N, s.b.getD i 0
        ≤ effB s.c s.e0 s.N (min s.h_u (pyMax (s.e0.map (fun i => bu'.getD i 0)))) i := by
  obtain ⟨k0, hk0⟩ := List.exists_mem_of_ne_nil s.e0 he0ne
  have hk0N : k0 < s.N := hS.e0range k0 hk0
  have hhj : ∃ j, j < s.N ∧ s.e0.contains j = true ∧ s.h = s.b.getD j 0 := by
    rcases h_spec hS with ⟨he, -⟩ | ⟨hex, -⟩
    · rw [he] at hk0; cases hk0
    · exact hex
  obtain ⟨hM1, hM2⟩ := pyMax_bu_facts hbu'ge hhj
  have hge : s.h ≤ min s.h_u (pyMax (s.e0.map (fun i => bu'.getD i 0))) :=
    le_min hB.h_le hM1
  have hh0 := h_nonneg hS
  refine ⟨min_le_left _ _, hge, ?_⟩
  intro i hi
  have hb := hS.bval i hi
  refine le_effB_of (by omega) ?_ ?_ ?_
  · intro hc
    exact le_min (hRu_enabled hS hB hi hc) (hM2 i hi hc)
  · intro hN1 hcf
    have hk00 : k0 = 0 := by omega
    rw [hk00] at hk0
    have hc0 : s.e0.contains 0 = true := contains_iff_mem.mpr hk0
    have hi0 : i = 0 := by omega
    rw [hi0, hc0] at hcf
    cases hcf
  · intro hneg
    omega

/-- Facts about `g_l := max(g_l, min(c_i - b_u'_i - 1 for i in e1))`. -/
theorem gl_max_facts {s : Hop} (hS : s.SInv) (hB : s.BInv) (he1ne : s.e1 ≠ [])
    {bu' : List Int}
    (hbu'ge : ∀ i < s.N, s.b.getD i 0 ≤ bu'.getD i 0) :
    s.g_l ≤ max s.g_l (pyMin (s.e1.map (fun i => s.c.getD i 0 - bu'.getD i 0 - 1)))
    ∧ max s.g_l (pyMin (s.e1.map (fun i => s.c.getD i 0 - bu'.getD i 0 - 1))) < s.g
    ∧ ∃ i, i < s.N ∧ effB s.c s.e1 s.N
        (max s.g_l (pyMin (s.e1.map (fun i => s.c.getD i 0 - bu'.getD i 0 - 1)))) i
        < s.c.getD i 0 - s.b.getD i 0 := by
  have hmapne : s.e1.map (fun i => s.c.getD i 0 - bu'.getD i 0 - 1) ≠ [] := by
    intro hcon
    rw [List.map_eq_nil_iff] at hcon
    exact he1ne hcon
  obtain ⟨j, hjmem, hjval⟩ := List.mem_map.mp (pyMin_mem hmapne)
  have hjN : j < s.N := hS.e1range j hjmem
  have hjb := hS.bval j hjN
  have hjbu := hbu'ge j hjN
  have hgj : ∃ j2, j2 < s.N ∧ s.e1.contains j2 = true
      ∧ s.g = s.c.getD j2 0 - s.b.getD j2 0 := by
    rcases g_spec hS with ⟨he, -⟩ | ⟨hex, -⟩
    · rw [he] at hjmem; cases hjmem
    · exact hex
  obtain ⟨j2, hj2N, hj2c, hj2v⟩ := hgj
  have hmlt : pyMin (s.e1.map (fun i => s.c.getD i 0 - bu'.getD i 0 - 1)) < s.g := by
    have hmem2 : s.c.getD j2 0 - bu'.getD j2 0 - 1
        ∈ s.e1.map (fun i => s.c.getD i 0 - bu'.getD i 0 - 1) :=
      List.mem_map.mpr ⟨j2, contains_iff_mem.mp hj2c, rfl⟩
    have h1 := pyMin_le_of_mem hmem2
    have h2 := hbu'ge j2 hj2N
    omega
  refine ⟨le_max_left _ _, max_lt hB.gl_lt hmlt, ?_⟩
  rcases max_choice s.g_l (pyMin (s.e1.map (fun i => s.c.getD i 0 - bu'.getD i 0 - 1)))
    with hmax | hmax
  · rw [hmax]
    exact hB.gRl
  · rw [hmax]
    refine ⟨j, hjN, ?_⟩
    rw [← hjval, effB_of_cond (Or.inl (contains_iff_mem.mpr hjmem)) (by omega)]
    omega

/-- Facts about `h_l := max(h_l, min(b_l'_i for i in e0))`. -/
theorem hl_max_facts {s : Hop} (hS : s.SInv) (hB : s.BInv) (he0ne : s.e0 ≠ [])
    {bl' : List Int}
    (hbl'lt : ∀ i < s.N, -1 ≤ bl'.getD i 0 ∧ bl'.getD i 0 < s.b.getD i 0) :
    s.h_l ≤ max s.h_l (pyMin (s.e0.map (fun i => bl'.getD i 0)))
    ∧ max s.h_l (pyMin (s.e0.map (fun i => bl'.getD i 0))) < s.h
    ∧ ∃ i, i < s.N ∧ effB s.c s.e0 s.N
        (max s.h_l (pyMin (s.e0.map (fun i => bl'.getD i 0)))) i < s.b.getD i 0 := by
  have hmapne : s.e0.map (fun i => bl'.getD i 0) ≠ [] := by
    intro hcon
    rw [List.map_eq_nil_iff] at hcon
    exact he0ne hcon
  obtain ⟨j, hjmem, hjval⟩ := List.mem_map.mp (pyMin_mem hmapne)
  have hjN : j < s.N := hS.e0range j hjmem
  have hjb := hS.bval j hjN
  have hjbl := hbl'lt j hjN
  have hhj : ∃ j2, j2 < s.N ∧ s.e0.contains j2 = true ∧ s.h = s.b.getD j2 0 := by
    rcases h_spec hS with ⟨he, -⟩ | ⟨hex, -⟩
    · rw [he] at hjmem; cases hjmem
    · exact hex
  obtain ⟨j2, hj2N, hj2c, hj2v⟩ := hhj
  have hmlt : pyMin (s.e0.map (fun i => bl'.getD i 0)) < s.h := by
    have hmem2 : bl'.getD j2 0 ∈ s.e0.map (fun i => bl'.getD i 0) :=
      List.mem_map.mpr ⟨j2, contains_iff_mem.mp hj2c, rfl⟩
    have h1 := pyMin_le_of_mem hmem2
    have h2 := (hbl'lt j2 hj2N).2
    omega
  refine ⟨le_max_left _ _, max_lt hB.hl_lt hmlt, ?_⟩
  rcases max_choice s.h_l (pyMin (s.e0.map (fun i => bl'.getD i 0))) with hmax | hmax
  · rw [hmax]
    exact hB.hRl
  · rw [hmax]
    refine ⟨j, hjN, ?_⟩
    rw [← hjval, effB_of_cond (Or.inl (contains_iff_mem.mpr hjmem)) (by omega)]
    omega


/-- Facts about the multi-channel `b_u` cap applied on a failed dir0 probe. -/
theorem bu_upd_all_facts {s : Hop} (hS : s.SInv) (hB : s.BInv) {a : Int}
    (hfa : ∀ i < s.N, s.e0.contains i = true → s.b.getD i 0 < a) :
    (updWhere (fun i => s.e0.contains i) (fun _ x => min x (a - 1)) 0 s.b_u).length
      = s.b_u.length
    ∧ (∀ i < s.N,
        (updWhere (fun i => s.e0.contains i) (fun _ x => min x (a - 1)) 0 s.b_u).getD i 0
          ≤ s.b_u.getD i 0)
    ∧ (∀ i < s.N, s.b.getD i 0
        ≤ (updWhere (fun i => s.e0.contains i) (fun _ x => min x (a - 1)) 0 s.b_u).getD i 0) := by
  have hget : ∀ i < s.N,
      (updWhere (fun i => s.e0.contains i) (fun _ x => min x (a - 1)) 0 s.b_u).getD i 0
        = if s.e0.contains i = true then min (s.b_u.getD i 0) (a - 1) else s.b_u.getD i 0 := by
    intro i hi
    rw [updWhere_getD0 _ _ _ i (by rw [hS.bulen]; exact hi)]
  refine ⟨updWhere_length _ _ _ _, ?_, ?_⟩
  · intro i hi
    rw [hget i hi]
    by_cases hc : s.e0.contains i = true
    · rw [if_pos hc]; exact min_le_left _ _
    · rw [if_neg hc]
  · intro i hi
    rw [hget i hi]
    have hold := hB.bu_ge i hi
    by_cases hc : s.e0.contains i = true
    · rw [if_pos hc]
      have := hfa i hi hc
      exact le_min hold.1 (by omega)
    · rw [if_neg hc]
      exact hold.1

/-- Facts about the multi-channel `b_l` bump applied on a failed dir1 probe. -/
theorem bl_upd_all_facts {s : Hop} (hS : s.SInv) (hB : s.BInv) {a : Int}
    (hfa : ∀ i < s.N, s.e1.contains i = true → s.c.getD i 0 - s.b.getD i 0 < a) :
    (updWhere (fun i => s.e1.contains i)
        (fun i x => max x (s.c.getD i 0 - (a - 1) - 1)) 0 s.b_l).length = s.b_l.length
    ∧ (∀ i < s.N, s.b_l.getD i 0
        ≤ (updWhere (fun i => s.e1.contains i)
            (fun i x => max x (s.c.getD i 0 - (a - 1) - 1)) 0 s.b_l).getD i 0)
    ∧ (∀ i < s.N, -1 ≤ (updWhere (fun i => s.e1.contains i)
            (fun i x => max x (s.c.getD i 0 - (a - 1) - 1)) 0 s.b_l).getD i 0
        ∧ (updWhere (fun i => s.e1.contains i)
            (fun i x => max x (s.c.getD i 0 - (a - 1) - 1)) 0 s.b_l).getD i 0
          < s.b.getD i 0) := by
  have hget : ∀ i < s.N,
      (updWhere (fun i => s.e1.contains i)
          (fun i x => max x (s.c.getD i 0 - (a - 1) - 1)) 0 s.b_l).getD i 0
        = if s.e1.contains i = true
            then max (s.b_l.getD i 0) (s.c.getD i 0 - (a - 1) - 1)
            else s.b_l.getD i 0 := by
    intro i hi
    rw [updWhere_getD0 _ _ _ i (by rw [hS.bllen]; exact hi)]
  refine ⟨updWhere_length _ _ _ _, ?_, ?_⟩
  · intro i hi
    rw [hget i hi]
    by_cases hc : s.e1.contains i = true
    · rw [if_pos hc]; exact le_max_left _ _
    · rw [if_neg hc]
  · intro i hi
    rw [hget i hi]
    have hold := hB.bl_lt i hi
    by_cases hc : s.e1.contains i = true
    · rw [if_pos hc]
      have := hfa i hi hc
      constructor
      · have := le_max_left (s.b_l.getD i 0) (s.c.getD i 0 - (a - 1) - 1)
        omega
      · exact max_lt hold.2 (by omega)
    · rw [if_neg hc]
      exact hold

/-- `update_bounds` (dir0): a probe in direction 0 whose outcome reflects
the true balances preserves both invariants and only tightens the
estimates. -/
theorem boundsUpdate_dir0_ok {s : Hop} {a : Int} {passed : Bool}
    (hS : s.SInv) (hB : s.BInv)
    (havailne : s.availChannels dir0 ≠ [])
    (hpass : passed = true → ∃ k ∈ s.availChannels dir0, a ≤ s.b.getD k 0)
    (hfail : passed = false → ∀ k ∈ s.availChannels dir0, s.b.getD k 0 < a)
    (hjam : (!s.j0.isEmpty || !s.j1.isEmpty) = true →
      ∃ k, s.availChannels dir0 = [k]) :
    (s.boundsUpdate dir0 a passed).SInv ∧ (s.boundsUpdate dir0 a passed).BInv
    ∧ (s.boundsUpdate dir0 a passed).tighter s := by
  cases passed with
  | true =>
    obtain ⟨k, hkav, hka⟩ := hpass rfl
    cases hjamb : (!s.j0.isEmpty || !s.j1.isEmpty) with
    | true =>
      obtain ⟨k0, hk0⟩ := hjam hjamb
      have hkk0 : k = k0 := by
        rw [hk0] at hkav
        simpa using hkav
      have hhead : (s.availChannels dir0).headD 0 = k := by
        rw [hk0, hkk0]
        rfl
      unfold Hop.boundsUpdate
      simp only [hjamb, Bool.not_true, Bool.and_false, if_true, if_false,
        Bool.false_eq_true, reduceIte]
      rw [hhead]
      exact jam_bl_core hS hB (by omega : a - 1 < s.b.getD k 0)
    | false =>
      have hj0 : s.j0 = [] := by
        cases hj : s.j0 with
        | nil => rfl
        | cons x t => rw [hj] at hjamb; simp at hjamb
      have havail : s.availChannels dir0 = s.e0 :=
        avail_eq_e_of_nojam (d := dir0) hj0
      have hke0 : k ∈ s.e0 := by rw [← havail]; exact hkav
      cases hsu : (decide (s.h_l < a) && decide (a ≤ s.h_u)) with
      | false =>
        unfold Hop.boundsUpdate
        simp only [hjamb, hsu, Bool.not_false, Bool.and_true, Bool.false_and,
          if_true, if_false, Bool.false_eq_true, reduceIte]
        exact ⟨hS, hB, tighter_refl s⟩
      | true =>
        have hsu' : s.h_l < a ∧ a ≤ s.h_u := by
          have h2 := hsu
          rw [Bool.and_eq_true] at h2
          exact ⟨of_decide_eq_true h2.1, of_decide_eq_true h2.2⟩
        by_cases hlen1 : s.e0.length = 1
        · obtain ⟨k0, he0eq⟩ := List.length_eq_one.mp hlen1
          have hkk0 : k = k0 := by
            rw [he0eq] at hke0
            simpa using hke0
          have hhd : s.e0.headD 0 = k := by rw [he0eq, hkk0]; rfl
          obtain ⟨hbl'len, hbl'low, hbl'lt⟩ :=
            bl_upd_facts hS hB (k := k) (v := a - 1) (by omega)
          cases he1b : s.e1.isEmpty with
          | true =>
            unfold Hop.boundsUpdate
            simp only [hjamb, hsu, he1b, hlen1, Bool.not_false, Bool.and_true,
              Bool.true_and, Bool.not_true, if_true, if_false, Bool.false_eq_true,
              reduceIte]
            rw [hhd]
            exact dir0_pass_core hS hB hsu' hke0 hka hbl'len hbl'low hbl'lt
              (le_refl s.g_u) hB.g_le hB.gRu
          | false =>
            have he1ne : s.e1 ≠ [] := by
              intro hcon
              rw [hcon] at he1b
              simp at he1b
            obtain ⟨hgu'le, hgu'ge, hgu'Ru⟩ := gu_min_facts hS hB he1ne hbl'lt
            unfold Hop.boundsUpdate
            simp only [hjamb, hsu, he1b, hlen1, Bool.not_false, Bool.and_true,
              Bool.true_and, Bool.not_true, if_true, if_false, Bool.false_eq_true,
              reduceIte]
            rw [hhd]
            exact dir0_pass_core hS hB hsu' hke0 hka hbl'len hbl'low hbl'lt
              hgu'le hgu'ge hgu'Ru
        · cases he1b : s.e1.isEmpty with
          | true =>
            unfold Hop.boundsUpdate
            simp only [hjamb, hsu, he1b, if_neg hlen1, Bool.not_false,
              Bool.and_true, Bool.true_and, Bool.not_true, if_true, if_false,
              Bool.false_eq_true, reduceIte]
            exact dir0_pass_core hS hB hsu' hke0 hka rfl
              (fun i _ => le_refl _) hB.bl_lt (le_refl s.g_u) hB.g_le hB.gRu
          | false =>
            have he1ne : s.e1 ≠ [] := by
              intro hcon
              rw [hcon] at he1b
              simp at he1b
            obtain ⟨hgu'le, hgu'ge, hgu'Ru⟩ :=
              gu_min_facts hS hB he1ne hB.bl_lt
            unfold Hop.boundsUpdate
            simp only [hjamb, hsu, he1b, if_neg hlen1, Bool.not_false,
              Bool.and_true, Bool.true_and, Bool.not_true, if_true, if_false,
              Bool.false_eq_true, reduceIte]
            exact dir0_pass_core hS hB hsu' hke0 hka rfl
              (fun i _ => le_refl _) hB.bl_lt hgu'le hgu'ge hgu'Ru
  | false =>
    have hfa' : ∀ k ∈ s.availChannels dir0, s.b.getD k 0 < a := hfail rfl
    cases hjamb : (!s.j0.isEmpty || !s.j1.isEmpty) with
    | true =>
      obtain ⟨k0, hk0⟩ := hjam hjamb
      have hk0av : k0 ∈ s.availChannels dir0 := by
        rw [hk0]
        exact List.mem_cons_self _ _
      have hhead : (s.availChannels dir0).headD 0 = k0 := by
        rw [hk0]
        rfl
      unfold Hop.boundsUpdate
      simp only [hjamb, Bool.not_true, Bool.and_false, if_true, if_false,
        Bool.false_eq_true, reduceIte]
      rw [hhead]
      exact jam_bu_core hS hB
        (by have := hfa' k0 hk0av; omega : s.b.getD k0 0 ≤ a - 1)
    | false =>
      have hj0 : s.j0 = [] := by
        cases hj : s.j0 with
        | nil => rfl
        | cons x t => rw [hj] at hjamb; simp at hjamb
      have havail : s.availChannels dir0 = s.e0 :=
        avail_eq_e_of_nojam (d := dir0) hj0
      have he0ne : s.e0 ≠ [] := by rw [← havail]; exact havailne
      have hfa : ∀ i < s.N, s.e0.contains i = true → s.b.getD i 0 < a := by
        intro i _ hc
        exact hfa' i (by rw [havail]; exact contains_iff_mem.mp hc)
      have ha1 : 1 ≤ a := by
        by_contra hcon
        obtain ⟨k0, hk0⟩ := List.exists_mem_of_ne_nil s.e0 he0ne
        have hv := hS.bval k0 (hS.e0range k0 hk0)
        have hf := hfa k0 (hS.e0range k0 hk0) (contains_iff_mem.mpr hk0)
        omega
      cases hsu : (decide (s.h_l < a) && decide (a ≤ s.h_u)) with
      | false =>
        unfold Hop.boundsUpdate
        simp only [hjamb, hsu, Bool.not_false, Bool.and_true, Bool.false_and,
          if_true, if_false, Bool.false_eq_true, reduceIte]
        exact ⟨hS, hB, tighter_refl s⟩
      | true =>
        have hsu' : s.h_l < a ∧ a ≤ s.h_u := by
          have h2 := hsu
          rw [Bool.and_eq_true] at h2
          exact ⟨of_decide_eq_true h2.1, of_decide_eq_true h2.2⟩
        obtain ⟨hbu'len, hbu'hi, hbu'ge⟩ := bu_upd_all_facts hS hB hfa
        cases he1b : s.e1.isEmpty with
        | true =>
          unfold Hop.boundsUpdate
          simp only [hjamb, hsu, he1b, Bool.not_false, Bool.and_true,
            Bool.true_and, Bool.not_true, if_true, if_false, Bool.false_eq_true,
            reduceIte]
          exact dir0_fail_core hS hB hsu' he0ne hfa ha1 hbu'len hbu'hi hbu'ge
            (le_refl s.g_l) hB.gl_lt hB.gRl
        | false =>
          have he1ne : s.e1 ≠ [] := by
            intro hcon
            rw [hcon] at he1b
            simp at he1b
          obtain ⟨hgl'ge, hgl'lt, hgl'Rl⟩ := gl_max_facts hS hB he1ne hbu'ge
          unfold Hop.boundsUpdate
          simp only [hjamb, hsu, he1b, Bool.not_false, Bool.and_true,
            Bool.true_and, Bool.not_true, if_true, if_false, Bool.false_eq_true,
            reduceIte]
          exact dir0_fail_core hS hB hsu' he0ne hfa ha1 hbu'len hbu'hi hbu'ge
            hgl'ge hgl'lt hgl'Rl

/-- `update_bounds` (dir1): a probe in direction 1 whose outcome reflects
the true balances preserves both invariants and only tightens the
estimates. -/
theorem boundsUpdate_dir1_ok {s : Hop} {a : Int} {passed : Bool}
    (hS : s.SInv) (hB : s.BInv)
    (havailne : s.availChannels dir1 ≠ [])
    (hpass : passed = true → ∃ k ∈ s.availChannels dir1,
      a ≤ s.c.getD k 0 - s.b.getD k 0)
    (hfail : passed = false → ∀ k ∈ s.availChannels dir1,
      s.c.getD k 0 - s.b.getD k 0 < a)
    (hjam : (!s.j0.isEmpty || !s.j1.isEmpty) = true →
      ∃ k, s.availChannels dir1 = [k]) :
    (s.boundsUpdate dir1 a passed).SInv ∧ (s.boundsUpdate dir1 a passed).BInv
    ∧ (s.boundsUpdate dir1 a passed).tighter s := by
  cases passed with
  | true =>
    obtain ⟨k, hkav, hka⟩ := hpass rfl
    have hkN : k < s.N := avail_lt_N hS hkav
    have hbk := hS.bval k hkN
    cases hjamb : (!s.j0.isEmpty || !s.j1.isEmpty) with
    | true =>
      obtain ⟨k0, hk0⟩ := hjam hjamb
      have hkk0 : k = k0 := by
        rw [hk0] at hkav
        simpa using hkav
      have hhead : (s.availChannels dir1).headD 0 = k := by
        rw [hk0, hkk0]
        rfl
      unfold Hop.boundsUpdate
      simp only [hjamb, Bool.not_true, Bool.and_false, if_true, if_false,
        Bool.false_eq_true, reduceIte]
      rw [hhead]
      exact jam_bu_core hS hB (by omega : s.b.getD k 0 ≤ s.c.getD k 0 - a)
    | false =>
      have hj1 : s.j1 = [] := by
        cases hj : s.j1 with
        | nil => rfl
        | cons x t => rw [hj] at hjamb; simp at hjamb
      have havail : s.availChannels dir1 = s.e1 :=
        avail_eq_e_of_nojam (d := dir1) hj1
      have hke1 : k ∈ s.e1 := by rw [← havail]; exact hkav
      cases hsu : (decide (s.g_l < a) && decide (a ≤ s.g_u)) with
      | false =>
        unfold Hop.boundsUpdate
        simp only [hjamb, hsu, Bool.not_false, Bool.and_true, Bool.false_and,
          if_true, if_false, Bool.false_eq_true, reduceIte]
        exact ⟨hS, hB, tighter_refl s⟩
      | true =>
        have hsu' : s.g_l < a ∧ a ≤ s.g_u := by
          have h2 := hsu
          rw [Bool.and_eq_true] at h2
          exact ⟨of_decide_eq_true h2.1, of_decide_eq_true h2.2⟩
        by_cases hlen1 : s.e1.length = 1
        · obtain ⟨k0, he1eq⟩ := List.length_eq_one.mp hlen1
          have hkk0 : k = k0 := by
            rw [he1eq] at hke1
            simpa using hke1
          have hhd : s.e1.headD 0 = k := by rw [he1eq, hkk0]; rfl
          obtain ⟨hbu'len, hbu'hi, hbu'ge⟩ :=
            bu_upd_facts hS hB (k := k) (v := s.c.getD k 0 - (a - 1) - 1)
              (by omega)
          cases he0b : s.e0.isEmpty with
          | true =>
            unfold Hop.boundsUpdate
            simp only [hjamb, hsu, he0b, hlen1, Bool.not_false, Bool.and_true,
              Bool.true_and, Bool.not_true, if_true, if_false, Bool.false_eq_true,
              reduceIte]
            rw [hhd]
            exact dir1_pass_core hS hB hsu' hke1 hka hbu'len hbu'hi hbu'ge
              (le_refl s.h_u) hB.h_le hB.hRu
          | false =>
            have he0ne : s.e0 ≠ [] := by
              intro hcon
              rw [hcon] at he0b
              simp at he0b
            obtain ⟨hhu'le, hhu'ge, hhu'Ru⟩ := hu_min_facts hS hB he0ne hbu'ge
            unfold Hop.boundsUpdate
            simp only [hjamb, hsu, he0b, hlen1, Bool.not_false, Bool.and_true,
              Bool.true_and, Bool.not_true, if_true, if_false, Bool.false_eq_true,
              reduceIte]
            rw [hhd]
            exact dir1_pass_core hS hB hsu' hke1 hka hbu'len hbu'hi hbu'ge
              hhu'le hhu'ge hhu'Ru
        · cases he0b : s.e0.isEmpty with
          | true =>
            unfold Hop.boundsUpdate
            simp only [hjamb, hsu, he0b, if_neg hlen1, Bool.not_false,
              Bool.and_true, Bool.true_and, Bool.not_true, if_true, if_false,
              Bool.false_eq_true, reduceIte]
            exact dir1_pass_core hS hB hsu' hke1 hka rfl
              (fun i _ => le_refl _) (fun i hi => (hB.bu_ge i hi).1)
              (le_refl s.h_u) hB.h_le hB.hRu
          | false =>
            have he0ne : s.e0 ≠ [] := by
              intro hcon
              rw [hcon] at he0b
              simp at he0b
            obtain ⟨hhu'le, hhu'ge, hhu'Ru⟩ :=
              hu_min_facts hS hB he0ne
                (fun i hi => (hB.bu_ge i hi).1)
            unfold Hop.boundsUpdate
            simp only [hjamb, hsu, he0b, if_neg hlen1, Bool.not_false,
              Bool.and_true, Bool.true_and, Bool.not_true, if_true, if_false,
              Bool.false_eq_true, reduceIte]
            exact dir1_pass_core hS hB hsu' hke1 hka rfl
              (fun i _ => le_refl _) (fun i hi => (hB.bu_ge i hi).1)
              hhu'le hhu'ge hhu'Ru
  | false =>
    have hfa' : ∀ k ∈ s.availChannels dir1, s.c.getD k 0 - s.b.getD k 0 < a :=
      hfail rfl
    cases hjamb : (!s.j0.isEmpty || !s.j1.isEmpty) with
    | true =>
      obtain ⟨k0, hk0⟩ := hjam hjamb
      have hk0av : k0 ∈ s.availChannels dir1 := by
        rw [hk0]
        exact List.mem_cons_self _ _
      have hhead : (s.availChannels dir1).headD 0 = k0 := by
        rw [hk0]
        rfl
      unfold Hop.boundsUpdate
      simp only [hjamb, Bool.not_true, Bool.and_false, if_true, if_false,
        Bool.false_eq_true, reduceIte]
      rw [hhead]
      exact jam_bl_core hS hB
        (by have := hfa' k0 hk0av; omega : s.c.getD k0 0 - a < s.b.getD k0 0)
    | false =>
      have hj1 : s.j1 = [] := by
        cases hj : s.j1 with
        | nil => rfl
        | cons x t => rw [hj] at hjamb; simp at hjamb
      have havail : s.availChannels dir1 = s.e1 :=
        avail_eq_e_of_nojam (d := dir1) hj1
      have he1ne : s.e1 ≠ [] := by rw [← havail]; exact havailne
      have hfa : ∀ i < s.N, s.e1.contains i = true
          → s.c.getD i 0 - s.b.getD i 0 < a := by
        intro i _ hc
        exact hfa' i (by rw [havail]; exact contains_iff_mem.mp hc)
      have ha1 : 1 ≤ a := by
        by_contra hcon
        obtain ⟨k1, hk1⟩ := List.exists_mem_of_ne_nil s.e1 he1ne
        have hv := hS.bval k1 (hS.e1range k1 hk1)
        have hf := hfa k1 (hS.e1range k1 hk1) (contains_iff_mem.mpr hk1)
        omega
      cases hsu : (decide (s.g_l < a) && decide (a ≤ s.g_u)) with
      | false =>
        unfold Hop.boundsUpdate
        simp only [hjamb, hsu, Bool.not_false, Bool.and_true, Bool.false_and,
          if_true, if_false, Bool.false_eq_true, reduceIte]
        exact ⟨hS, hB, tighter_refl s⟩
      | true =>
        have hsu' : s.g_l < a ∧ a ≤ s.g_u := by
          have h2 := hsu
          rw [Bool.and_eq_true] at h2
          exact ⟨of_decide_eq_true h2.1, of_decide_eq_true h2.2⟩
        obtain ⟨hbl'len, hbl'low, hbl'lt⟩ := bl_upd_all_facts hS hB hfa
        cases he0b : s.e0.isEmpty with
        | true =>
          unfold Hop.boundsUpdate
          simp only [hjamb, hsu, he0b, Bool.not_false, Bool.and_true,
            Bool.true_and, Bool.not_true, if_true, if_false, Bool.false_eq_true,
            reduceIte]
          exact dir1_fail_core hS hB hsu' he1ne hfa ha1 hbl'len hbl'low hbl'lt
            (le_refl s.h_l) hB.hl_lt hB.hRl
        | false =>
          have he0ne : s.e0 ≠ [] := by
            intro hcon
            rw [hcon] at he0b
            simp at he0b
          obtain ⟨hhl'ge, hhl'lt, hhl'Rl⟩ := hl_max_facts hS hB he0ne hbl'lt
          unfold Hop.boundsUpdate
          simp only [hjamb, hsu, he0b, Bool.not_false, Bool.and_true,
            Bool.true_and, Bool.not_true, if_true, if_false, Bool.false_eq_true,
            reduceIte]
          exact dir1_fail_core hS hB hsu' he1ne hfa ha1 hbl'len hbl'low hbl'lt
            hhl'ge hhl'lt hhl'Rl


/-- Every point returned by the corner-collection loop of
`get_corner_points` comes from the candidate list and lies outside both
test rectangles. -/
theorem mem_collectCorners {Rul Rlu : Rectangle} {ps : List (List Int)}
    {left : Int} {p : List Int} (hp : p ∈ collectCorners Rul Rlu ps left) :
    p ∈ ps ∧ Rul.containsPoint p = false ∧ Rlu.containsPoint p = false := by
  induction ps generalizing left with
  | nil => cases hp
  | cons q ps ih =>
    simp only [collectCorners] at hp
    by_cases hq : (!(Rul.containsPoint q) && !(Rlu.containsPoint q)) = true
    · rw [if_pos hq] at hp
      obtain ⟨h1, h2⟩ := Bool.and_eq_true_iff.mp hq
      by_cases hleft : left - 1 = 0
      · rw [if_pos hleft] at hp
        have hpq : p = q := by simpa using hp
        subst hpq
        exact ⟨List.mem_cons_self _ _, by simpa using h1, by simpa using h2⟩
      · rw [if_neg hleft] at hp
        rcases List.mem_cons.mp hp with rfl | hmem
        · exact ⟨List.mem_cons_self _ _, by simpa using h1, by simpa using h2⟩
        · obtain ⟨ha, hb, hc⟩ := ih hmem
          exact ⟨List.mem_cons_of_mem _ ha, hb, hc⟩
    · rw [if_neg hq] at hp
      by_cases hleft : left = 0
      · rw [if_pos hleft] at hp; cases hp
      · rw [if_neg hleft] at hp
        obtain ⟨ha, hb, hc⟩ := ih hp
        exact ⟨List.mem_cons_of_mem _ ha, hb, hc⟩

/-- Every corner produced by `itertools.product` over the two-element
ranges lies in the box. -/
theorem mem_corners {l u p : List Int} (hf : List.Forall₂ (· ≤ ·) l u)
    (hp : p ∈ corners l u) : p ∈ boxPts l u := by
  induction hf generalizing p with
  | nil =>
    simp only [corners] at hp
    have hpn : p = [] := by simpa using hp
    subst hpn
    simp [boxPts]
  | @cons a b l' u' hab htail ih =>
    simp only [corners] at hp
    rw [mem_boxPts]
    rcases List.mem_append.mp hp with hmem | hmem
    · obtain ⟨q, hq, rfl⟩ := List.mem_map.mp hmem
      obtain ⟨h1, h2⟩ := mem_boxPts.mp (ih hq)
      exact ⟨List.Forall₂.cons (le_refl a) h1, List.Forall₂.cons hab h2⟩
    · obtain ⟨q, hq, rfl⟩ := List.mem_map.mp hmem
      obtain ⟨h1, h2⟩ := mem_boxPts.mp (ih hq)
      exact ⟨List.Forall₂.cons hab h1, List.Forall₂.cons (le_refl b) h2⟩

/-- Every point returned by `get_corner_points` lies in the admissible
region `F`. -/
theorem mem_cornerPoints_F {s : Hop} (hS : s.SInv) {p : List Int}
    (hp : p ∈ s.cornerPoints) : p ∈ s.F := by
  have hN := hS.Npos
  have wRb : s.R_b.WF s.N := R_b_WF s hS.bllen hS.bulen
  have wuu : ((s.R_h_u.intersectWith s.R_g_u).intersectWith s.R_b).WF s.N :=
    intersectWith_WF (intersectWith_WF (R_h_u_WF s) (R_g_u_WF s)) wRb
  have wul : ((s.R_h_u.intersectWith s.R_g_l).intersectWith s.R_b).WF s.N :=
    intersectWith_WF (intersectWith_WF (R_h_u_WF s) (R_g_l_WF s)) wRb
  have wlu : ((s.R_h_l.intersectWith s.R_g_u).intersectWith s.R_b).WF s.N :=
    intersectWith_WF (intersectWith_WF (R_h_l_WF s) (R_g_u_WF s)) wRb
  have puu : ((s.R_h_u.intersectWith s.R_g_u).intersectWith s.R_b).pts
      = (s.R_h_u.pts ∩ s.R_g_u.pts) ∩ s.R_b.pts := by
    rw [pts_intersectWith hN (intersectWith_WF (R_h_u_WF s) (R_g_u_WF s)) wRb,
      pts_intersectWith hN (R_h_u_WF s) (R_g_u_WF s)]
  have pul : ((s.R_h_u.intersectWith s.R_g_l).intersectWith s.R_b).pts
      = (s.R_h_u.pts ∩ s.R_g_l.pts) ∩ s.R_b.pts := by
    rw [pts_intersectWith hN (intersectWith_WF (R_h_u_WF s) (R_g_l_WF s)) wRb,
      pts_intersectWith hN (R_h_u_WF s) (R_g_l_WF s)]
  have plu : ((s.R_h_l.intersectWith s.R_g_u).intersectWith s.R_b).pts
      = (s.R_h_l.pts ∩ s.R_g_u.pts) ∩ s.R_b.pts := by
    rw [pts_intersectWith hN (intersectWith_WF (R_h_l_WF s) (R_g_u_WF s)) wRb,
      pts_intersectWith hN (R_h_l_WF s) (R_g_u_WF s)]
  have hDef : s.cornerPoints
      = (match (s.R_h_u.intersectWith s.R_g_u).intersectWith s.R_b with
        | .empty => []
        | .box l u => collectCorners
            ((s.R_h_u.intersectWith s.R_g_l).intersectWith s.R_b)
            ((s.R_h_l.intersectWith s.R_g_u).intersectWith s.R_b)
            (corners l u) s.S_F) := rfl
  rw [hDef] at hp
  cases hE : (s.R_h_u.intersectWith s.R_g_u).intersectWith s.R_b with
  | empty =>
    rw [hE] at hp
    cases hp
  | box l u =>
    rw [hE] at hp
    have hp2 : p ∈ collectCorners
        ((s.R_h_u.intersectWith s.R_g_l).intersectWith s.R_b)
        ((s.R_h_l.intersectWith s.R_g_u).intersectWith s.R_b)
        (corners l u) s.S_F := hp
    obtain ⟨hpc, hful, hflu⟩ := mem_collectCorners hp2
    rw [hE] at wuu
    obtain ⟨hl, hu, hlf⟩ := wuu
    have hpA : p ∈ (s.R_h_u.pts ∩ s.R_g_u.pts) ∩ s.R_b.pts := by
      rw [← puu, hE]
      show p ∈ boxPts l u
      exact mem_corners hlf hpc
    have hplen : p.length = s.N := by
      have hpA' := hpA
      rw [← puu, hE] at hpA'
      have hpA2 : p ∈ boxPts l u := hpA'
      obtain ⟨h1, -, -⟩ := mem_boxPts_getD.mp hpA2
      omega
    obtain ⟨hpu, hpb⟩ := Finset.mem_inter.mp hpA
    obtain ⟨hph, hpg⟩ := Finset.mem_inter.mp hpu
    refine Finset.mem_sdiff.mpr ⟨hpA, ?_⟩
    rw [Finset.mem_union]
    rintro (hc | hc)
    · have hmem : p ∈ ((s.R_h_l.intersectWith s.R_g_u).intersectWith s.R_b).pts := by
        rw [plu]
        exact Finset.mem_inter.mpr ⟨Finset.mem_inter.mpr ⟨hc, hpg⟩, hpb⟩
      have hcp := (containsPoint_iff_mem_pts wlu hplen).mpr hmem
      rw [hflu] at hcp
      cases hcp
    · have hmem : p ∈ ((s.R_h_u.intersectWith s.R_g_l).intersectWith s.R_b).pts := by
        rw [pul]
        exact Finset.mem_inter.mpr ⟨Finset.mem_inter.mpr ⟨hph, hc⟩, hpb⟩
      have hcp := (containsPoint_iff_mem_pts wul hplen).mpr hmem
      rw [hful] at hcp
      cases hcp

/-- When the uncertainty is zero, the admissible region has collapsed to
the true balance vector alone. -/
theorem F_eq_singleton_b {s : Hop} (hS : s.SInv) (hB : s.BInv)
    (hu : s.uncertaintyZero = true) : s.F = {s.b} := by
  have h1 : s.S_F ≤ 1 := by
    have h0 := of_decide_eq_true hu
    rwa [hS.gran] at h0
  have h2 := S_F_pos hS hB
  have hcard : s.F.card = 1 := by
    rw [S_F_eq_card_F hS hB] at h1 h2
    omega
  obtain ⟨x, hx⟩ := Finset.card_eq_one.mp hcard
  have hbx : s.b = x := by
    have hm := b_mem_F hS hB
    rw [hx] at hm
    simpa using hm
  rw [hx, hbx]

/-- Core invariant preservation for a simultaneous tightening of all six
estimate bounds (the shape of the corner-collapse update). -/
theorem collapse_core {s : Hop} (hS : s.SInv) (hB : s.BInv)
    {bl' bu' : List Int} {hl' hu' gl' gu' : Int}
    (hbl'len : bl'.length = s.b_l.length)
    (hbl'low : ∀ i < s.N, s.b_l.getD i 0 ≤ bl'.getD i 0)
    (hbl'lt : ∀ i < s.N, -1 ≤ bl'.getD i 0 ∧ bl'.getD i 0 < s.b.getD i 0)
    (hbu'len : bu'.length = s.b_u.length)
    (hbu'hi : ∀ i < s.N, bu'.getD i 0 ≤ s.b_u.getD i 0)
    (hbu'ge : ∀ i < s.N, s.b.getD i 0 ≤ bu'.getD i 0)
    (hhl'ge : s.h_l ≤ hl') (hhl'lt : hl' < s.h)
    (hhl'Rl : ∃ i, i < s.N ∧ effB s.c s.e0 s.N hl' i < s.b.getD i 0)
    (hhu'le : hu' ≤ s.h_u) (hhu'ge : s.h ≤ hu')
    (hhu'Ru : ∀ i < s.N, s.b.getD i 0 ≤ effB s.c s.e0 s.N hu' i)
    (hgl'ge : s.g_l ≤ gl') (hgl'lt : gl' < s.g)
    (hgl'Rl : ∃ i, i < s.N ∧ effB s.c s.e1 s.N gl' i < s.c.getD i 0 - s.b.getD i 0)
    (hgu'le : gu' ≤ s.g_u) (hgu'ge : s.g ≤ gu')
    (hgu'Ru : ∀ i < s.N, s.c.getD i 0 - s.b.getD i 0 ≤ effB s.c s.e1 s.N gu' i) :
    ({ s with b_l := bl', b_u := bu', h_l := hl', h_u := hu', g_l := gl', g_u := gu' }).SInv
    ∧ ({ s with b_l := bl', b_u := bu', h_l := hl', h_u := hu', g_l := gl', g_u := gu' }).BInv
    ∧ ({ s with b_l := bl', b_u := bu', h_l := hl', h_u := hu', g_l := gl', g_u := gu' }).tighter s := by
  refine ⟨SInv_eqfields hS rfl rfl rfl rfl rfl rfl rfl hbl'len hbu'len, ?_, ?_⟩
  · exact ⟨hbl'lt,
      fun i hi => ⟨hbu'ge i hi, le_trans (hbu'hi i hi) (hB.bu_ge i hi).2⟩,
      le_trans hB.hl_lb hhl'ge, hhl'lt, hhu'ge, le_trans hhu'le hB.hu_ub,
      le_trans hB.gl_lb hgl'ge, hgl'lt, hgu'ge, le_trans hgu'le hB.gu_ub,
      hhu'Ru, hhl'Rl, hgu'Ru, hgl'Rl⟩
  · exact ⟨rfl, rfl, rfl, rfl, hbl'len, hbu'len, hhl'ge, hhu'le, hgl'ge,
      hgu'le, hbl'low, hbu'hi⟩

/-- Facts about the `b_l` pinning of the corner collapse at the true
balance vector. -/
theorem collapse_bl_facts (s : Hop) (hS : s.SInv) (hB : s.BInv) :
    (updWhere (fun i => s.worthProbingChannel i)
        (fun i _ => s.b.getD i 0 - 1) 0 s.b_l).length = s.b_l.length
    ∧ (∀ i < s.N, s.b_l.getD i 0
        ≤ (updWhere (fun i => s.worthProbingChannel i)
            (fun i _ => s.b.getD i 0 - 1) 0 s.b_l).getD i 0)
    ∧ (∀ i < s.N, -1 ≤ (updWhere (fun i => s.worthProbingChannel i)
            (fun i _ => s.b.getD i 0 - 1) 0 s.b_l).getD i 0
        ∧ (updWhere (fun i => s.worthProbingChannel i)
            (fun i _ => s.b.getD i 0 - 1) 0 s.b_l).getD i 0 < s.b.getD i 0) := by
  have hget : ∀ i < s.N,
      (updWhere (fun i => s.worthProbingChannel i)
          (fun i _ => s.b.getD i 0 - 1) 0 s.b_l).getD i 0
        = if s.worthProbingChannel i = true then s.b.getD i 0 - 1
          else s.b_l.getD i 0 := by
    intro i hi
    rw [updWhere_getD0 _ _ _ i (by rw [hS.bllen]; exact hi)]
  refine ⟨updWhere_length _ _ _ _, ?_, ?_⟩
  · intro i hi
    rw [hget i hi]
    by_cases hc : s.worthProbingChannel i = true
    · rw [if_pos hc]
      have := (hB.bl_lt i hi).2
      omega
    · rw [if_neg hc]
  · intro i hi
    rw [hget i hi]
    have hv := hS.bval i hi
    by_cases hc : s.worthProbingChannel i = true
    · rw [if_pos hc]
      omega
    · rw [if_neg hc]
      exact hB.bl_lt i hi

/-- Facts about the `b_u` pinning of the corner collapse at the true
balance vector. -/
theorem collapse_bu_facts (s : Hop) (hS : s.SInv) (hB : s.BInv) :
    (updWhere (fun i => s.worthProbingChannel i)
        (fun i _ => s.b.getD i 0) 0 s.b_u).length = s.b_u.length
    ∧ (∀ i < s.N, (updWhere (fun i => s.worthProbingChannel i)
          (fun i _ => s.b.getD i 0) 0 s.b_u).getD i 0 ≤ s.b_u.getD i 0)
    ∧ (∀ i < s.N, s.b.getD i 0
        ≤ (updWhere (fun i => s.worthProbingChannel i)
            (fun i _ => s.b.getD i 0) 0 s.b_u).getD i 0) := by
  have hget : ∀ i < s.N,
      (updWhere (fun i => s.worthProbingChannel i)
          (fun i _ => s.b.getD i 0) 0 s.b_u).getD i 0
        = if s.worthProbingChannel i = true then s.b.getD i 0
          else s.b_u.getD i 0 := by
    intro i hi
    rw [updWhere_getD0 _ _ _ i (by rw [hS.bulen]; exact hi)]
  refine ⟨updWhere_length _ _ _ _, ?_, ?_⟩
  · intro i hi
    rw [hget i hi]
    by_cases hc : s.worthProbingChannel i = true
    · rw [if_pos hc]
      exact (hB.bu_ge i hi).1
    · rw [if_neg hc]
  · intro i hi
    rw [hget i hi]
    by_cases hc : s.worthProbingChannel i = true
    · rw [if_pos hc]
    · rw [if_neg hc]
      exact (hB.bu_ge i hi).1

/-- Facts about the `h` bound pinning of the corner collapse at the true
balance vector. -/
theorem collapse_h_facts {s : Hop} (hS : s.SInv) (hB : s.BInv)
    (he0ne : s.e0 ≠ []) :
    s.h_l ≤ max s.h_l (pyMin (s.e0.map (fun i => s.b.getD i 0)) - 1)
    ∧ max s.h_l (pyMin (s.e0.map (fun i => s.b.getD i 0)) - 1) < s.h
    ∧ ∃ i, i < s.N ∧ effB s.c s.e0 s.N
        (max s.h_l (pyMin (s.e0.map (fun i => s.b.getD i 0)) - 1)) i
        < s.b.getD i 0 := by
  obtain ⟨k0, hk0⟩ := List.exists_mem_of_ne_nil s.e0 he0ne
  have hhj : ∃ j, j < s.N ∧ s.e0.contains j = true ∧ s.h = s.b.getD j 0 := by
    rcases h_spec hS with ⟨he, -⟩ | ⟨hex, -⟩
    · rw [he] at hk0; cases hk0
    · exact hex
  obtain ⟨j, hjN, hjc, hjv⟩ := hhj
  have hmle : pyMin (s.e0.map (fun i => s.b.getD i 0)) ≤ s.h := by
    rw [hjv]
    exact pyMin_le_of_mem (List.mem_map.mpr ⟨j, contains_iff_mem.mp hjc, rfl⟩)
  refine ⟨le_max_left _ _, max_lt hB.hl_lt (by omega), ?_⟩
  rcases max_choice s.h_l (pyMin (s.e0.map (fun i => s.b.getD i 0)) - 1)
    with hmax | hmax
  · rw [hmax]
    exact hB.hRl
  · rw [hmax]
    have hmapne : s.e0.map (fun i => s.b.getD i 0) ≠ [] := by
      intro hcon
      rw [List.map_eq_nil_iff] at hcon
      exact he0ne hcon
    obtain ⟨j2, hj2mem, hj2val⟩ := List.mem_map.mp (pyMin_mem hmapne)
    have hj2N : j2 < s.N := hS.e0range j2 hj2mem
    have hj2b := hS.bval j2 hj2N
    refine ⟨j2, hj2N, ?_⟩
    rw [effB_of_cond (Or.inl (contains_iff_mem.mpr hj2mem)) (by omega)]
    omega

/-- Facts about the `g` bound pinning of the corner collapse at the true
balance vector. -/
theorem collapse_g_facts {s : Hop} (hS : s.SInv) (hB : s.BInv)
    (he1ne : s.e1 ≠ []) :
    s.g_l ≤ max s.g_l
        (pyMin (s.e1.map (fun i => s.c.getD i 0 - s.b.getD i 0)) - 1)
    ∧ max s.g_l (pyMin (s.e1.map (fun i => s.c.getD i 0 - s.b.getD i 0)) - 1)
        < s.g
    ∧ (∃ i, i < s.N ∧ effB s.c s.e1 s.N
        (max s.g_l (pyMin (s.e1.map (fun i => s.c.getD i 0 - s.b.getD i 0)) - 1)) i
        < s.c.getD i 0 - s.b.getD i 0)
    ∧ min s.g_u (pyMax (s.e1.map (fun i => s.c.getD i 0 - s.b.getD i 0))) ≤ s.g_u
    ∧ s.g ≤ min s.g_u (pyMax (s.e1.map (fun i => s.c.getD i 0 - s.b.getD i 0)))
    ∧ ∀ i < s.N, s.c.getD i 0 - s.b.getD i 0
        ≤ effB s.c s.e1 s.N
            (min s.g_u (pyMax (s.e1.map (fun i => s.c.getD i 0 - s.b.getD i 0)))) i := by
  obtain ⟨k1, hk1⟩ := List.exists_mem_of_ne_nil s.e1 he1ne
  have hk1N : k1 < s.N := hS.e1range k1 hk1
  have hgj : ∃ j, j < s.N ∧ s.e1.contains j = true
      ∧ s.g = s.c.getD j 0 - s.b.getD j 0 := by
    rcases g_spec hS with ⟨he, -⟩ | ⟨hex, -⟩
    · rw [he] at hk1; cases hk1
    · exact hex
  obtain ⟨j, hjN, hjc, hjv⟩ := hgj
  have hmle : pyMin (s.e1.map (fun i => s.c.getD i 0 - s.b.getD i 0)) ≤ s.g := by
    rw [hjv]
    exact pyMin_le_of_mem (List.mem_map.mpr ⟨j, contains_iff_mem.mp hjc, rfl⟩)
  have hMge : s.g ≤ pyMax (s.e1.map (fun i => s.c.getD i 0 - s.b.getD i 0)) := by
    rw [hjv]
    exact le_pyMax_of_mem (List.mem_map.mpr ⟨j, contains_iff_mem.mp hjc, rfl⟩)
  have hg0 := g_nonneg hS
  have hge : s.g ≤ min s.g_u (pyMax (s.e1.map (fun i => s.c.getD i 0 - s.b.getD i 0))) :=
    le_min hB.g_le hMge
  refine ⟨le_max_left _ _, max_lt hB.gl_lt (by omega), ?_,
    min_le_left _ _, hge, ?_⟩
  · rcases max_choice s.g_l
        (pyMin (s.e1.map (fun i => s.c.getD i 0 - s.b.getD i 0)) - 1)
      with hmax | hmax
    · rw [hmax]
      exact hB.gRl
    · rw [hmax]
      have hmapne : s.e1.map (fun i => s.c.getD i 0 - s.b.getD i 0) ≠ [] := by
        intro hcon
        rw [List.map_eq_nil_iff] at hcon
        exact he1ne hcon
      obtain ⟨j2, hj2mem, hj2val⟩ := List.mem_map.mp (pyMin_mem hmapne)
      have hj2N : j2 < s.N := hS.e1range j2 hj2mem
      have hj2b := hS.bval j2 hj2N
      refine ⟨j2, hj2N, ?_⟩
      rw [effB_of_cond (Or.inl (contains_iff_mem.mpr hj2mem)) (by omega)]
      omega
  · intro i hi
    have hb := hS.bval i hi
    refine le_effB_of (by omega) ?_ ?_ ?_
    · intro hc
      refine le_min (gRu_enabled hS hB hi hc) ?_
      exact le_pyMax_of_mem (List.mem_map.mpr ⟨i, contains_iff_mem.mp hc, rfl⟩)
    · intro hN1 hcf
      have hk10 : k1 = 0 := by omega
      rw [hk10] at hk1
      have hc0 : s.e1.contains 0 = true := contains_iff_mem.mpr hk1
      have hi0 : i = 0 := by omega
      rw [hi0, hc0] at hcf
      cases hcf
    · intro hneg
      omega

/-- The corner collapse at zero uncertainty preserves both invariants and
only tightens the estimates. -/
theorem collapseStep_ok {s : Hop} (hS : s.SInv) (hB : s.BInv)
    (hu : s.uncertaintyZero = true) :
    s.collapseStep.SInv ∧ s.collapseStep.BInv ∧ s.collapseStep.tighter s := by
  unfold Hop.collapseStep
  cases hCP : s.cornerPoints with
  | nil => exact ⟨hS, hB, tighter_refl s⟩
  | cons p t =>
    cases t with
    | cons q t2 => exact ⟨hS, hB, tighter_refl s⟩
    | nil =>
      have hpF : p ∈ s.F := mem_cornerPoints_F hS (by
        rw [hCP]; exact List.mem_cons_self _ _)
      have hpb : p = s.b := by
        have hsing := F_eq_singleton_b hS hB hu
        rw [hsing] at hpF
        simpa using hpF
      subst hpb
      obtain ⟨hbl'len, hbl'low, hbl'lt⟩ := collapse_bl_facts s hS hB
      obtain ⟨hbu'len, hbu'hi, hbu'ge⟩ := collapse_bu_facts s hS hB
      cases he0b : s.e0.isEmpty with
      | true =>
        cases he1b : s.e1.isEmpty with
        | true =>
          simp only [he0b, he1b, Bool.not_true, if_true, if_false,
            Bool.false_eq_true, reduceIte]
          exact collapse_core hS hB hbl'len hbl'low hbl'lt hbu'len hbu'hi
            hbu'ge (le_refl s.h_l) hB.hl_lt hB.hRl (le_refl s.h_u) hB.h_le
            hB.hRu (le_refl s.g_l) hB.gl_lt hB.gRl (le_refl s.g_u) hB.g_le
            hB.gRu
        | false =>
          have he1ne : s.e1 ≠ [] := by
            intro hcon; rw [hcon] at he1b; simp at he1b
          obtain ⟨hgl'ge, hgl'lt, hgl'Rl, hgu'le, hgu'ge, hgu'Ru⟩ :=
            collapse_g_facts hS hB he1ne
          simp only [he0b, he1b, Bool.not_true, Bool.not_false, if_true,
            if_false, Bool.false_eq_true, reduceIte]
          exact collapse_core hS hB hbl'len hbl'low hbl'lt hbu'len hbu'hi
            hbu'ge (le_refl s.h_l) hB.hl_lt hB.hRl (le_refl s.h_u) hB.h_le
            hB.hRu hgl'ge hgl'lt hgl'Rl hgu'le hgu'ge hgu'Ru
      | false =>
        have he0ne : s.e0 ≠ [] := by
          intro hcon; rw [hcon] at he0b; simp at he0b
        obtain ⟨hhl'ge, hhl'lt, hhl'Rl⟩ := collapse_h_facts hS hB he0ne
        obtain ⟨hhu'le, hhu'ge, hhu'Ru⟩ :=
          hu_min_facts hS hB he0ne
            (show ∀ i, i < s.N → s.b.getD i 0 ≤ s.b.getD i 0 from
              fun i _ => le_refl _)
        cases he1b : s.e1.isEmpty with
        | true =>
          simp only [he0b, he1b, Bool.not_true, Bool.not_false, if_true,
            if_false, Bool.false_eq_true, reduceIte]
          exact collapse_core hS hB hbl'len hbl'low hbl'lt hbu'len hbu'hi
            hbu'ge hhl'ge hhl'lt hhl'Rl hhu'le hhu'ge hhu'Ru
            (le_refl s.g_l) hB.gl_lt hB.gRl (le_refl s.g_u) hB.g_le hB.gRu
        | false =>
          have he1ne : s.e1 ≠ [] := by
            intro hcon; rw [hcon] at he1b; simp at he1b
          obtain ⟨hgl'ge, hgl'lt, hgl'Rl, hgu'le, hgu'ge, hgu'Ru⟩ :=
            collapse_g_facts hS hB he1ne
          simp only [he0b, he1b, Bool.not_false, if_true, if_false,
            Bool.false_eq_true, reduceIte]
          exact collapse_core hS hB hbl'len hbl'low hbl'lt hbu'len hbu'hi
            hbu'ge hhl'ge hhl'lt hhl'Rl hhu'le hhu'ge hhu'Ru
            hgl'ge hgl'lt hgl'Rl hgu'le hgu'ge hgu'Ru


/-- `Hop.probe` preserves both invariants and only tightens the estimate
state. -/
theorem probe_Inv {s : Hop} {d : Bool} {a : Int} {r : Bool} {s' : Hop}
    (hS : s.SInv) (hB : s.BInv) (hpr : s.probe d a = some (r, s')) :
    s'.SInv ∧ s'.BInv ∧ s'.tighter s := by
  unfold Hop.probe at hpr
  simp only [] at hpr
  by_cases hguard : (!s.j0.isEmpty || !s.j1.isEmpty) = true
      ∧ 2 ≤ (s.availChannels d).length
  · rw [if_pos hguard] at hpr
    cases hpr
  · rw [if_neg hguard] at hpr
    cases hav : s.availChannels d with
    | nil =>
      rw [hav] at hpr
      cases hpr
    | cons k t =>
      rw [hav] at hpr
      simp only [] at hpr
      rw [Option.some.injEq, Prod.mk.injEq] at hpr
      obtain ⟨hr, hs'⟩ := hpr
      subst hr
      have hfold : foldlMax (s.bInDir d k) (t.map (s.bInDir d))
          = pyMax ((k :: t).map (s.bInDir d)) := rfl
      have havailne : s.availChannels d ≠ [] := by rw [hav]; simp
      have hjam : (!s.j0.isEmpty || !s.j1.isEmpty) = true
          → ∃ k0, s.availChannels d = [k0] := by
        intro hj
        have hlen : (s.availChannels d).length ≤ 1 := by
          by_contra hcon
          exact hguard ⟨hj, by omega⟩
        rw [hav] at hlen
        simp only [List.length_cons] at hlen
        have ht : t = [] := List.length_eq_zero.mp (by omega)
        exact ⟨k, by rw [hav, ht]⟩
      have hpass : decide (a ≤ foldlMax (s.bInDir d k) (t.map (s.bInDir d))) = true
          → ∃ k0 ∈ s.availChannels d, a ≤ s.bInDir d k0 := by
        intro hp
        have hle := of_decide_eq_true hp
        rw [hfold] at hle
        have hmem := pyMax_mem (l := (k :: t).map (s.bInDir d)) (by simp)
        obtain ⟨k0, hk0mem, hk0v⟩ := List.mem_map.mp hmem
        refine ⟨k0, by rw [hav]; exact hk0mem, ?_⟩
        rw [hk0v]
        exact hle
      have hfail : decide (a ≤ foldlMax (s.bInDir d k) (t.map (s.bInDir d))) = false
          → ∀ k0 ∈ s.availChannels d, s.bInDir d k0 < a := by
        intro hp k0 hk0mem
        have hgt := of_decide_eq_false hp
        rw [hfold] at hgt
        have hle : s.bInDir d k0 ≤ pyMax ((k :: t).map (s.bInDir d)) :=
          le_pyMax_of_mem
            (List.mem_map.mpr ⟨k0, by rw [hav] at hk0mem; exact hk0mem, rfl⟩)
        omega
      have hok : (s.boundsUpdate d a
            (decide (a ≤ foldlMax (s.bInDir d k) (t.map (s.bInDir d))))).SInv
          ∧ (s.boundsUpdate d a
            (decide (a ≤ foldlMax (s.bInDir d k) (t.map (s.bInDir d))))).BInv
          ∧ (s.boundsUpdate d a
            (decide (a ≤ foldlMax (s.bInDir d k) (t.map (s.bInDir d))))).tighter s := by
        cases d with
        | true => exact boundsUpdate_dir0_ok hS hB havailne hpass hfail hjam
        | false => exact boundsUpdate_dir1_ok hS hB havailne hpass hfail hjam
      by_cases hu : (s.boundsUpdate d a
          (decide (a ≤ foldlMax (s.bInDir d k) (t.map (s.bInDir d))))).uncertaintyZero = true
      · rw [if_pos hu] at hs'
        subst hs'
        obtain ⟨hS1, hB1, ht1⟩ := hok
        obtain ⟨hS2, hB2, ht2⟩ := collapseStep_ok hS1 hB1 hu
        exact ⟨hS2, hB2, tighter_trans ht2 ht1⟩
      · rw [if_neg hu] at hs'
        subst hs'
        exact hok


/-- `Hop.jam` preserves both invariants (it only touches the jam lists). -/
theorem jam_Inv {s : Hop} (hS : s.SInv) (hB : s.BInv) (i : Nat) (d : Bool) :
    (s.jam i d).SInv ∧ (s.jam i d).BInv ∧ (s.jam i d).tighter s := by
  unfold Hop.jam
  by_cases hc : (s.j d).contains i = true
  · rw [if_pos hc]
    exact ⟨hS, hB, tighter_refl s⟩
  · rw [if_neg hc]
    cases d with
    | true =>
      rw [if_pos rfl]
      refine ⟨SInv_eqfields hS rfl rfl rfl rfl rfl rfl rfl rfl rfl, ?_, ?_⟩
      · exact ⟨hB.bl_lt, hB.bu_ge, hB.hl_lb, hB.hl_lt, hB.h_le, hB.hu_ub,
          hB.gl_lb, hB.gl_lt, hB.g_le, hB.gu_ub, hB.hRu, hB.hRl, hB.gRu, hB.gRl⟩
      · exact ⟨rfl, rfl, rfl, rfl, rfl, rfl, le_refl _, le_refl _, le_refl _,
          le_refl _, fun _ _ => le_refl _, fun _ _ => le_refl _⟩
    | false =>
      rw [if_neg (by simp)]
      refine ⟨SInv_eqfields hS rfl rfl rfl rfl rfl rfl rfl rfl rfl, ?_, ?_⟩
      · exact ⟨hB.bl_lt, hB.bu_ge, hB.hl_lb, hB.hl_lt, hB.h_le, hB.hu_ub,
          hB.gl_lb, hB.gl_lt, hB.g_le, hB.gu_ub, hB.hRu, hB.hRl, hB.gRu, hB.gRl⟩
      · exact ⟨rfl, rfl, rfl, rfl, rfl, rfl, le_refl _, le_refl _, le_refl _,
          le_refl _, fun _ _ => le_refl _, fun _ _ => le_refl _⟩

/-- `Hop.unjam` preserves both invariants. -/
theorem unjam_Inv {s : Hop} (hS : s.SInv) (hB : s.BInv) (i : Nat) (d : Bool) :
    (s.unjam i d).SInv ∧ (s.unjam i d).BInv ∧ (s.unjam i d).tighter s := by
  unfold Hop.unjam
  by_cases hc : (s.j d).contains i = true
  · rw [if_pos hc]
    cases d with
    | true =>
      rw [if_pos rfl]
      refine ⟨SInv_eqfields hS rfl rfl rfl rfl rfl rfl rfl rfl rfl, ?_, ?_⟩
      · exact ⟨hB.bl_lt, hB.bu_ge, hB.hl_lb, hB.hl_lt, hB.h_le, hB.hu_ub,
          hB.gl_lb, hB.gl_lt, hB.g_le, hB.gu_ub, hB.hRu, hB.hRl, hB.gRu, hB.gRl⟩
      · exact ⟨rfl, rfl, rfl, rfl, rfl, rfl, le_refl _, le_refl _, le_refl _,
          le_refl _, fun _ _ => le_refl _, fun _ _ => le_refl _⟩
    | false =>
      rw [if_neg (by simp)]
      refine ⟨SInv_eqfields hS rfl rfl rfl rfl rfl rfl rfl rfl rfl, ?_, ?_⟩
      · exact ⟨hB.bl_lt, hB.bu_ge, hB.hl_lb, hB.hl_lt, hB.h_le, hB.hu_ub,
          hB.gl_lb, hB.gl_lt, hB.g_le, hB.gu_ub, hB.hRu, hB.hRl, hB.gRu, hB.gRl⟩
      · exact ⟨rfl, rfl, rfl, rfl, rfl, rfl, le_refl _, le_refl _, le_refl _,
          le_refl _, fun _ _ => le_refl _, fun _ _ => le_refl _⟩
  · rw [if_neg hc]
    exact ⟨hS, hB, tighter_refl s⟩

/-- The states the probing engine can be in: successful construction
(restricted to valid enabled indices and a balance list of the right
length, see the C8 analysis), followed by any sequence of
`reset_estimates`, `jam`, `unjam` and successful `probe` calls. -/
inductive Reachable : Hop → Prop where
  | init (c : List Int) (e0 e1 : List Nat) (b : List Int) (s : Hop) :
      Hop.init c e0 e1 b = some s →
      (∀ i ∈ e0, i < c.length) → (∀ i ∈ e1, i < c.length) →
      b.length = c.length → Reachable s
  | reset (s : Hop) : Reachable s → Reachable s.resetEstimates
  | jam (s : Hop) (i : Nat) (d : Bool) : Reachable s → Reachable (s.jam i d)
  | unjam (s : Hop) (i : Nat) (d : Bool) : Reachable s → Reachable (s.unjam i d)
  | probe (s : Hop) (d : Bool) (a : Int) (r : Bool) (s' : Hop) :
      Reachable s → s.probe d a = some (r, s') → Reachable s'

/-- Every reachable state satisfies the hop invariant. -/
theorem reachable_Inv {s : Hop} (h : Reachable s) : s.Inv := by
  induction h with
  | init c e0 e1 b s hinit h0 h1 hb => exact init_Inv hinit h0 h1 hb
  | reset s hr ih => exact ⟨reset_SInv ih.1, reset_BInv ih.1⟩
  | jam s i d hr ih =>
    obtain ⟨h1, h2, -⟩ := jam_Inv ih.1 ih.2 i d
    exact ⟨h1, h2⟩
  | unjam s i d hr ih =>
    obtain ⟨h1, h2, -⟩ := unjam_Inv ih.1 ih.2 i d
    exact ⟨h1, h2⟩
  | probe s d a r s' hr hp ih =>
    obtain ⟨h1, h2, -⟩ := probe_Inv ih.1 ih.2 hp
    exact ⟨h1, h2⟩


/-- The hop `Hop([4], [0], [], [3])` right after construction. -/
def hop1 : Hop :=
  Hop.mk [4] [0] [] [] [] [3] 3 0 1 (-1) 4 (-1) 4 [-1] [4]

/-- The state of `hop1` after `probe(dir0, 2)`. -/
def hop2 : Hop :=
  Hop.mk [4] [0] [] [] [] [3] 3 0 1 1 4 (-1) 4 [1] [4]

theorem hop1_reach : Reachable hop1 :=
  Reachable.init [4] [0] [] [3] hop1 (by decide) (by decide) (by decide)
    (by decide)

theorem hop2_reach : Reachable hop2 :=
  Reachable.probe hop1 dir0 2 true hop2 hop1_reach (by decide)

/-- C1: in every reachable estimate state the hidden true balance vector
lies inside `R_h_u`, `R_g_u` and `R_b` and outside both `R_h_l` and
`R_g_l` (as decided by `contains_point`). -/
theorem C1_true_balance_in_rectangles {s : Hop} (h : Reachable s) :
    s.R_h_u.containsPoint s.b = true ∧ s.R_g_u.containsPoint s.b = true
    ∧ s.R_b.containsPoint s.b = true
    ∧ s.R_h_l.containsPoint s.b = false
    ∧ s.R_g_l.containsPoint s.b = false := by
  obtain ⟨hS, hB⟩ := reachable_Inv h
  have hmem := b_mem_F hS hB
  obtain ⟨hin, hout⟩ := Finset.mem_sdiff.mp hmem
  obtain ⟨h2, hb⟩ := Finset.mem_inter.mp hin
  obtain ⟨hhu, hgu⟩ := Finset.mem_inter.mp h2
  rw [Finset.mem_union] at hout
  push_neg at hout
  refine ⟨?_, ?_, ?_, ?_, ?_⟩
  · exact (containsPoint_iff_mem_pts (R_h_u_WF s) hS.blen).mpr hhu
  · exact (containsPoint_iff_mem_pts (R_g_u_WF s) hS.blen).mpr hgu
  · exact (containsPoint_iff_mem_pts (R_b_WF s hS.bllen hS.bulen) hS.blen).mpr hb
  · cases hc : s.R_h_l.containsPoint s.b with
    | false => rfl
    | true =>
      exact absurd ((containsPoint_iff_mem_pts (R_h_l_WF s) hS.blen).mp hc)
        hout.1
  · cases hc : s.R_g_l.containsPoint s.b with
    | false => rfl
    | true =>
      exact absurd ((containsPoint_iff_mem_pts (R_g_l_WF s) hS.blen).mp hc)
        hout.2

/-- C1, witnessed at the freshly constructed `Hop([4], [0], [], [3])`. -/
theorem C1_witness :
    hop1.R_h_u.containsPoint hop1.b = true
    ∧ hop1.R_g_u.containsPoint hop1.b = true
    ∧ hop1.R_b.containsPoint hop1.b = true
    ∧ hop1.R_h_l.containsPoint hop1.b = false
    ∧ hop1.R_g_l.containsPoint hop1.b = false :=
  C1_true_balance_in_rectangles hop1_reach

/-- C2 counterexample: with `R_g_l` not inside `R_g_u`, `S_F_generic`
passes its own assertion (`R_l_l.is_inside(R_u_u)` holds because `R_l_l`
is empty) and returns 1, while the admissible region holds 6 points. -/
theorem C2_counterexample :
    S_F_generic (mkRect [0] [-1]) (mkRect [0] [10]) (mkRect [6] [10])
        (mkRect [0] [5]) (mkRect [0] [10]) = some 1
    ∧ ((Fpts (mkRect [0] [-1]) (mkRect [0] [10]) (mkRect [6] [10])
        (mkRect [0] [5]) (mkRect [0] [10])).card : Int) = 6 := by
  decide

/-- C2 (amended): when additionally `R_h_l.is_inside(R_h_u)` and
`R_g_l.is_inside(R_g_u)` hold — as they do for the rectangles the hop
maintains — the value returned by `S_F_generic` counts exactly the integer
points inside `R_h_u`, `R_g_u` and `R_b` and outside `R_h_l` and
`R_g_l`. -/
theorem C2_S_F_generic_counts {n : Nat} {R_h_l R_h_u R_g_l R_g_u R_b : Rectangle}
    (hn : 1 ≤ n)
    (w1 : R_h_l.WF n) (w2 : R_h_u.WF n) (w3 : R_g_l.WF n) (w4 : R_g_u.WF n)
    (w5 : R_b.WF n)
    (hh : R_h_l.isInside R_h_u = true) (hg : R_g_l.isInside R_g_u = true)
    {v : Int} (hv : S_F_generic R_h_l R_h_u R_g_l R_g_u R_b = some v) :
    v = ((Fpts R_h_l R_h_u R_g_l R_g_u R_b).card : Int) := by
  unfold S_F_generic at hv
  simp only [] at hv
  by_cases hins : (((R_h_l.intersectWith R_g_l).intersectWith R_b).isInside
      ((R_h_u.intersectWith R_g_u).intersectWith R_b)) = true
  · rw [if_pos hins] at hv
    by_cases hpos : 0 ≤ SFvalue R_h_l R_h_u R_g_l R_g_u R_b
    · rw [if_pos hpos, Option.some_inj] at hv
      subst hv
      exact SFvalue_eq_card_Fpts hn w1 w2 w3 w4 w5
        (pts_subset_of_isInside w1 w2 hh) (pts_subset_of_isInside w3 w4 hg)
    · rw [if_neg hpos] at hv
      cases hv
  · rw [if_neg hins] at hv
    cases hv

/-- C2 (amended), witnessed at five concrete one-dimensional rectangles. -/
theorem C2_witness :
    S_F_generic (mkRect [0] [3]) (mkRect [0] [10]) (mkRect [0] [2])
        (mkRect [0] [5]) (mkRect [0] [10]) = some 2
    ∧ (2 : Int) = ((Fpts (mkRect [0] [3]) (mkRect [0] [10]) (mkRect [0] [2])
        (mkRect [0] [5]) (mkRect [0] [10])).card : Int) :=
  ⟨by decide,
    C2_S_F_generic_counts (n := 1) (v := 2) (by decide)
      (by exact mkRect_WF rfl rfl) (by exact mkRect_WF rfl rfl)
      (by exact mkRect_WF rfl rfl) (by exact mkRect_WF rfl rfl)
      (by exact mkRect_WF rfl rfl)
      (by decide) (by decide) (by decide)⟩

/-- C3 (amended): `S_F` never increases across a successful probe from a
reachable state. -/
theorem C3_S_F_nonincreasing {s : Hop} {d : Bool} {a : Int} {r : Bool}
    {s' : Hop} (h : Reachable s) (hp : s.probe d a = some (r, s')) :
    s'.S_F ≤ s.S_F := by
  obtain ⟨hS, hB⟩ := reachable_Inv h
  obtain ⟨hS', hB', ht⟩ := probe_Inv hS hB hp
  exact S_F_mono hS hB hS' hB' ht

/-- C3 (amended), witnessed at `Hop([4], [0], [], [3])` probed with
amount 2. -/
theorem C3_witness : hop2.S_F ≤ hop1.S_F :=
  C3_S_F_nonincreasing (d := dir0) (a := 2) (r := true) hop1_reach (by decide)

/-- C3 counterexample to strict decrease: from the reachable state `hop2`
(with bounds `h_l = 1 < 2 < 4 = h_u`), the probe of amount 2 — strictly
between the bound pair — passes and leaves the state, hence `S_F`,
unchanged at 3. -/
theorem C3_counterexample :
    Hop.init [4] [0] [] [3] = some hop1
    ∧ hop1.probe dir0 2 = some (true, hop2)
    ∧ hop2.h_l < 2 ∧ (2 : Int) < hop2.h_u
    ∧ hop2.probe dir0 2 = some (true, hop2)
    ∧ hop2.S_F = 3 := by
  decide

/-- The hop `Hop([1], [0], [], [1])` right after construction. -/
def hop4 : Hop :=
  Hop.mk [1] [0] [] [] [] [1] 1 0 1 (-1) 1 (-1) 1 [-1] [1]

/-- The state of `hop4` after `probe(dir0, 1)`: fully resolved. -/
def hop5 : Hop :=
  Hop.mk [1] [0] [] [] [] [1] 1 0 1 0 1 (-1) 1 [0] [1]

/-- C4 counterexample: a reachable, fully probed state with
`uncertainty == 0` and yet `S_F = 1`, not 0. -/
theorem C4_counterexample :
    Hop.init [1] [0] [] [1] = some hop4
    ∧ hop4.probe dir0 1 = some (true, hop5)
    ∧ hop5.uncertaintyZero = true
    ∧ hop5.S_F = 1 ∧ hop5.S_F ≠ 0 := by
  decide

/-- C4 (amended): in every reachable state `S_F >= 1` (so `S_F >= 0`
holds, but `S_F == 0` never does), and `uncertainty == 0` exactly when
`S_F == 1`. -/
theorem C4_S_F_vs_uncertainty {s : Hop} (h : Reachable s) :
    1 ≤ s.S_F ∧ (s.uncertaintyZero = true ↔ s.S_F = 1) := by
  obtain ⟨hS, hB⟩ := reachable_Inv h
  have h1 := S_F_pos hS hB
  refine ⟨h1, ?_⟩
  unfold Hop.uncertaintyZero
  rw [hS.gran, decide_eq_true_eq]
  omega

/-- C4 (amended), witnessed at the fully probed one-channel hop. -/
theorem C4_witness :
    1 ≤ hop5.S_F ∧ (hop5.uncertaintyZero = true ↔ hop5.S_F = 1) :=
  C4_S_F_vs_uncertainty
    (Reachable.probe hop4 dir0 1 true hop5
      (Reachable.init [1] [0] [] [1] hop4 (by decide) (by decide) (by decide)
        (by decide))
      (by decide))

/-- C5: the probing rectangle pins one vertex at the origin (dir0) or at
the capacity vector (dir1); the free vertex is the effective vertex, whose
coordinate at channel `i` is `bound` exactly when `(i` enabled in the
probed direction, or `N = 1`, or `bound < 0)` and `bound <= c[i]`, and
`c[i]` otherwise (subtracted from `c[i]` for dir1). -/
theorem C5_probing_rectangle_structure (s : Hop) (bound : Int) :
    (probingRectangle s dir0 bound
        = mkRect (List.replicate s.N 0) (s.effectiveVertex dir0 bound)
      ∧ ∀ i < s.N, (s.effectiveVertex dir0 bound).getD i 0
          = if (s.e0.contains i = true ∨ s.N = 1 ∨ bound < 0)
                ∧ bound ≤ s.c.getD i 0 then bound else s.c.getD i 0)
    ∧ (probingRectangle s dir1 bound
        = mkRect (s.effectiveVertex dir1 bound) s.c
      ∧ ∀ i < s.N, (s.effectiveVertex dir1 bound).getD i 0
          = s.c.getD i 0 - (if (s.e1.contains i = true ∨ s.N = 1 ∨ bound < 0)
                ∧ bound ≤ s.c.getD i 0 then bound else s.c.getD i 0)) := by
  refine ⟨⟨rfl, ?_⟩, ⟨rfl, ?_⟩⟩
  · intro i hi
    rw [effectiveVertex_getD_dir0 s bound i hi]
    rfl
  · intro i hi
    rw [effectiveVertex_getD_dir1 s bound i hi]
    rfl

/-- C7 (amended): `next_dir` never returns a Python `None`.  When the hop
can forward in neither direction it raises its entry assertion (modelled
as `.error ()`); every non-raising return is a direction. -/
theorem C7_next_dir_never_none (s : Hop) (naive jamming : Bool) :
    (s.canForward dir0 = false ∧ s.canForward dir1 = false →
      s.nextDir naive jamming = Except.error ())
    ∧ (s.nextDir naive jamming = Except.error ()
        ∨ ∃ d, s.nextDir naive jamming = Except.ok d) := by
  constructor
  · rintro ⟨h0, h1⟩
    unfold Hop.nextDir
    rw [h0, h1]
    rfl
  · cases hnd : s.nextDir naive jamming with
    | error e => cases e; exact Or.inl rfl
    | ok d => exact Or.inr ⟨d, rfl⟩

/-- C7 counterexample to the `None` return: on the reachable hop with its
only dir0 channel jammed and no dir1 channels, `next_dir` raises its
assertion (`.error ()`) instead of returning `None`; the driver's
`chosen_dir0 is None` check is dead code. -/
theorem C7_counterexample :
    Hop.init [4] [0] [] [3] = some hop1
    ∧ (hop1.jam 0 dir0).canForward dir0 = false
    ∧ (hop1.jam 0 dir0).canForward dir1 = false
    ∧ (hop1.jam 0 dir0).nextDir true false = Except.error () := by
  refine ⟨by decide, by decide, by decide, rfl⟩

/-- C8: the constructor accepts `Hop([5], [0, 1], [], [3])` although
index 1 is out of range for the single-channel capacity list — the index
assertion `max(enabled) <= self.N` is off by one. -/
theorem C8_out_of_range_index_accepted :
    (Hop.init [5] [0, 1] [] [3]).isSome = true
    ∧ 1 ∈ [0, 1] ∧ ¬ (1 < ([5] : List Int).length) := by
  decide

/-- C9: in every reachable state `S_F >= 1`: the admissible region always
holds the true balance vector, so `uncertainty = log2(S_F)` is never taken
of 0. -/
theorem C9_S_F_at_least_one {s : Hop} (h : Reachable s) : 1 ≤ s.S_F := by
  obtain ⟨hS, hB⟩ := reachable_Inv h
  exact S_F_pos hS hB

/-- C9, witnessed at the state reached by probing
`Hop([4], [0], [], [3])` with amount 2. -/
theorem C9_witness : 1 ≤ hop2.S_F :=
  C9_S_F_at_least_one hop2_reach

theorem canForward_iff_avail {s : Hop} {d : Bool} :
    s.canForward d = true ↔ s.availChannels d ≠ [] := by
  unfold Hop.canForward Hop.availChannels
  constructor
  · intro h hcon
    rw [List.filter_eq_nil_iff] at hcon
    rw [Bool.not_eq_true', List.all_eq_false] at h
    obtain ⟨i, hi, hni⟩ := h
    exact absurd (by simpa using hni) (by simpa using hcon i hi)
  · intro h
    rw [Bool.not_eq_true', List.all_eq_false]
    cases hav : (s.e d).filter (fun i => !((s.j d).contains i)) with
    | nil => exact absurd hav h
    | cons k t =>
      have hk : k ∈ (s.e d).filter (fun i => !((s.j d).contains i)) := by
        rw [hav]; exact List.mem_cons_self _ _
      obtain ⟨hmem, hfp⟩ := List.mem_filter.mp hk
      exact ⟨k, hmem, by simpa using hfp⟩

/-- C10: `can_forward(direction)` holds exactly when some channel is
enabled and unjammed in the direction; with no available channel `probe`
raises (`max` of an empty sequence); and with at least one available
channel (and nothing jammed, as in the non-jamming driver) `probe` returns
the comparison of the amount against the maximum forwardable balance over
the available channels. -/
theorem C10_probe_totality (s : Hop) (d : Bool) (a : Int) :
    (s.canForward d = true ↔ s.availChannels d ≠ [])
    ∧ (s.availChannels d = [] → s.probe d a = none)
    ∧ (s.j0 = [] → s.j1 = [] → s.availChannels d ≠ [] →
        ∃ s', s.probe d a
          = some (decide (a ≤ pyMax ((s.availChannels d).map (s.bInDir d))), s')) := by
  refine ⟨canForward_iff_avail, ?_, ?_⟩
  · intro hav
    unfold Hop.probe
    simp only []
    by_cases hguard : (!s.j0.isEmpty || !s.j1.isEmpty) = true
        ∧ 2 ≤ (s.availChannels d).length
    · rw [if_pos hguard]
    · rw [if_neg hguard, hav]
  · intro hj0 hj1 havne
    unfold Hop.probe
    simp only []
    have hjam : (!s.j0.isEmpty || !s.j1.isEmpty) = false := by
      rw [hj0, hj1]
      rfl
    rw [if_neg (by rw [hjam]; rintro ⟨hcon, -⟩; cases hcon)]
    cases hav : s.availChannels d with
    | nil => exact absurd hav havne
    | cons k t =>
      exact ⟨_, rfl⟩

/-- C10, witnessed at `Hop([4], [0], [], [3])`: its jammed copy cannot
forward and `probe` fails; the fresh hop's probe of amount 2 compares 2
against the maximal balance 3. -/
theorem C10_witness :
    (hop1.canForward dir0 = true ↔ hop1.availChannels dir0 ≠ [])
    ∧ (hop1.availChannels dir0 = [] → hop1.probe dir0 2 = none)
    ∧ (hop1.j0 = [] → hop1.j1 = [] → hop1.availChannels dir0 ≠ [] →
        ∃ s', hop1.probe dir0 2
          = some (decide (2 ≤ pyMax ((hop1.availChannels dir0).map (hop1.bInDir dir0))), s')) :=
  C10_probe_totality hop1 dir0 2


/-- The states the non-jamming probing loop visits on
`Hop([1024], [0], [], [β])`: lower/upper `h` bounds `hl < hu` with the
per-channel bounds pinned to them. -/
def hop6 (hl hu β : Int) : Hop :=
  Hop.mk [1024] [0] [] [] [] [β] β 0 1 hl hu (-1) 1024 [hl] [hu]

theorem mkRect1_pos {x y : Int} (h : x ≤ y) :
    mkRect [x] [y] = Rectangle.box [x] [y] := by
  unfold mkRect
  rw [if_neg (by simp), if_pos (by simpa using h)]

theorem mkRect1_neg {x y : Int} (h : y < x) : mkRect [x] [y] = Rectangle.empty := by
  unfold mkRect
  rw [if_neg (by simp), if_neg (by simpa using h)]

theorem S_box1 (x y : Int) : (Rectangle.box [x] [y]).S = max 0 (y - x + 1) := by
  unfold Rectangle.S
  simp

theorem inter1 (a b a' b' : Int) :
    (Rectangle.box [a] [b]).intersectWith (.box [a'] [b'])
      = if b' < a ∨ b < a' then Rectangle.empty
        else mkRect [max a a'] [min b b'] := by
  simp only [Rectangle.intersectWith]
  have hr : List.range ([a] : List Int).length = [0] := rfl
  rw [hr]
  simp only [List.any_cons, List.any_nil, Bool.or_false, List.getD_cons_zero]
  by_cases h : b' < a ∨ b < a'
  · rw [if_pos (by simp only [Bool.or_eq_true, decide_eq_true_eq]; exact h),
      if_pos h]
  · rw [if_neg (by simp only [Bool.or_eq_true, decide_eq_true_eq]; exact h),
      if_neg h]
    rfl

theorem interR_empty (R : Rectangle) : R.intersectWith Rectangle.empty = .empty := by
  cases R <;> rfl

theorem hop6_Rhu {hl hu β : Int} (h : hu ≤ 1024) :
    (hop6 hl hu β).R_h_u = mkRect [0] [hu] := by
  show mkRect [0] [effB [1024] [0] 1 hu 0] = mkRect [0] [hu]
  rw [effB_of_cond (Or.inr (Or.inl rfl)) (by simpa using h)]

theorem hop6_Rhl {hl hu β : Int} (h : hl ≤ 1024) :
    (hop6 hl hu β).R_h_l = mkRect [0] [hl] := by
  show mkRect [0] [effB [1024] [0] 1 hl 0] = mkRect [0] [hl]
  rw [effB_of_cond (Or.inr (Or.inl rfl)) (by simpa using h)]

theorem hop6_Rgu (hl hu β : Int) :
    (hop6 hl hu β).R_g_u = Rectangle.box [0] [1024] := rfl

theorem hop6_Rgl (hl hu β : Int) :
    (hop6 hl hu β).R_g_l = Rectangle.empty := rfl

theorem hop6_Rb (hl hu β : Int) :
    (hop6 hl hu β).R_b = mkRect [hl + 1] [hu] := rfl

theorem hop6_S_F {hl hu β : Int} (h1 : -1 ≤ hl) (h2 : hl < hu) (h3 : hu ≤ 1024) :
    (hop6 hl hu β).S_F = hu - hl := by
  have h4 : (0:Int) ≤ hu := by omega
  unfold Hop.S_F SFvalue
  simp only []
  rw [hop6_Rhu h3, hop6_Rhl (by omega), hop6_Rgu, hop6_Rgl, hop6_Rb,
    mkRect1_pos h4, mkRect1_pos (show hl + 1 ≤ hu by omega)]
  rw [interR_empty, interR_empty]
  show (((Rectangle.box [0] [hu]).intersectWith (.box [0] [1024])).intersectWith
      (.box [hl + 1] [hu])).S - Rectangle.empty.S
    - ((((mkRect [0] [hl]).intersectWith (.box [0] [1024])).intersectWith
      (.box [hl + 1] [hu])).S) + Rectangle.empty.S = hu - hl
  rw [inter1, if_neg (by omega), mkRect1_pos (by omega)]
  rw [inter1]
  rw [if_neg (by omega)]
  rw [show max (0:Int) 0 = 0 by simp, show min hu 1024 = hu by omega,
    mkRect1_pos (by omega)]
  have hlu : (((mkRect [0] [hl]).intersectWith (.box [0] [1024])).intersectWith
      (.box [hl + 1] [hu])).S = 0 := by
    rcases le_or_lt 0 hl with hc | hc
    · rw [mkRect1_pos hc, inter1, if_neg (by omega),
        show max (0:Int) 0 = 0 by simp, show min hl 1024 = hl by omega,
        mkRect1_pos (by omega), inter1, if_pos (by omega)]
      rfl
    · rw [mkRect1_neg hc]
      rfl
  rw [hlu, S_box1, show Rectangle.empty.S = (0:Int) from rfl]
  omega

theorem hop6_probingRect {hl hu β a : Int} (h : a ≤ 1024) :
    probingRectangle (hop6 hl hu β) dir0 a = mkRect [0] [a] := by
  show mkRect [0] [effB [1024] [0] 1 a 0] = mkRect [0] [a]
  rw [effB_of_cond (Or.inr (Or.inl rfl)) (by simpa using h)]

theorem hop6_SFa {hl hu β a : Int} (h1 : -1 ≤ hl) (ha : hl < a)
    (ha2 : a ≤ 1025) :
    (hop6 hl hu β).S_F_a_expected dir0 a = some (a - 1 - hl) := by
  have h0a : 0 ≤ a := by omega
  have hshow : (hop6 hl hu β).S_F_a_expected dir0 a
      = S_F_generic (hop6 hl hu β).R_h_l
          (probingRectangle (hop6 hl hu β) dir0 (a - 1))
          (hop6 hl hu β).R_g_l (hop6 hl hu β).R_g_u
          (mkRect [0] [min 1024 (a - 1)]) := rfl
  rw [hshow, hop6_Rhl (by omega), hop6_Rgl, hop6_Rgu,
    hop6_probingRect (by omega), show min (1024:Int) (a - 1) = a - 1 by omega]
  rcases le_or_lt 1 a with hc | hc
  · have ha1 : (0:Int) ≤ a - 1 := by omega
    unfold S_F_generic
    simp only []
    rw [mkRect1_pos ha1]
    rw [show ((mkRect [0] [hl]).intersectWith Rectangle.empty).intersectWith
        (Rectangle.box [0] [a-1]) = Rectangle.empty by rw [interR_empty]; rfl]
    rw [show Rectangle.empty.isInside (((Rectangle.box [0] [a - 1]).intersectWith
        (Rectangle.box [0] [1024])).intersectWith (Rectangle.box [0] [a - 1]))
      = true from rfl]
    rw [if_pos rfl]
    have hSF : SFvalue (mkRect [0] [hl]) (Rectangle.box [0] [a - 1])
        Rectangle.empty (Rectangle.box [0] [1024]) (Rectangle.box [0] [a - 1])
        = a - 1 - hl := by
      unfold SFvalue
      simp only []
      rw [show ((Rectangle.box [0] [a-1]).intersectWith Rectangle.empty).intersectWith
          (Rectangle.box [0] [a-1]) = Rectangle.empty by rw [interR_empty]; rfl]
      rw [show ((mkRect [0] [hl]).intersectWith Rectangle.empty).intersectWith
          (Rectangle.box [0] [a-1]) = Rectangle.empty by rw [interR_empty]; rfl]
      rw [inter1, if_neg (by omega), mkRect1_pos (by omega), inter1,
        if_neg (by omega), mkRect1_pos (by omega)]
      have hlu : (((mkRect [0] [hl]).intersectWith (.box [0] [1024])).intersectWith
          (.box [0] [a - 1])).S = max 0 (hl + 1) := by
        rcases le_or_lt 0 hl with hd | hd
        · rw [mkRect1_pos hd, inter1, if_neg (by omega), mkRect1_pos (by omega),
            inter1, if_neg (by omega), mkRect1_pos (by omega), S_box1]
          omega
        · rw [mkRect1_neg hd]
          show (0:Int) = 0 ⊔ (hl + 1)
          omega
      rw [hlu, S_box1, show Rectangle.empty.S = (0:Int) from rfl]
      omega
    rw [hSF, if_pos (by omega)]
  · have ha0 : a = 0 := by omega
    have hhl : hl = -1 := by omega
    subst ha0
    subst hhl
    decide

theorem hop6_search {hl hu β half : Int} (hhl : -1 ≤ hl) (hhalf : 1 ≤ half) :
    ∀ k fuel : Nat, ∀ L U a : Int, k < fuel →
      hl + 1 ≤ L → L < hl + 1 + half → hl + 1 + half ≤ U → U ≤ 1024 →
      a = (L + U + 1).fdiv 2 → (U - L).toNat ≤ 2 ^ k →
      (hop6 hl hu β).nextASearch dir0 half fuel L U a = some (hl + 1 + half) := by
  intro k
  induction k with
  | zero =>
    intro fuel L U a hfuel hL1 hLA hAU hU ha hw
    have hU' : U = L + 1 := by omega
    have haval : a = L + 1 := by
      rw [ha, Int.fdiv_eq_ediv _ (by omega)]
      omega
    cases fuel with
    | zero => omega
    | succ f =>
      simp only [Hop.nextASearch]
      rw [hop6_SFa hhl (by omega) (by omega)]
      simp only []
      rw [if_neg (show ¬(a - 1 - hl < half) by omega),
        if_neg (show ¬(a - 1 - hl < half) by omega)]
      rw [if_pos (show (L + a + 1).fdiv 2 = a by
        rw [Int.fdiv_eq_ediv _ (by omega)]
        omega)]
      congr 1
      omega
  | succ k ih =>
    intro fuel L U a hfuel hL1 hLA hAU hU ha hw
    cases fuel with
    | zero => omega
    | succ f =>
      have haea : a = (L + U + 1) / 2 := by
        rw [ha, Int.fdiv_eq_ediv _ (by omega)]
      have haL : L + 1 ≤ a := by omega
      have haU : a ≤ U := by omega
      have hp : (2:Nat)^(k+1) = 2 * 2^k := by rw [pow_succ, Nat.mul_comm]
      simp only [Hop.nextASearch]
      rw [hop6_SFa hhl (by omega) (by omega)]
      simp only []
      by_cases hc : a - 1 - hl < half
      · rw [if_pos hc, if_pos hc]
        rw [if_neg (show ¬((a + U + 1).fdiv 2 = a) by
          rw [Int.fdiv_eq_ediv _ (by omega)]
          omega)]
        exact ih f a U _ (by omega) (by omega) (by omega) hAU hU rfl (by omega)
      · rw [if_neg hc, if_neg hc]
        by_cases hterm : (L + a + 1).fdiv 2 = a
        · rw [if_pos hterm]
          rw [Int.fdiv_eq_ediv _ (by omega)] at hterm
          congr 1
          omega
        · rw [if_neg hterm]
          have hterm' : ¬((L + a + 1) / 2 = a) := by
            rw [← Int.fdiv_eq_ediv _ (by omega)]
            exact hterm
          exact ih f L a _ (by omega) hL1 hLA (by omega) (by omega) rfl
            (by omega)

theorem hop6_nextA {hl hu β : Int} (naive : Bool) (h1 : -1 ≤ hl)
    (h2 : hl + 2 ≤ hu) (h3 : hu ≤ 1024) :
    (hop6 hl hu β).nextA dir0 naive false
      = some (hl + 1 + (hu - hl).fdiv 2) := by
  have hhalfpos : 1 ≤ (hu - hl).fdiv 2 := by
    rw [Int.fdiv_eq_ediv _ (by omega)]
    omega
  have hmid : (hl + 1 + hu + 1).fdiv 2 = hl + 1 + (hu - hl).fdiv 2 := by
    rw [Int.fdiv_eq_ediv _ (by omega), Int.fdiv_eq_ediv _ (by omega)]
    omega
  cases naive with
  | true =>
    show (if (hl + 1 + hu + 1).fdiv 2 > 0
        then some ((hl + 1 + hu + 1).fdiv 2) else none)
      = some (hl + 1 + (hu - hl).fdiv 2)
    rw [if_pos (by omega), hmid]
  | false =>
    show (match (hop6 hl hu β).nextASearch dir0
          (max 1 ((hop6 hl hu β).S_F.fdiv 2)) 200 (hl + 1) hu
          ((hl + 1 + hu + 1).fdiv 2) with
        | none => none
        | some a' => if a' > 0 then some a' else none)
      = some (hl + 1 + (hu - hl).fdiv 2)
    rw [hop6_S_F h1 (by omega) h3,
      show max 1 ((hu - hl).fdiv 2) = (hu - hl).fdiv 2 from max_eq_right hhalfpos]
    rw [hop6_search h1 hhalfpos 10 200 (hl + 1) hu ((hl + 1 + hu + 1).fdiv 2)
      (by omega) (by omega) (by omega)
      (by rw [Int.fdiv_eq_ediv _ (by omega)]; omega) h3 rfl
      (by have hp : (2:Nat)^10 = 1024 := by norm_num
          omega)]
    show (if hl + 1 + (hu - hl).fdiv 2 > 0
        then some (hl + 1 + (hu - hl).fdiv 2) else none)
      = some (hl + 1 + (hu - hl).fdiv 2)
    rw [if_pos (by omega)]

theorem nextDir_dir0_only {s : Hop} (naive : Bool) (he1 : s.e1 = [])
    (hwh : s.worthProbingH = true) :
    s.nextDir naive false = Except.ok dir0 := by
  have hcf0 : s.canForward dir0 = true := by
    unfold Hop.worthProbingH at hwh
    rw [Bool.and_eq_true] at hwh
    exact hwh.1
  have hcf1 : s.canForward dir1 = false := by
    unfold Hop.canForward
    rw [show s.e dir1 = s.e1 from rfl, show s.j dir1 = s.j1 from rfl, he1]
    rfl
  have hwg : s.worthProbingG = false := by
    unfold Hop.worthProbingG
    rw [hcf1]
    rfl
  unfold Hop.nextDir
  rw [hcf0, hcf1, hwg, hwh]
  rfl

theorem hop6_bu_pass {hl hu β a : Int} (ha1 : hl < a) (ha2 : a ≤ hu) :
    (hop6 hl hu β).boundsUpdate dir0 a true = hop6 (a - 1) hu β := by
  have hsu : (decide (hl < a) && decide (a ≤ hu)) = true := by
    simp [ha1, ha2]
  unfold hop6 Hop.boundsUpdate
  simp only [hsu, updWhere, List.isEmpty_nil, List.length_cons, List.length_nil,
    List.headD_cons, beq_self_eq_true, Bool.not_false, Bool.not_true,
    Bool.not_not, Bool.and_self, Bool.true_and, Bool.and_true, Bool.and_false,
    Bool.false_and, Bool.or_self, Bool.false_eq_true, if_true, if_false,
    reduceIte]
  rw [show max hl (a - 1) = a - 1 from max_eq_right (by omega)]

theorem hop6_bu_fail {hl hu β a : Int} (ha1 : hl < a) (ha2 : a ≤ hu) :
    (hop6 hl hu β).boundsUpdate dir0 a false = hop6 hl (a - 1) β := by
  have hsu : (decide (hl < a) && decide (a ≤ hu)) = true := by
    simp [ha1, ha2]
  unfold hop6 Hop.boundsUpdate
  simp only [hsu, updWhere, List.isEmpty_nil, List.length_cons, List.length_nil,
    List.headD_cons, beq_self_eq_true, Bool.not_false, Bool.not_true,
    Bool.not_not, Bool.and_self, Bool.true_and, Bool.and_true, Bool.and_false,
    Bool.false_and, Bool.or_self, Bool.false_eq_true, if_true, if_false,
    reduceIte, List.contains_cons, List.contains_nil, Bool.or_false]
  rw [show min hu (a - 1) = a - 1 from min_eq_right (by omega)]

theorem hop6_cornerPoints {β : Int} (h0 : 0 ≤ β) (h3 : β ≤ 1024) :
    (hop6 (β - 1) β β).cornerPoints = [[β]] := by
  have hDef : (hop6 (β - 1) β β).cornerPoints
      = (match ((hop6 (β - 1) β β).R_h_u.intersectWith
            (hop6 (β - 1) β β).R_g_u).intersectWith (hop6 (β - 1) β β).R_b with
        | .empty => []
        | .box l u => collectCorners
            (((hop6 (β - 1) β β).R_h_u.intersectWith
              (hop6 (β - 1) β β).R_g_l).intersectWith (hop6 (β - 1) β β).R_b)
            (((hop6 (β - 1) β β).R_h_l.intersectWith
              (hop6 (β - 1) β β).R_g_u).intersectWith (hop6 (β - 1) β β).R_b)
            (corners l u) (hop6 (β - 1) β β).S_F) := rfl
  rw [hDef]
  have hRb : (hop6 (β - 1) β β).R_b = Rectangle.box [β] [β] := by
    rw [hop6_Rb]
    rw [show (β - 1 + 1) = β by ring]
    exact mkRect1_pos (le_refl β)
  have hRuu : ((hop6 (β - 1) β β).R_h_u.intersectWith
      (hop6 (β - 1) β β).R_g_u).intersectWith (hop6 (β - 1) β β).R_b
      = Rectangle.box [β] [β] := by
    rw [hop6_Rhu h3, hop6_Rgu, hRb, mkRect1_pos h0, inter1, if_neg (by omega),
      show (0:Int) ⊔ 0 = 0 by simp, show β ⊓ 1024 = β by omega,
      mkRect1_pos (by omega), inter1, if_neg (by omega),
      show (0:Int) ⊔ β = β by omega, show β ⊓ β = β from min_self _,
      mkRect1_pos (le_refl β)]
  have hRul : ((hop6 (β - 1) β β).R_h_u.intersectWith
      (hop6 (β - 1) β β).R_g_l).intersectWith (hop6 (β - 1) β β).R_b
      = Rectangle.empty := by
    rw [hop6_Rgl, interR_empty]
    rfl
  have hRlu : ((hop6 (β - 1) β β).R_h_l.intersectWith
      (hop6 (β - 1) β β).R_g_u).intersectWith (hop6 (β - 1) β β).R_b
      = Rectangle.empty := by
    rw [hop6_Rhl (by omega), hop6_Rgu, hRb]
    rcases le_or_lt 1 β with hc | hc
    · rw [mkRect1_pos (by omega), inter1, if_neg (by omega),
        mkRect1_pos (by omega), inter1, if_pos (by omega)]
    · rw [mkRect1_neg (by omega)]
      rfl
  rw [hRuu, hRul, hRlu, hop6_S_F (by omega) (by omega) h3]
  show collectCorners Rectangle.empty Rectangle.empty [[β], [β]] (β - (β - 1)) = [[β]]
  rw [show β - (β - 1) = 1 by ring]
  rfl

theorem hop6_collapse {β : Int} (h0 : 0 ≤ β) (h3 : β ≤ 1024) :
    (hop6 (β - 1) β β).collapseStep = hop6 (β - 1) β β := by
  unfold Hop.collapseStep
  rw [hop6_cornerPoints h0 h3]
  simp only [updWhere, List.isEmpty_nil, List.isEmpty_cons, Bool.not_true,
    Bool.not_false, if_true, if_false, Bool.false_eq_true, reduceIte,
    List.getD_cons_zero, ite_self]
  show ({ hop6 (β - 1) β β with
      b_l := [β - 1], b_u := [β],
      h_l := max (β - 1) (pyMin [β] - 1),
      h_u := min β (pyMax [β]) } : Hop) = hop6 (β - 1) β β
  rw [show pyMin [β] = β from rfl, show pyMax [β] = β from rfl]
  rw [show max (β - 1) (β - 1) = β - 1 from max_self _,
    show min β β = β from min_self _]
  rfl

theorem hop6_uz {hl hu β : Int} (h1 : -1 ≤ hl) (h2 : hl < hu) (h3 : hu ≤ 1024) :
    (hop6 hl hu β).uncertaintyZero = decide (hu - hl ≤ 1) := by
  unfold Hop.uncertaintyZero
  rw [hop6_S_F h1 h2 h3]
  rfl

theorem hop6_probe {hl hu β a : Int} (h1 : -1 ≤ hl) (ha1 : hl < a)
    (ha2 : a ≤ hu) (hb1 : hl < β) (hb2 : β ≤ hu) (h3 : hu ≤ 1024) :
    (hop6 hl hu β).probe dir0 a
      = some (decide (a ≤ β),
          if a ≤ β then hop6 (a - 1) hu β else hop6 hl (a - 1) β) := by
  have hshow : (hop6 hl hu β).probe dir0 a
      = some (decide (a ≤ β),
          if ((hop6 hl hu β).boundsUpdate dir0 a
              (decide (a ≤ β))).uncertaintyZero = true
          then ((hop6 hl hu β).boundsUpdate dir0 a
              (decide (a ≤ β))).collapseStep
          else (hop6 hl hu β).boundsUpdate dir0 a (decide (a ≤ β))) := rfl
  rw [hshow]
  by_cases hcase : a ≤ β
  · rw [if_pos hcase, show decide (a ≤ β) = true from decide_eq_true hcase]
    rw [hop6_bu_pass ha1 ha2]
    rw [hop6_uz (by omega) (by omega) h3]
    by_cases hz : hu - (a - 1) ≤ 1
    · rw [if_pos (decide_eq_true hz)]
      have hau : a = hu := by omega
      have hbu : β = hu := by omega
      rw [show a - 1 = β - 1 by omega, show hu = β by omega]
      rw [hop6_collapse (by omega) (by omega)]
    · rw [if_neg (by rw [decide_eq_false hz]; exact Bool.false_ne_true)]
  · rw [if_neg hcase, show decide (a ≤ β) = false from decide_eq_false hcase]
    rw [hop6_bu_fail ha1 ha2]
    rw [hop6_uz h1 (by omega) (by omega)]
    by_cases hz : a - 1 - hl ≤ 1
    · rw [if_pos (decide_eq_true hz)]
      have hab : a = hl + 2 := by omega
      have hbv : β = hl + 1 := by omega
      rw [show hl = β - 1 by omega, show a - 1 = β by omega]
      rw [hop6_collapse (by omega) (by omega)]
    · rw [if_neg (by rw [decide_eq_false hz]; exact Bool.false_ne_true)]

/-- The bracket evolution of the non-jamming loop on a single-channel hop:
the probe amount is the bracket midpoint, a passing probe raises the lower
bound, a failing one lowers the upper bound. -/
def gapSteps : Nat → Int → Int → Int → Option Nat
  | 0, _, _, _ => none
  | fuel + 1, hl, hu, β =>
    if hu - hl ≤ 1 then some 0
    else
      let a := hl + 1 + (hu - hl).fdiv 2
      if a ≤ β then (gapSteps fuel (a - 1) hu β).map (· + 1)
      else (gapSteps fuel hl (a - 1) β).map (· + 1)

theorem hop6_init {β : Int} (h0 : 0 ≤ β) (h1 : β ≤ 1024) :
    Hop.init [1024] [0] [] [β] = some (hop6 (-1) 1024 β) := by
  unfold Hop.init
  rw [if_neg (by simp)]
  rw [if_neg (by rintro ⟨-, hc⟩; revert hc; decide)]
  rw [if_neg (by rintro ⟨hne, -⟩; exact hne rfl)]
  rw [if_neg (by
    rw [not_not]
    simp only [List.zip_cons_cons, List.zip_nil_right, List.all_cons,
      List.all_nil, Bool.and_true]
    exact decide_eq_true ⟨h0, h1⟩)]
  rfl

theorem hop6_loop (naive : Bool) :
    ∀ fuel : Nat, ∀ hl hu β : Int, ∀ n m : Nat,
      -1 ≤ hl → hl < β → β ≤ hu → hu ≤ 1024 →
      gapSteps fuel hl hu β = some m →
      probeHopWithoutJamming naive fuel (hop6 hl hu β) n
        = some (n + m, hop6 (β - 1) β β) := by
  intro fuel
  induction fuel with
  | zero =>
    intro hl hu β n m _ _ _ _ hg
    cases hg
  | succ f ih =>
    intro hl hu β n m h1 hb1 hb2 h3 hg
    have hWH : (hop6 hl hu β).worthProbingH = decide (hu - hl > 1) := rfl
    have hWG : (hop6 hl hu β).worthProbingG = false := rfl
    simp only [gapSteps] at hg
    simp only [probeHopWithoutJamming]
    by_cases hgap : hu - hl ≤ 1
    · rw [if_pos hgap] at hg
      rw [Option.some_inj] at hg
      subst hg
      rw [show ((hop6 hl hu β).worthProbingH || (hop6 hl hu β).worthProbingG)
          = false by
        rw [hWH, hWG, Bool.or_false]
        exact decide_eq_false (by omega)]
      rw [if_neg (by simp)]
      rw [show hl = β - 1 by omega, show hu = β by omega]
      rfl
    · rw [if_neg hgap] at hg
      have hAlo : hl + 1 ≤ hl + 1 + (hu - hl).fdiv 2 := by
        rw [Int.fdiv_eq_ediv _ (by omega)]
        omega
      have hAhi : hl + 1 + (hu - hl).fdiv 2 ≤ hu := by
        rw [Int.fdiv_eq_ediv _ (by omega)]
        omega
      rw [show ((hop6 hl hu β).worthProbingH || (hop6 hl hu β).worthProbingG)
          = true by
        rw [hWH, hWG, Bool.or_false]
        exact decide_eq_true (by omega)]
      rw [if_pos rfl]
      rw [nextDir_dir0_only naive rfl (by
        rw [hWH]
        exact decide_eq_true (by omega))]
      simp only []
      rw [hop6_nextA naive h1 (by omega) h3]
      simp only []
      rw [hop6_probe h1 (by omega) (by omega) hb1 hb2 h3]
      simp only []
      by_cases hpass : hl + 1 + (hu - hl).fdiv 2 ≤ β
      · rw [if_pos hpass] at hg
        rw [if_pos hpass]
        cases hrec : gapSteps f (hl + 1 + (hu - hl).fdiv 2 - 1) hu β with
        | none =>
          rw [hrec] at hg
          cases hg
        | some m2 =>
          rw [hrec] at hg
          have hg2 : some (m2 + 1) = some m := hg
          rw [Option.some_inj] at hg2
          rw [ih (hl + 1 + (hu - hl).fdiv 2 - 1) hu β (n + 1) m2 (by omega)
            (by omega) hb2 h3 hrec]
          have hnm : n + 1 + m2 = n + m := by omega
          rw [hnm]
      · rw [if_neg hpass] at hg
        rw [if_neg hpass]
        cases hrec : gapSteps f hl (hl + 1 + (hu - hl).fdiv 2 - 1) β with
        | none =>
          rw [hrec] at hg
          cases hg
        | some m2 =>
          rw [hrec] at hg
          have hg2 : some (m2 + 1) = some m := hg
          rw [Option.some_inj] at hg2
          rw [ih hl (hl + 1 + (hu - hl).fdiv 2 - 1) β (n + 1) m2 h1 hb1
            (by omega) (by omega) hrec]
          have hnm : n + 1 + m2 = n + m := by omega
          rw [hnm]

theorem gapSteps_le : ∀ k fuel : Nat, ∀ hl hu β : Int, k < fuel →
    -1 ≤ hl → hl < β → β ≤ hu → hu - hl ≤ 2 ^ k →
    ∃ m, gapSteps fuel hl hu β = some m ∧ m ≤ k := by
  intro k
  induction k with
  | zero =>
    intro fuel hl hu β hf h1 hb1 hb2 hG
    cases fuel with
    | zero => omega
    | succ f =>
      simp only [gapSteps]
      rw [if_pos (by
        have hp0 : (2:Int)^0 = 1 := pow_zero 2
        omega)]
      exact ⟨0, rfl, le_refl 0⟩
  | succ k ih =>
    intro fuel hl hu β hf h1 hb1 hb2 hG
    cases fuel with
    | zero => omega
    | succ f =>
      simp only [gapSteps]
      by_cases hgap : hu - hl ≤ 1
      · rw [if_pos hgap]
        exact ⟨0, rfl, by omega⟩
      · rw [if_neg hgap]
        have hp : (2:Int)^(k+1) = 2 * 2^k := by ring
        have h2k : (0:Int) < 2^k := pow_pos (by norm_num) k
        have hped : (hu - hl).fdiv 2 = (hu - hl) / 2 :=
          Int.fdiv_eq_ediv _ (by omega)
        by_cases hpass : hl + 1 + (hu - hl).fdiv 2 ≤ β
        · rw [if_pos hpass]
          obtain ⟨m2, hm2, hle⟩ := ih f (hl + 1 + (hu - hl).fdiv 2 - 1) hu β
            (by omega) (by omega) (by omega) hb2 (by omega)
          rw [hm2]
          exact ⟨m2 + 1, rfl, by omega⟩
        · rw [if_neg hpass]
          obtain ⟨m2, hm2, hle⟩ := ih f hl (hl + 1 + (hu - hl).fdiv 2 - 1) β
            (by omega) h1 hb1 (by omega) (by omega)
          rw [hm2]
          exact ⟨m2 + 1, rfl, by omega⟩

theorem gapSteps_ge : ∀ j fuel : Nat, ∀ hl hu β : Int, ∀ m : Nat,
    gapSteps fuel hl hu β = some m → (2:Int) ^ j ≤ hu - hl → j ≤ m := by
  intro j
  induction j with
  | zero =>
    intro fuel hl hu β m _ _
    exact Nat.zero_le m
  | succ j ih =>
    intro fuel hl hu β m hg hG
    cases fuel with
    | zero => cases hg
    | succ f =>
      simp only [gapSteps] at hg
      have hp : (2:Int)^(j+1) = 2 * 2^j := by ring
      have h2j : (0:Int) < 2^j := pow_pos (by norm_num) j
      rw [if_neg (by omega)] at hg
      have hped : (hu - hl).fdiv 2 = (hu - hl) / 2 :=
        Int.fdiv_eq_ediv _ (by omega)
      by_cases hpass : hl + 1 + (hu - hl).fdiv 2 ≤ β
      · rw [if_pos hpass] at hg
        cases hrec : gapSteps f (hl + 1 + (hu - hl).fdiv 2 - 1) hu β with
        | none =>
          rw [hrec] at hg
          cases hg
        | some m2 =>
          rw [hrec] at hg
          have hg2 : some (m2 + 1) = some m := hg
          rw [Option.some_inj] at hg2
          have hrec2 := ih f (hl + 1 + (hu - hl).fdiv 2 - 1) hu β m2 hrec
            (by omega)
          omega
      · rw [if_neg hpass] at hg
        cases hrec : gapSteps f hl (hl + 1 + (hu - hl).fdiv 2 - 1) β with
        | none =>
          rw [hrec] at hg
          cases hg
        | some m2 =>
          rw [hrec] at hg
          have hg2 : some (m2 + 1) = some m := hg
          rw [Option.some_inj] at hg2
          have hrec2 := ih f hl (hl + 1 + (hu - hl).fdiv 2 - 1) β m2 hrec
            (by omega)
          omega

/-- C6 (amended): for `Hop([1024], [0], [], [b])` with any `0 <= b <= 1024`,
construction succeeds, `next_dir` always returns dir0 (dir1 has no enabled
channels), and the non-jamming probing loop — naive or optimal — reaches
zero uncertainty after exactly 10 or 11 probes (not always exactly 10). -/
theorem C6_amended (naive : Bool) {β : Int} (h0 : 0 ≤ β) (h1 : β ≤ 1024) :
    ∃ m : Nat,
      Hop.init [1024] [0] [] [β] = some (hop6 (-1) 1024 β)
      ∧ probeHopWithoutJamming naive 15 (hop6 (-1) 1024 β) 0
          = some (m, hop6 (β - 1) β β)
      ∧ (m = 10 ∨ m = 11)
      ∧ (hop6 (β - 1) β β).uncertaintyZero = true
      ∧ ∀ s : Hop, s.e1 = [] → s.worthProbingH = true →
          s.nextDir naive false = Except.ok dir0 := by
  obtain ⟨m, hgs, hle⟩ := gapSteps_le 11 15 (-1) 1024 β (by omega) (by omega)
    (by omega) h1 (by norm_num)
  have hge := gapSteps_ge 10 15 (-1) 1024 β m hgs (by norm_num)
  have hm1011 : m = 10 ∨ m = 11 := by omega
  refine ⟨m, hop6_init h0 h1, ?_, hm1011, ?_,
    fun s he hw => nextDir_dir0_only naive he hw⟩
  · have hres := hop6_loop naive 15 (-1) 1024 β 0 m (by omega) (by omega) h1
      (by omega) hgs
    rw [Nat.zero_add] at hres
    exact hres
  · rw [hop6_uz (by omega) (by omega) (by omega)]
    exact decide_eq_true (by omega)

/-- C6 (amended), witnessed at the true balance 7 in naive mode. -/
theorem C6_witness :
    ∃ m : Nat,
      Hop.init [1024] [0] [] [(7:Int)] = some (hop6 (-1) 1024 7)
      ∧ probeHopWithoutJamming true 15 (hop6 (-1) 1024 7) 0
          = some (m, hop6 (7 - 1) 7 7)
      ∧ (m = 10 ∨ m = 11)
      ∧ (hop6 (7 - 1) 7 7).uncertaintyZero = true
      ∧ ∀ s : Hop, s.e1 = [] → s.worthProbingH = true →
          s.nextDir true false = Except.ok dir0 :=
  C6_amended true (by decide) (by decide)

/-- C6 counterexample to "exactly 10 probes": with true balance 1024 the
naive non-jamming loop takes 11 probes to reach zero uncertainty. -/
theorem C6_counterexample :
    Hop.init [1024] [0] [] [1024]
      = some (Hop.mk [1024] [0] [] [] [] [1024] 1024 0 1 (-1) 1024 (-1) 1024
          [-1] [1024])
    ∧ probeHopWithoutJamming true 15
        (Hop.mk [1024] [0] [] [] [] [1024] 1024 0 1 (-1) 1024 (-1) 1024
          [-1] [1024]) 0
      = some (11, Hop.mk [1024] [0] [] [] [] [1024] 1024 0 1 1023 1024 (-1)
          1024 [1023] [1024])
    ∧ (11 : Nat) ≠ 10 := by
  refine ⟨by decide, by decide, by decide⟩
